import Mathlib

/-!
# Rate limiter: decision engine, counter store and admission middleware

A shallow embedding of `rate-limiter/internal/{limiter,storage,middleware}`.

* Go `int64` and `time.Duration` (nanoseconds) are `Int`; arithmetic that can
  overflow is wrapped explicitly with `wrap64`.
* Go `error` values are `Option Error` (`none` is `nil`).
* Stateful code is written in explicit state-passing style: a store operation takes
  the store state and returns its Go results together with the next state.
* `Limiter.Check` additionally returns the list of store calls it issued, in order.
-/

namespace RateLimiter

/-! ## Basic types -/

/-- Go `time.Duration`: a signed count of nanoseconds. -/
abbrev Duration := Int

/-- Go `time.Second`. -/
def Second : Duration := 1000000000

/-- Go `error` payload; a nil error is `none : Option Error`. -/
abbrev Error := String

/-- Largest `int64`. -/
def maxInt64 : Int := 9223372036854775807

/-- Smallest `int64`. -/
def minInt64 : Int := -9223372036854775808

/-- Two's complement wrap-around of an integer into the `int64` range. -/
def wrap64 (x : Int) : Int := (x + 9223372036854775808) % 18446744073709551616 - 9223372036854775808

/-- Go `time.Time`, as whole seconds since the Unix epoch plus a nanosecond part. -/
structure Time where
  sec : Int
  nsec : Nat
deriving DecidableEq, Repr

/-- Go `Time.Unix`: seconds since the epoch; the sub-second part is dropped. -/
def Time.Unix (t : Time) : Int := t.sec

/-! ## Decimal formatting (`%d`) -/

/-- The character of a decimal digit. -/
def digitChar (n : Nat) : Char := Char.ofNat (48 + n % 10)

/-- Decimal digits of `n`, least significant first; `fuel` bounds the number of digits. -/
def digitsRev : Nat → Nat → List Char
  | 0, _ => []
  | fuel + 1, n => if n < 10 then [digitChar n] else digitChar n :: digitsRev fuel (n / 10)

/-- Decimal rendering of a natural number. -/
def formatNat (n : Nat) : String := ⟨(digitsRev (n + 1) n).reverse⟩

/-- Decimal rendering of an integer, as `%d` prints an `int64`. -/
def formatInt : Int → String
  | Int.ofNat n => formatNat n
  | Int.negSucc n => "-" ++ formatNat (n + 1)

/-- Value of a digit list, least significant digit first. -/
def digitsValue : List Char → Nat
  | [] => 0
  | c :: cs => (c.toNat - 48) + 10 * digitsValue cs

/-! ## limiter.go -/

/-- The verdict `limiter.Result`. -/
structure Result where
  Allowed : Bool
  RetryAfter : Duration
deriving DecidableEq, Repr

/-- The zero value `Result{}`. -/
def Result.zero : Result := ⟨false, 0⟩

/-- The interface `storage.CounterStore` over a store state `σ`.  Each method returns its Go
results (the error last) and the state after the call. -/
structure CounterStore (σ : Type) where
  Incr : String → Duration → σ → (Int × Option Error) × σ
  SetBlock : String → Duration → σ → Option Error × σ
  IsBlocked : String → σ → (Bool × Duration × Option Error) × σ

/-- One call issued on the `CounterStore`, with its arguments. -/
inductive StoreCall where
  | IsBlocked (id : String)
  | Incr (key : String) (window : Duration)
  | SetBlock (id : String) (blockFor : Duration)
deriving DecidableEq, Repr

/-- The struct `limiter.Limiter`. -/
structure Limiter (σ : Type) where
  store : CounterStore σ

/-- What one `Check` call yields: the verdict, the error, the store state afterwards and the
store calls made, in order. -/
structure Outcome (σ : Type) where
  res : Result
  err : Option Error
  store : σ
  calls : List StoreCall

/-- The function `windowKey`: `fmt.Sprintf("rl:cnt:%s:%d", identifier, epochSec)`. -/
def windowKey (identifier : String) (epochSec : Int) : String :=
  "rl:cnt:" ++ identifier ++ ":" ++ formatInt epochSec

/-- The method `Limiter.Check`. -/
def Limiter.Check {σ : Type} (l : Limiter σ) (identifier : String) (limitPerSecond : Int)
    (blockFor : Duration) (now : Time) (s : σ) : Outcome σ :=
  if limitPerSecond ≤ 0 then
    ⟨⟨true, 0⟩, none, s, []⟩
  else
    match l.store.IsBlocked identifier s with
    | ((blocked, ttl, err), s1) =>
      match err with
      | some e => ⟨Result.zero, some e, s1, [StoreCall.IsBlocked identifier]⟩
      | none =>
        if blocked then
          ⟨⟨false, ttl⟩, none, s1, [StoreCall.IsBlocked identifier]⟩
        else
          let sec := now.Unix
          let key := windowKey identifier sec
          match l.store.Incr key Second s1 with
          | ((count, err2), s2) =>
            match err2 with
            | some e =>
              ⟨Result.zero, some e, s2,
                [StoreCall.IsBlocked identifier, StoreCall.Incr key Second]⟩
            | none =>
              if count > limitPerSecond then
                if blockFor > 0 then
                  match l.store.SetBlock identifier blockFor s2 with
                  | (some e, s3) =>
                    ⟨Result.zero, some e, s3,
                      [StoreCall.IsBlocked identifier, StoreCall.Incr key Second,
                        StoreCall.SetBlock identifier blockFor]⟩
                  | (none, s3) =>
                    ⟨⟨false, blockFor⟩, none, s3,
                      [StoreCall.IsBlocked identifier, StoreCall.Incr key Second,
                        StoreCall.SetBlock identifier blockFor]⟩
                else
                  ⟨⟨false, blockFor⟩, none, s2,
                    [StoreCall.IsBlocked identifier, StoreCall.Incr key Second]⟩
              else
                ⟨⟨true, 0⟩, none, s2,
                  [StoreCall.IsBlocked identifier, StoreCall.Incr key Second]⟩

/-! ## The Redis server behind the go-redis client

`redis_store.go` reaches a Redis server through four calls of the go-redis client: `Incr`,
`Expire`, `Set` with an expiration, and `TTL`.  Client and server are outside the
repository; both are modelled here by what the program can observe of them.

* The client puts whole numbers on the wire: `Expire` sends whole seconds (`formatSec`),
  `Set` sends whole seconds or whole milliseconds (`usePrecise`, `formatMs`), and `TTL`
  multiplies the whole seconds of the reply by `time.Second`.
* The server is a key space of integer values with optional absolute expiry deadlines in
  milliseconds, a clock in nanoseconds that the server reads in whole milliseconds, and a
  script of injected command failures (network errors).  A key is expired once the time
  read is past its deadline.
* The `TTL` reply is in whole seconds.  A Redis server rounds the remaining milliseconds to
  the nearest second; miniredis, the server of `limiter_test.go`, drops the fraction.  The
  state records which of the two the server does; in every other respect the model follows
  a Redis server. -/

/-- Go `time.Millisecond`. -/
def Millisecond : Duration := 1000000

/-- How a server turns the remaining milliseconds of a key into the whole seconds of its
`TTL` reply: `nearest` is a Redis server, `(ms + 500) / 1000`; `down` is miniredis, which
drops the fraction. -/
inductive TTLRounding where
  | nearest
  | down
deriving DecidableEq, Repr

/-- The whole seconds reported for `ms` remaining milliseconds. -/
def TTLRounding.seconds (rd : TTLRounding) (ms : Int) : Int :=
  match rd with
  | TTLRounding.nearest => (ms + 500) / 1000
  | TTLRounding.down => ms / 1000

/-- A stored value with its expiry deadline, in milliseconds on the server clock (`none`:
no expiry). -/
structure RedisEntry where
  val : Int
  expireAt : Option Int
deriving DecidableEq, Repr

/-- The state of the server as seen through one client: the clock in nanoseconds, the keys,
the script of command failures and the rounding of `TTL` replies. -/
structure Redis where
  clock : Int
  keys : String → Option RedisEntry
  faults : List (Option Error)
  rounding : TTLRounding

/-- An empty Redis server at clock `t` on which no command fails. -/
def Redis.empty (t : Int) : Redis := ⟨t, fun _ => none, [], TTLRounding.nearest⟩

/-- The time the server reads off its clock, in whole milliseconds. -/
def Redis.nowMs (r : Redis) : Int := r.clock / 1000000

/-- The entry under `key` when it exists and has not expired: a key is expired when the
time read is greater than its deadline. -/
def Redis.lookup (r : Redis) (key : String) : Option RedisEntry :=
  match r.keys key with
  | none => none
  | some e =>
    match e.expireAt with
    | none => some e
    | some t => if r.nowMs ≤ t then some e else none

/-- Store `e` under `key`. -/
def Redis.put (r : Redis) (key : String) (e : RedisEntry) : Redis :=
  { r with keys := fun k => if k = key then some e else r.keys k }

/-- Remove `key`. -/
def Redis.del (r : Redis) (key : String) : Redis :=
  { r with keys := fun k => if k = key then none else r.keys k }

/-- Let `d` nanoseconds pass on the server clock. -/
def Redis.advance (r : Redis) (d : Duration) : Redis :=
  { r with clock := r.clock + d }

/-- Take the next scripted command fate: `some e` makes the command fail with `e`. -/
def Redis.fault (r : Redis) : Option Error × Redis :=
  match r.faults with
  | [] => (none, r)
  | f :: fs => (f, { r with faults := fs })

/-- The go-redis function `formatSec`: the whole seconds sent for a duration, a positive
duration under one second being raised to 1 and Go's division dropping the fraction. -/
def formatSec (dur : Duration) : Int :=
  if dur > 0 ∧ dur < Second then 1 else Int.tdiv dur Second

/-- The go-redis function `formatMs`: the whole milliseconds sent for a duration, a positive
duration under one millisecond being raised to 1. -/
def formatMs (dur : Duration) : Int :=
  if dur > 0 ∧ dur < Millisecond then 1 else Int.tdiv dur Millisecond

/-- The go-redis function `usePrecise`: whether a duration is not a whole number of seconds
of at least one. -/
def usePrecise (dur : Duration) : Bool :=
  decide (dur < Second) || decide (Int.tmod dur Second ≠ 0)

/-- Command `INCR key`: a missing key counts as 0; the expiry is kept; incrementing the
largest `int64` is an error. -/
def Redis.Incr (r : Redis) (key : String) : Except Error Int × Redis :=
  match r.fault with
  | (some e, r1) => (Except.error e, r1)
  | (none, r1) =>
    match r1.lookup key with
    | none => (Except.ok 1, r1.put key ⟨1, none⟩)
    | some e =>
      if e.val < maxInt64 then (Except.ok (e.val + 1), r1.put key ⟨e.val + 1, e.expireAt⟩)
      else (Except.error "ERR increment or decrement would overflow", r1)

/-- Client call `Expire(key, expiration)`, which sends `EXPIRE key formatSec(expiration)`:
the server answers whether the key exists and sets its deadline that many seconds after the
time read, deleting the key when that deadline is not in the future. -/
def Redis.Expire (r : Redis) (key : String) (expiration : Duration) :
    Except Error Bool × Redis :=
  match r.fault with
  | (some e, r1) => (Except.error e, r1)
  | (none, r1) =>
    match r1.lookup key with
    | none => (Except.ok false, r1)
    | some e =>
      if r1.nowMs + formatSec expiration * 1000 ≤ r1.nowMs then (Except.ok true, r1.del key)
      else (Except.ok true, r1.put key ⟨e.val, some (r1.nowMs + formatSec expiration * 1000)⟩)

/-- The go-redis constant `KeepTTL`. -/
def KeepTTL : Duration := -1

/-- Client call `Set(key, value, expiration)` for an integer value: a positive expiration
is sent as `PX formatMs(expiration)` when `usePrecise` says so and as
`EX formatSec(expiration)` otherwise, `KeepTTL` keeps the present deadline, anything else
stores the value without expiry. -/
def Redis.Set (r : Redis) (key : String) (value : Int) (expiration : Duration) :
    Except Error Unit × Redis :=
  match r.fault with
  | (some e, r1) => (Except.error e, r1)
  | (none, r1) =>
    if expiration > 0 then
      if usePrecise expiration then
        (Except.ok (), r1.put key ⟨value, some (r1.nowMs + formatMs expiration)⟩)
      else
        (Except.ok (), r1.put key ⟨value, some (r1.nowMs + formatSec expiration * 1000)⟩)
    else if expiration = KeepTTL then
      (Except.ok (), r1.put key ⟨value, (r1.lookup key).bind RedisEntry.expireAt⟩)
    else (Except.ok (), r1.put key ⟨value, none⟩)

/-- The reply of the server to `TTL key`: -2 when the key is missing, -1 when it has no
expiry, and otherwise the milliseconds to its deadline in whole seconds. -/
def Redis.ttlReply (r : Redis) (key : String) : Int :=
  match r.lookup key with
  | none => -2
  | some e =>
    match e.expireAt with
    | none => -1
    | some t => r.rounding.seconds (t - r.nowMs)

/-- What the go-redis `DurationCmd` of precision `time.Second` makes of the reply `n`: -2
and -1 are passed on as they are, any other reply is `time.Duration(n) * time.Second`. -/
def durationOfReply (n : Int) : Duration :=
  if n = -2 ∨ n = -1 then n else wrap64 (n * Second)

/-- The duration the client's `TTL` call yields for `key`. -/
def Redis.remaining (r : Redis) (key : String) : Duration :=
  durationOfReply (r.ttlReply key)

/-- Client call `TTL(key)`. -/
def Redis.TTL (r : Redis) (key : String) : Except Error Duration × Redis :=
  match r.fault with
  | (some e, r1) => (Except.error e, r1)
  | (none, r1) => (Except.ok (r1.remaining key), r1)

/-! ## redis_store.go -/

/-- The function `blockKey`. -/
def blockKey (id : String) : String := "rl:block:" ++ id

/-- The method `Store.Incr`; the error of `Expire` is discarded, as in the source. -/
def Store.Incr (key : String) (window : Duration) (s : Redis) : (Int × Option Error) × Redis :=
  match s.Incr key with
  | (Except.error e, s1) => ((0, some e), s1)
  | (Except.ok val, s1) =>
    if val = 1 then ((val, none), (s1.Expire key window).2)
    else ((val, none), s1)

/-- The method `Store.SetBlock`. -/
def Store.SetBlock (id : String) (blockFor : Duration) (s : Redis) : Option Error × Redis :=
  let key := blockKey id
  match s.Set key 1 blockFor with
  | (Except.error e, s1) => (some e, s1)
  | (Except.ok _, s1) => (none, s1)

/-- The method `Store.IsBlocked`. -/
def Store.IsBlocked (id : String) (s : Redis) : (Bool × Duration × Option Error) × Redis :=
  let key := blockKey id
  match s.TTL key with
  | (Except.error e, s1) => ((false, 0, some e), s1)
  | (Except.ok ttl, s1) =>
    if ttl > 0 then ((true, ttl, none), s1)
    else ((false, 0, none), s1)

/-- The Redis-backed `CounterStore`: what `redis.New(client)` provides. -/
def redisStore : CounterStore Redis := ⟨Store.Incr, Store.SetBlock, Store.IsBlocked⟩

/-- The limiter of `main.go`: `limiter.New(redis.New(client))`. -/
def redisLimiter : Limiter Redis := ⟨redisStore⟩

/-- A schedule of checks of one identifier under one rule: before each check the server
clock advances by the given delay, then `Check` runs with the given `now`. -/
def checkSeq (identifier : String) (limitPerSecond : Int) (blockFor : Duration) :
    List (Duration × Time) → Redis → List (Outcome Redis)
  | [], _ => []
  | (d, now) :: rest, s =>
    let o := redisLimiter.Check identifier limitPerSecond blockFor now (s.advance d)
    o :: checkSeq identifier limitPerSecond blockFor rest o.store

/-- Verdict and error of an outcome. -/
def Outcome.verdict {σ : Type} (o : Outcome σ) : Result × Option Error := (o.res, o.err)

/-! ## config.go -/

/-- The string type `config.Mode`. -/
abbrev Mode := String

/-- The constant `config.ModeIP`. -/
def ModeIP : Mode := "ip"

/-- The constant `config.ModeToken`. -/
def ModeToken : Mode := "token"

/-- The constant `config.ModeAuto`. -/
def ModeAuto : Mode := "auto"

/-- The struct `config.TokenOverride`. -/
structure TokenOverride where
  LimitPerSecond : Int
  BlockForSeconds : Int
deriving DecidableEq, Repr

/-- The struct `config.Config`; the map `TokenOverrides` is a partial function on tokens. -/
structure Config where
  Port : String
  Mode : Mode
  DefaultLimitPerSec : Int
  DefaultBlockSeconds : Int
  TokenHeader : String
  RedisAddr : String
  RedisDB : Int
  RedisPassword : String
  TokenOverrides : String → Option TokenOverride

/-! ## Go library functions used by the middleware

Go strings are taken to be valid UTF-8, so that a string is its list of code points. -/

/-- Go `unicode.IsSpace`. -/
def isSpace (c : Char) : Bool :=
  let n := c.toNat
  (9 ≤ n && n ≤ 13) || n = 32 || n = 0x85 || n = 0xA0 || n = 0x1680 ||
    (0x2000 ≤ n && n ≤ 0x200A) || n = 0x2028 || n = 0x2029 || n = 0x202F || n = 0x205F ||
    n = 0x3000

/-- Go `strings.TrimSpace`. -/
def TrimSpace (s : String) : String :=
  ⟨((s.data.dropWhile isSpace).reverse.dropWhile isSpace).reverse⟩

/-- The pieces of a character list between occurrences of `sep`. -/
def splitChars (sep : Char) : List Char → List (List Char)
  | [] => [[]]
  | c :: cs =>
    if c = sep then [] :: splitChars sep cs
    else
      match splitChars sep cs with
      | [] => [[c]]
      | p :: ps => (c :: p) :: ps

/-- Go `strings.Split` for a one-character separator. -/
def Split (s : String) (sep : Char) : List String := (splitChars sep s.data).map String.mk

/-- Go `strings.ReplaceAll` for a one-character pattern and replacement. -/
def ReplaceAll (s : String) (old new : Char) : String :=
  ⟨s.data.map (fun c => if c = old then new else c)⟩

/-- Index of the first occurrence of `c`. -/
def indexByte (s : List Char) (c : Char) : Option Nat :=
  match s with
  | [] => none
  | x :: xs => if x = c then some 0 else (indexByte xs c).map (· + 1)

/-- Index of the last occurrence of `c`. -/
def lastIndexByte (s : List Char) (c : Char) : Option Nat :=
  match s with
  | [] => none
  | x :: xs =>
    match lastIndexByte xs c with
    | some i => some (i + 1)
    | none => if x = c then some 0 else none

/-- Go `net.SplitHostPort`; the error carries the reason only. -/
def SplitHostPort (hostport : String) : Except String (String × String) :=
  let hp := hostport.data
  match lastIndexByte hp ':' with
  | none => Except.error "missing port in address"
  | some i =>
    let checkRest (host : List Char) (j k : Nat) : Except String (String × String) :=
      if (indexByte (hp.drop j) '[').isSome then Except.error "unexpected '[' in address"
      else if (indexByte (hp.drop k) ']').isSome then Except.error "unexpected ']' in address"
      else Except.ok (⟨host⟩, ⟨hp.drop (i + 1)⟩)
    if hp.head? = some '[' then
      match indexByte hp ']' with
      | none => Except.error "missing ']' in address"
      | some close =>
        if close + 1 = hp.length then Except.error "missing port in address"
        else if close + 1 = i then checkRest ((hp.take close).drop 1) 1 (close + 1)
        else if hp.get? (close + 1) = some ':' then Except.error "too many colons in address"
        else Except.error "missing port in address"
    else
      let host := hp.take i
      if (indexByte host ':').isSome then Except.error "too many colons in address"
      else checkRest host 0 0

/-- Go `lessThanHalf` of package `time`: `uint64(x)+uint64(x) < uint64(y)`. -/
def lessThanHalf (x y : Duration) : Bool :=
  (x % 18446744073709551616 + x % 18446744073709551616) % 18446744073709551616
    < y % 18446744073709551616

/-- Go `Duration.Round`: round `d` to the nearest multiple of `m`, halves away from zero,
saturating at the ends of the `int64` range. -/
def Duration.Round (d m : Duration) : Duration :=
  if m ≤ 0 then d
  else
    let r := Int.tmod d m
    if d < 0 then
      let r := -r
      if lessThanHalf r m then d + r
      else
        let d1 := wrap64 (d - m + r)
        if d1 < d then d1 else minInt64
    else
      if lessThanHalf r m then d - r
      else
        let d1 := wrap64 (d + m - r)
        if d1 > d then d1 else maxInt64

/-! ## ratelimit.go -/

/-- An inbound `*http.Request` as far as the middleware reads it: `Header k` is the value of
`r.Header.Get(k)`. -/
structure Request where
  Header : String → String
  RemoteAddr : String

/-- The interface `limiter.Checker` over a state `σ`. -/
structure Checker (σ : Type) where
  Check : String → Int → Duration → Time → σ → (Result × Option Error) × σ

/-- A `Limiter` seen through the `Checker` interface. -/
def Limiter.toChecker {σ : Type} (l : Limiter σ) : Checker σ :=
  ⟨fun identifier limitPerSecond blockFor now s =>
    let o := l.Check identifier limitPerSecond blockFor now s
    ((o.res, o.err), o.store)⟩

/-- The struct `RateLimitMiddleware`. -/
structure RateLimitMiddleware (σ : Type) where
  limiter : Checker σ
  cfg : Config

/-- The function `safeIdentifier`. -/
def safeIdentifier (s : String) : String :=
  let s := ReplaceAll s ' ' '_'
  let s := ReplaceAll s '\n' '_'
  let s := ReplaceAll s '\r' '_'
  s

/-- The function `clientIP`. -/
def clientIP (r : Request) : String :=
  let xff := r.Header "X-Forwarded-For"
  let forwarded : Option String :=
    if xff ≠ "" then
      match Split xff ',' with
      | [] => none
      | p :: _ =>
        let ip := TrimSpace p
        if ip ≠ "" then some ip else none
    else none
  match forwarded with
  | some ip => ip
  | none =>
    match SplitHostPort r.RemoteAddr with
    | Except.ok (host, _) => if host ≠ "" then host else r.RemoteAddr
    | Except.error _ => r.RemoteAddr

/-- The method `resolveRule`: identifier, limit and block seconds for a request. -/
def RateLimitMiddleware.resolveRule {σ : Type} (m : RateLimitMiddleware σ) (r : Request) :
    String × Int × Int :=
  let headerToken := TrimSpace (r.Header m.cfg.TokenHeader)
  let ip := clientIP r
  if m.cfg.Mode = ModeToken then
    let identifier := safeIdentifier ("token:" ++ headerToken)
    match m.cfg.TokenOverrides headerToken with
    | some ov => (identifier, ov.LimitPerSecond, ov.BlockForSeconds)
    | none => (identifier, m.cfg.DefaultLimitPerSec, m.cfg.DefaultBlockSeconds)
  else if m.cfg.Mode = ModeIP then
    (safeIdentifier ("ip:" ++ ip), m.cfg.DefaultLimitPerSec, m.cfg.DefaultBlockSeconds)
  else
    if headerToken ≠ "" then
      let identifier := safeIdentifier ("token:" ++ headerToken)
      match m.cfg.TokenOverrides headerToken with
      | some ov => (identifier, ov.LimitPerSecond, ov.BlockForSeconds)
      | none => (identifier, m.cfg.DefaultLimitPerSec, m.cfg.DefaultBlockSeconds)
    else
      (safeIdentifier ("ip:" ++ ip), m.cfg.DefaultLimitPerSec, m.cfg.DefaultBlockSeconds)

/-- The loop of `strconvItoa`: prepend the digits of `i` while `i > 0`. -/
def itoaLoop : Nat → Int → List Char → List Char
  | 0, _, buf => buf
  | fuel + 1, i, buf =>
    if i > 0 then itoaLoop fuel (Int.tdiv i 10) (digitChar (Int.tmod i 10).toNat :: buf)
    else buf

/-- The function `strconvItoa` on a 64-bit `int`. -/
def strconvItoa (i : Int) : String :=
  if i = 0 then "0"
  else
    let neg := decide (i < 0)
    let i := if i < 0 then wrap64 (-i) else i
    let buf := itoaLoop i.toNat i []
    ⟨if neg then '-' :: buf else buf⟩

/-- The function `formatRetryAfter`. -/
def formatRetryAfter (d : Duration) : String :=
  let secs := Int.tdiv (Duration.Round d Second) Second
  let secs := if secs < 1 then 1 else secs
  strconvItoa secs

/-- What a handler does with its `http.ResponseWriter` `w` and the request, in order. -/
inductive Effect where
  /-- `w.Header().Set(key, value)` -/
  | setHeader (key value : String)
  /-- `w.WriteHeader(code)` -/
  | writeHeader (code : Nat)
  /-- `w.Write(body)` -/
  | write (body : String)
  /-- `next.ServeHTTP(w, r)` -/
  | next (r : Request)

/-- Go `http.Error(w, msg, code)`: plain-text headers, the status code, then the message and
a newline as the body. -/
def httpError (msg : String) (code : Nat) : List Effect :=
  [Effect.setHeader "Content-Type" "text/plain; charset=utf-8",
    Effect.setHeader "X-Content-Type-Options" "nosniff",
    Effect.writeHeader code,
    Effect.write (msg ++ "\n")]

/-- Go `http.StatusInternalServerError`. -/
def StatusInternalServerError : Nat := 500

/-- Go `http.StatusTooManyRequests`. -/
def StatusTooManyRequests : Nat := 429

/-- The body written on a denial. -/
def denialBody : String :=
  "\x7b\"message\":\"you have reached the maximum number of requests or actions allowed within a certain time frame\"\x7d"

/-- The handler returned by `RateLimitMiddleware.Handler(next)`, run on request `r` with
`time.Now() = now` and checker state `s`: its effects on `w` and the checker state after. -/
def RateLimitMiddleware.Handler {σ : Type} (m : RateLimitMiddleware σ) (r : Request)
    (now : Time) (s : σ) : List Effect × σ :=
  match m.resolveRule r with
  | (identifier, limit, blockFor) =>
    match m.limiter.Check identifier limit (wrap64 (blockFor * Second)) now s with
    | ((res, err), s1) =>
      match err with
      | some _ => (httpError "internal error" StatusInternalServerError, s1)
      | none =>
        if !res.Allowed then
          ([Effect.setHeader "Content-Type" "application/json"]
            ++ (if res.RetryAfter > 0 then
                  [Effect.setHeader "Retry-After" (formatRetryAfter res.RetryAfter)]
                else [])
            ++ [Effect.writeHeader StatusTooManyRequests, Effect.write denialBody], s1)
        else
          ([Effect.next r], s1)

/-- The `Check` call the handler issues for request `r`: the resolved rule, the block
seconds turned into a `time.Duration`, and the current time. -/
def RateLimitMiddleware.checkCall {σ : Type} (m : RateLimitMiddleware σ) (r : Request)
    (now : Time) (s : σ) : (Result × Option Error) × σ :=
  m.limiter.Check (m.resolveRule r).1 (m.resolveRule r).2.1
    (wrap64 ((m.resolveRule r).2.2 * Second)) now s

/-- The response as a client sees it: status line, headers and body.  `Code = none` means
the header has not been written yet. -/
structure ResponseRecorder where
  Code : Option Nat
  Header : List (String × String)
  Body : String
deriving DecidableEq, Repr

/-- A response writer nothing has been written to. -/
def ResponseRecorder.fresh : ResponseRecorder := ⟨none, [], ""⟩

/-- The effect of one writer call on the response; headers set after the status line went
out do not reach the client, a second `WriteHeader` is ignored, and the first `Write`
sends status 200 if none was written.  A call of the next handler is played by `next`. -/
def ResponseRecorder.step (next : Request → ResponseRecorder → ResponseRecorder)
    (w : ResponseRecorder) : Effect → ResponseRecorder
  | Effect.setHeader key value =>
    match w.Code with
    | some _ => w
    | none => { w with Header := (key, value) :: w.Header.filter (fun p => p.1 ≠ key) }
  | Effect.writeHeader code =>
    match w.Code with
    | some _ => w
    | none => { w with Code := some code }
  | Effect.write body =>
    match w.Code with
    | some _ => { w with Body := w.Body ++ body }
    | none => { w with Code := some 200, Body := w.Body ++ body }
  | Effect.next r => next r w

/-- Play a list of effects on a response writer. -/
def ResponseRecorder.replay (next : Request → ResponseRecorder → ResponseRecorder)
    (w : ResponseRecorder) (effects : List Effect) : ResponseRecorder :=
  effects.foldl (ResponseRecorder.step next) w

/-- The requests handed to the next handler, in order. -/
def nextCalls : List Effect → List Request
  | [] => []
  | Effect.next r :: rest => r :: nextCalls rest
  | _ :: rest => nextCalls rest

/-- The writer calls among the effects (everything but calls of the next handler). -/
def ownWrites : List Effect → List Effect
  | [] => []
  | Effect.next _ :: rest => ownWrites rest
  | e :: rest => e :: ownWrites rest

/-! ## Concrete stores, configuration and request used in the examples -/

/-- A server holding one counter at 1 for `ip:1.2.3.4` in second 0, on which the third
command fails. -/
def failingSetState : Redis :=
  ⟨0, fun k => if k = windowKey "ip:1.2.3.4" 0 then some ⟨1, none⟩ else none,
    [none, none, some "connection refused"], TTLRounding.nearest⟩

/-- A server at clock 0 whose counter for `token:abc` in second 100 stands at 2 with one
second to live. -/
def atLimitState : Redis :=
  ⟨0, fun k => if k = windowKey "token:abc" 100 then some ⟨2, some 1000⟩ else none, [],
    TTLRounding.nearest⟩

/-- A server at clock 0 on which `token:abc` is blocked for four more seconds and has no
counter. -/
def blockedState : Redis :=
  ⟨0, fun k => if k = blockKey "token:abc" then some ⟨1, some 4000⟩ else none, [],
    TTLRounding.nearest⟩

/-- A server on which `token:abc` is blocked and the next command fails. -/
def blockedDownState : Redis :=
  ⟨0, fun k => if k = blockKey "token:abc" then some ⟨1, some 4000⟩ else none,
    [some "connection refused"], TTLRounding.nearest⟩

/-- An empty server on which the next command fails. -/
def downState : Redis := ⟨0, fun _ => none, [some "connection refused"], TTLRounding.nearest⟩

/-- The server `downState` after its failing command. -/
def downStateAfter : Redis := ⟨0, fun _ => none, [], TTLRounding.nearest⟩

/-- An empty miniredis server at clock 0 on which no command fails. -/
def miniredisEmpty : Redis := ⟨0, fun _ => none, [], TTLRounding.down⟩

/-- A server at clock 0, rounding its `TTL` replies by `rd`, on which the block record of
`token:abc` has `ms` milliseconds to live. -/
def blockState (rd : TTLRounding) (ms : Int) : Redis :=
  ⟨0, fun k => if k = blockKey "token:abc" then some ⟨1, some ms⟩ else none, [], rd⟩

/-- The scenario of a block under the rule `(1, B)` for `token:abc` on the server `s`: two
checks at `T = 100s`, of which the second exceeds the limit, and a third check at `now3`
made `d` later on the server clock. -/
def blockScenario (s : Redis) (B d : Duration) (now3 : Time) : List (Outcome Redis) :=
  checkSeq "token:abc" 1 B [(0, ⟨100, 0⟩), (0, ⟨100, 0⟩), (d, now3)] s

/-- A token-mode configuration: 2 requests per second, blocks of 5 seconds. -/
def tokenConfig : Config :=
  ⟨"8080", ModeToken, 2, 5, "API_KEY", "localhost:6379", 0, "", fun _ => none⟩

/-- The middleware of `main.go` over the Redis-backed limiter with `tokenConfig`. -/
def tokenMiddleware : RateLimitMiddleware Redis := ⟨redisLimiter.toChecker, tokenConfig⟩

/-- A request presenting the credential `abc` from `1.2.3.4`. -/
def abcRequest : Request := ⟨fun k => if k = "API_KEY" then "abc" else "", "1.2.3.4:5555"⟩

/-! ## config.go: parsing the override table -/

/-- The two causes of a `*strconv.NumError`: `strconv.ErrSyntax` and `strconv.ErrRange`. -/
inductive NumError where
  | ErrSyntax
  | ErrRange
deriving DecidableEq, Repr

/-- Largest `uint64`. -/
def maxUint64 : Nat := 18446744073709551615

/-- Whether `c` is one of `0` to `9`. -/
def isDigit (c : Char) : Bool := 48 ≤ c.toNat && c.toNat ≤ 57

/-- The digit loop of Go `strconv.ParseUint(s, 10, 64)` with the value `n` read so far: a
character that is no decimal digit is a syntax error, a value past `uint64` a range error. -/
def parseUintLoop : List Char → Nat → Except NumError Nat
  | [], n => Except.ok n
  | c :: cs, n =>
    if !isDigit c then Except.error NumError.ErrSyntax
    else if n ≥ maxUint64 / 10 + 1 then Except.error NumError.ErrRange
    else if n * 10 + (c.toNat - 48) > maxUint64 then Except.error NumError.ErrRange
    else parseUintLoop cs (n * 10 + (c.toNat - 48))

/-- Go `strconv.ParseUint(s, 10, 64)`. -/
def ParseUint (s : List Char) : Except NumError Nat :=
  match s with
  | [] => Except.error NumError.ErrSyntax
  | _ :: _ => parseUintLoop s 0

/-- Go `strconv.ParseInt(s, 10, 64)`. -/
def ParseInt (s : String) : Except NumError Int :=
  match s.data with
  | [] => Except.error NumError.ErrSyntax
  | c :: cs =>
    let neg := decide (c = '-')
    let rest := if c = '+' ∨ c = '-' then cs else c :: cs
    match ParseUint rest with
    | Except.error e => Except.error e
    | Except.ok un =>
      if !neg && un ≥ 9223372036854775808 then Except.error NumError.ErrRange
      else if neg && un > 9223372036854775808 then Except.error NumError.ErrRange
      else Except.ok (if neg then -(un : Int) else (un : Int))

/-- The three errors `parseTokenOverrides` builds with `fmt.Errorf`, by their arguments. -/
inductive OverrideError where
  /-- `invalid RATE_LIMIT_TOKEN_OVERRIDES item: %s` -/
  | invalidItem (item : String)
  /-- `invalid limit in RATE_LIMIT_TOKEN_OVERRIDES ...: %w` -/
  | invalidLimit (item : String) (cause : NumError)
  /-- `invalid block seconds in RATE_LIMIT_TOKEN_OVERRIDES ...: %w` -/
  | invalidBlock (item : String) (cause : NumError)
deriving DecidableEq, Repr

/-- The loop of `parseTokenOverrides` over the comma-separated parts, writing into the
override table as it goes and returning at the first malformed item. -/
def parseOverrideParts : List String → (String → Option TokenOverride) →
    Option OverrideError × (String → Option TokenOverride)
  | [], table => (none, table)
  | part :: rest, table =>
    let p := TrimSpace part
    if p = "" then parseOverrideParts rest table
    else
      match Split p ':' with
      | [f0, f1, f2] =>
        let token := TrimSpace f0
        match ParseInt (TrimSpace f1) with
        | Except.error e => (some (OverrideError.invalidLimit p e), table)
        | Except.ok lim =>
          match ParseInt (TrimSpace f2) with
          | Except.error e => (some (OverrideError.invalidBlock p e), table)
          | Except.ok blk =>
            parseOverrideParts rest (fun k => if k = token then some ⟨lim, blk⟩ else table k)
      | _ => (some (OverrideError.invalidItem p), table)

/-- The function `parseTokenOverrides`; `env` is the value of
`os.Getenv("RATE_LIMIT_TOKEN_OVERRIDES")`.  Returns the error and the configuration with
the table as the function left it. -/
def parseTokenOverrides (env : String) (cfg : Config) : Option OverrideError × Config :=
  let raw := TrimSpace env
  if raw = "" then (none, cfg)
  else
    let parts := Split raw ','
    ((parseOverrideParts parts cfg.TokenOverrides).1,
      { cfg with TokenOverrides := (parseOverrideParts parts cfg.TokenOverrides).2 })

/-- The token and rule an item stands for when it has exactly three colon-separated fields
whose second and third, trimmed, are base-10 `int64` numbers. -/
def overrideOfItem (p : String) : Option (String × TokenOverride) :=
  match Split p ':' with
  | [f0, f1, f2] =>
    match ParseInt (TrimSpace f1), ParseInt (TrimSpace f2) with
    | Except.ok lim, Except.ok blk => some (TrimSpace f0, ⟨lim, blk⟩)
    | _, _ => none
  | _ => none

/-- The items of a raw setting: its comma-separated pieces, trimmed, the empty ones
skipped. -/
def overrideItems (env : String) : List String :=
  ((Split env ',').map TrimSpace).filter (fun p => p ≠ "")

/-- The rule of `token` in a list of (token, rule) entries, the last entry for a token
winning. -/
def lastOverride : List (String × TokenOverride) → String → Option TokenOverride
  | [], _ => none
  | (k, v) :: rest, token =>
    match lastOverride rest token with
    | some x => some x
    | none => if k = token then some v else none

/-- The character list `strings.TrimSpace` leaves of `l`. -/
def trimChars (l : List Char) : List Char :=
  ((l.dropWhile isSpace).reverse.dropWhile isSpace).reverse

/-- The configuration `config.Load` starts from before reading the overrides, with an empty
table. -/
def baseConfig : Config :=
  ⟨"8080", ModeAuto, 10, 300, "API_KEY", "localhost:6379", 0, "", fun _ => none⟩

/-! ## Definitions used to state the properties of the resolver and the stores -/

/-- The same middleware with another mode in its configuration. -/
def RateLimitMiddleware.withMode {σ : Type} (m : RateLimitMiddleware σ) (mode : Mode) :
    RateLimitMiddleware σ :=
  { m with cfg := { m.cfg with Mode := mode } }

/-- The retry hint as the specification words it: the decimal string of the ceiling of `d`
in whole seconds, at least 1. -/
def retryAfterCeilSpec (d : Duration) : String :=
  formatInt (max 1 (Int.ceil ((d : ℚ) / (Second : ℚ))))

/-- The milliseconds after which a record written by `Set(key, value, expiration)` with a
positive expiration expires: what the client sends as `PX` or, in seconds, as `EX`. -/
def expirationMs (expiration : Duration) : Int :=
  if usePrecise expiration then formatMs expiration else formatSec expiration * 1000

/-- The value held under `key`, a missing or expired key counting as 0. -/
def Redis.valueOf (r : Redis) (key : String) : Int :=
  match r.lookup key with
  | some e => e.val
  | none => 0

/-- The expiry deadline of `key`, if the key is live and has one. -/
def Redis.expiryOf (r : Redis) (key : String) : Option Int :=
  (r.lookup key).bind RedisEntry.expireAt

/-- A configuration in automatic mode with an override for the credential `abc`. -/
def autoConfig : Config :=
  ⟨"8080", ModeAuto, 10, 300, "API_KEY", "localhost:6379", 0, "",
    fun t => if t = "abc" then some ⟨100, 60⟩ else none⟩

/-- The middleware over the Redis-backed limiter with `autoConfig`. -/
def autoMiddleware : RateLimitMiddleware Redis := ⟨redisLimiter.toChecker, autoConfig⟩

/-- A request without credential, forwarded for `9.9.9.9` through a proxy at `1.2.3.4`. -/
def forwardedRequest : Request :=
  ⟨fun k => if k = "X-Forwarded-For" then " 9.9.9.9 , 1.1.1.1" else "", "1.2.3.4:5555"⟩

/-- A server whose only key, the counter `k`, is missing, and whose second command fails. -/
def expireFailsState : Redis :=
  ⟨0, fun _ => none, [none, some "connection reset"], TTLRounding.nearest⟩

/-- A server on which the key `k` holds 0 with ten seconds to live. -/
def zeroCounterState : Redis :=
  ⟨0, fun key => if key = "k" then some ⟨0, some 10000⟩ else none, [], TTLRounding.nearest⟩

/-- A server on which the counter `k` stands at 3 with half a second to live. -/
def liveCounterState : Redis :=
  ⟨0, fun key => if key = "k" then some ⟨3, some 500⟩ else none, [], TTLRounding.nearest⟩

/-! ## Lemmas: keys and the Redis model -/

theorem windowKey_ne_blockKey (a b : String) (sec : Int) : windowKey a sec ≠ blockKey b := by
  intro h
  have h2 := congrArg String.data h
  simp [windowKey, blockKey, String.data_append] at h2

@[simp] theorem Redis.put_keys (r : Redis) (key : String) (e : RedisEntry) (k : String) :
    (r.put key e).keys k = if k = key then some e else r.keys k := rfl

@[simp] theorem Redis.put_clock (r : Redis) (key : String) (e : RedisEntry) :
    (r.put key e).clock = r.clock := rfl

@[simp] theorem Redis.put_faults (r : Redis) (key : String) (e : RedisEntry) :
    (r.put key e).faults = r.faults := rfl

@[simp] theorem Redis.put_rounding (r : Redis) (key : String) (e : RedisEntry) :
    (r.put key e).rounding = r.rounding := rfl

@[simp] theorem Redis.put_nowMs (r : Redis) (key : String) (e : RedisEntry) :
    (r.put key e).nowMs = r.nowMs := rfl

@[simp] theorem Redis.advance_keys (r : Redis) (d : Duration) : (r.advance d).keys = r.keys := rfl

@[simp] theorem Redis.advance_clock (r : Redis) (d : Duration) :
    (r.advance d).clock = r.clock + d := rfl

@[simp] theorem Redis.advance_faults (r : Redis) (d : Duration) :
    (r.advance d).faults = r.faults := rfl

@[simp] theorem Redis.advance_rounding (r : Redis) (d : Duration) :
    (r.advance d).rounding = r.rounding := rfl

theorem Redis.advance_zero (r : Redis) : r.advance 0 = r := by
  cases r; simp [Redis.advance]

theorem Redis.fault_nil (r : Redis) (hf : r.faults = []) : r.fault = (none, r) := by
  simp [Redis.fault, hf]

/-- Without injected failures, `IsBlocked` answers from the duration the `TTL` call yields
for the block key and leaves the server untouched. -/
theorem Store.IsBlocked_ok (id : String) (s : Redis) (hf : s.faults = []) :
    Store.IsBlocked id s =
      (if 0 < s.remaining (blockKey id) then ((true, s.remaining (blockKey id), none), s)
       else ((false, 0, none), s)) := by
  simp only [Store.IsBlocked, Redis.TTL, Redis.fault_nil s hf, gt_iff_lt]

/-- With or without failures, `IsBlocked` changes neither keys nor clock. -/
theorem Store.IsBlocked_frame (id : String) (s : Redis) :
    (Store.IsBlocked id s).2.keys = s.keys ∧ (Store.IsBlocked id s).2.clock = s.clock := by
  unfold Store.IsBlocked Redis.TTL Redis.fault
  cases hfs : s.faults with
  | nil => simp only []; split <;> simp
  | cons f fs => cases f <;> simp only [] <;> (try split) <;> simp

theorem Redis.lookup_of_keys_none (r : Redis) (key : String) (h : r.keys key = none) :
    r.lookup key = none := by
  simp [Redis.lookup, h]

theorem Redis.lookup_live (r : Redis) (key : String) (v t : Int)
    (h : r.keys key = some ⟨v, some t⟩) (hlive : r.nowMs ≤ t) :
    r.lookup key = some ⟨v, some t⟩ := by
  simp [Redis.lookup, h, hlive]

theorem formatSec_Second : formatSec Second = 1 := by decide

/-- For a non-negative duration `formatSec` is the whole seconds, with at least 1 for a
positive one. -/
theorem formatSec_of_nonneg (d : Int) (h : 0 ≤ d) :
    formatSec d = if 0 < d ∧ d < 1000000000 then 1 else d / 1000000000 := by
  unfold formatSec Second
  by_cases hc : d > 0 ∧ d < 1000000000
  · simp [hc]
  · rw [if_neg hc, if_neg hc]
    exact Int.tdiv_eq_ediv h (by decide)

theorem formatSec_pos (d : Int) (h : 0 < d) : 0 < formatSec d := by
  rw [formatSec_of_nonneg d (le_of_lt h)]
  by_cases hc : 0 < d ∧ d < 1000000000
  · simp [hc]
  · rw [if_neg hc]
    omega

theorem formatSec_nonpos (d : Int) (h : d ≤ 0) : formatSec d ≤ 0 := by
  have hc : ¬ (d > 0 ∧ d < Second) := fun hc => absurd hc.1 (not_lt.mpr h)
  unfold formatSec
  rw [if_neg hc]
  have h3 : Int.tdiv d Second = -(Int.tdiv (-d) Second) := by
    rw [Int.neg_tdiv, neg_neg]
  rw [h3, Int.tdiv_eq_ediv (by omega) (by decide)]
  have : (0 : Int) ≤ (-d) / Second := Int.ediv_nonneg (by omega) (by decide)
  omega

theorem formatMs_of_nonneg (d : Int) (h : 0 ≤ d) :
    formatMs d = if 0 < d ∧ d < 1000000 then 1 else d / 1000000 := by
  unfold formatMs Millisecond
  by_cases hc : d > 0 ∧ d < 1000000
  · simp [hc]
  · rw [if_neg hc, if_neg hc]
    exact Int.tdiv_eq_ediv h (by decide)

theorem usePrecise_of_nonneg (d : Int) (h : 0 ≤ d) :
    usePrecise d = (decide (d < 1000000000) || decide (d % 1000000000 ≠ 0)) := by
  unfold usePrecise Second
  rw [Int.tmod_eq_emod h (by decide)]

/-- The expiry sent for a positive expiration is its whole milliseconds, at least 1. -/
theorem expirationMs_eq (d : Int) (h : 0 < d) :
    expirationMs d = max 1 (d / 1000000) := by
  have hnn : 0 ≤ d := le_of_lt h
  unfold expirationMs
  rw [usePrecise_of_nonneg d hnn, formatMs_of_nonneg d hnn, formatSec_of_nonneg d hnn]
  by_cases hp : d < 1000000000
  · by_cases hm : d < 1000000
    · have h0 : d / 1000000 = 0 := by omega
      simp [hp, hm, h, h0]
    · have h3 : 1 ≤ d / 1000000 := by omega
      simp [hp, hm, h3]
  · have hm : ¬ d < 1000000 := by omega
    have h3 : 1 ≤ d / 1000000 := by omega
    by_cases hr : d % 1000000000 = 0
    · have h1 : d / 1000000000 * 1000 = d / 1000000 := by omega
      simp [hp, hr, h1, h3]
    · simp [hp, hr, hm, h3]

/-- The first increment of a window creates the counter at 1 with a deadline the whole
seconds of the window after the time read. -/
theorem Store.Incr_fresh (key : String) (window : Int) (s : Redis) (hf : s.faults = [])
    (hw : 0 < window) (hnone : s.lookup key = none) :
    Store.Incr key window s =
      ((1, none),
        (s.put key ⟨1, none⟩).put key ⟨1, some (s.nowMs + formatSec window * 1000)⟩) := by
  have hf2 : (s.put key ⟨1, none⟩).faults = [] := hf
  have hl : (s.put key ⟨1, none⟩).lookup key = some ⟨1, none⟩ := by
    simp [Redis.lookup]
  have hpos := formatSec_pos window hw
  have hnot : ¬ s.nowMs + formatSec window * 1000 ≤ s.nowMs := by
    omega
  simp [Store.Incr, Redis.Incr, Redis.fault_nil s hf, hnone, Redis.Expire,
    Redis.fault_nil _ hf2, hl, hnot]

/-- An increment of a live counter adds one and keeps its deadline. -/
theorem Store.Incr_live (key : String) (window : Duration) (s : Redis) (hf : s.faults = [])
    (e : RedisEntry) (hsome : s.lookup key = some e) (hpos : 1 ≤ e.val)
    (hmax : e.val < maxInt64) :
    Store.Incr key window s = ((e.val + 1, none), s.put key ⟨e.val + 1, e.expireAt⟩) := by
  have hne : ¬ e.val + 1 = 1 := by omega
  simp [Store.Incr, Redis.Incr, Redis.fault_nil s hf, hsome, hmax, hne]

/-- What the `Set` call of `SetBlock` writes for a positive duration, by the fate of the
command. -/
theorem Redis.set_command_pos (r : Redis) (key : String) (value : Int) (d : Duration)
    (hd : 0 < d) :
    r.Set key value d =
      match r.fault.1 with
      | some e => (Except.error e, r.fault.2)
      | none => (Except.ok (), r.fault.2.put key ⟨value, some (r.fault.2.nowMs + expirationMs d)⟩) := by
  unfold Redis.Set expirationMs
  rcases hfa : r.fault with ⟨f, r1⟩
  cases f with
  | some e => rfl
  | none =>
    have hd2 : d > 0 := hd
    by_cases hp : usePrecise d = true
    · simp [hd2, hp]
    · simp [hd2, hp]

/-- A successful `SetBlock` with a positive duration writes the block record with a deadline
that many milliseconds after the time read. -/
theorem Store.SetBlock_ok (id : String) (blockFor : Duration) (s : Redis) (hf : s.faults = [])
    (hB : 0 < blockFor) :
    Store.SetBlock id blockFor s =
      (none, s.put (blockKey id) ⟨1, some (s.nowMs + expirationMs blockFor)⟩) := by
  simp [Store.SetBlock, Redis.set_command_pos _ _ _ _ hB, Redis.fault_nil s hf]

/-- Whenever `SetBlock` with a positive duration reports success, the block record is in
place and clock and rounding are as they were. -/
theorem Store.SetBlock_success (id : String) (blockFor : Duration) (s : Redis)
    (hB : 0 < blockFor) (hok : (Store.SetBlock id blockFor s).1 = none) :
    (Store.SetBlock id blockFor s).2.keys (blockKey id)
        = some ⟨1, some (s.nowMs + expirationMs blockFor)⟩ ∧
      (Store.SetBlock id blockFor s).2.clock = s.clock ∧
      (Store.SetBlock id blockFor s).2.rounding = s.rounding := by
  have hset := Redis.set_command_pos s (blockKey id) 1 blockFor hB
  simp only [Store.SetBlock] at hok ⊢
  rw [hset] at hok ⊢
  unfold Redis.fault at hok ⊢
  cases hfs : s.faults with
  | nil => simp [Redis.nowMs]
  | cons f fs =>
    cases f with
    | none => simp [Redis.nowMs]
    | some e => simp [hfs] at hok

/-! ## Lemmas: decimal formatting -/

theorem digitChar_toNat (n : Nat) : (digitChar n).toNat = 48 + n % 10 := by
  have h : n % 10 < 10 := Nat.mod_lt _ (by decide)
  unfold digitChar
  generalize n % 10 = k at h
  interval_cases k <;> rfl

theorem digitsValue_digitsRev : ∀ (fuel n : Nat), n < 10 ^ fuel →
    digitsValue (digitsRev fuel n) = n := by
  intro fuel
  induction fuel with
  | zero => intro n h; simp at h; subst h; rfl
  | succ f ih =>
    intro n h
    unfold digitsRev
    by_cases h10 : n < 10
    · simp only [h10, if_true, digitsValue, digitChar_toNat]
      omega
    · simp only [h10, if_false, digitsValue, digitChar_toNat]
      have hq : n / 10 < 10 ^ f := by
        rw [Nat.div_lt_iff_lt_mul (by decide)]
        rw [pow_succ] at h
        exact h
      rw [ih _ hq]
      omega

theorem lt_ten_pow_succ (n : Nat) : n < 10 ^ (n + 1) :=
  lt_trans (Nat.lt_pow_self (by decide : 1 < 10) n)
    (Nat.pow_lt_pow_right (by decide) (Nat.lt_succ_self n))

theorem formatNat_injective (a b : Nat) (h : formatNat a = formatNat b) : a = b := by
  have h2 : digitsRev (a + 1) a = digitsRev (b + 1) b := by
    have := congrArg String.data h
    simpa [formatNat] using this
  have ha := digitsValue_digitsRev (a + 1) a (lt_ten_pow_succ a)
  have hb := digitsValue_digitsRev (b + 1) b (lt_ten_pow_succ b)
  rw [← ha, h2, hb]

theorem digitChar_ne_minus (n : Nat) : digitChar n ≠ '-' := by
  intro h
  have h2 := congrArg Char.toNat h
  rw [digitChar_toNat] at h2
  have : ('-' : Char).toNat = 45 := rfl
  omega

theorem digitsRev_getLast (fuel n : Nat) (c : Char) :
    c ∈ (digitsRev fuel n).getLast? → c ≠ '-' := by
  induction fuel generalizing n with
  | zero => simp [digitsRev]
  | succ f ih =>
    unfold digitsRev
    by_cases h10 : n < 10
    · simp only [h10, if_true, List.getLast?_singleton, Option.mem_def, Option.some.injEq]
      rintro rfl
      exact digitChar_ne_minus n
    · simp only [h10, if_false]
      cases hr : digitsRev f (n / 10) with
      | nil =>
        simp only [List.getLast?_singleton, Option.mem_def, Option.some.injEq]
        rintro rfl
        exact digitChar_ne_minus n
      | cons x xs =>
        rw [List.getLast?_cons_cons, ← hr]
        exact ih (n / 10)

theorem formatNat_head_ne_minus (n : Nat) (rest : List Char) :
    (formatNat n).data ≠ '-' :: rest := by
  intro h
  have h1 : (digitsRev (n + 1) n).reverse.head? = some '-' := by
    have : (formatNat n).data = (digitsRev (n + 1) n).reverse := rfl
    rw [← this, h]; rfl
  rw [List.head?_reverse] at h1
  exact digitsRev_getLast (n + 1) n '-' h1 rfl

theorem formatInt_injective (a b : Int) (h : formatInt a = formatInt b) : a = b := by
  cases a with
  | ofNat m =>
    cases b with
    | ofNat n => exact congrArg Int.ofNat (formatNat_injective m n h)
    | negSucc n =>
      exfalso
      have h2 := congrArg String.data h
      exact formatNat_head_ne_minus m _ (by simpa [formatInt, String.data_append] using h2)
  | negSucc m =>
    cases b with
    | ofNat n =>
      exfalso
      have h2 := congrArg String.data h
      exact formatNat_head_ne_minus n _ (by simpa [formatInt, String.data_append] using h2.symm)
    | negSucc n =>
      have h2 := congrArg String.data h
      simp only [formatInt, String.data_append, List.append_cancel_left_eq] at h2
      have h3 : formatNat (m + 1) = formatNat (n + 1) := String.ext h2
      have := formatNat_injective _ _ h3
      have hmn : m = n := by omega
      rw [hmn]

/-- Window keys of one identifier differ from second to second. -/
theorem windowKey_sec_injective (identifier : String) (a b : Int)
    (h : windowKey identifier a = windowKey identifier b) : a = b := by
  have h2 := congrArg String.data h
  simp only [windowKey, String.data_append, List.append_cancel_left_eq] at h2
  exact formatInt_injective a b (String.ext h2)

/-! ## Lemmas: what the store methods leave alone -/

@[simp] theorem Redis.del_keys (r : Redis) (key : String) (k : String) :
    (r.del key).keys k = if k = key then none else r.keys k := rfl

@[simp] theorem Redis.del_clock (r : Redis) (key : String) : (r.del key).clock = r.clock := rfl

@[simp] theorem Redis.del_faults (r : Redis) (key : String) : (r.del key).faults = r.faults := rfl

@[simp] theorem Redis.del_rounding (r : Redis) (key : String) :
    (r.del key).rounding = r.rounding := rfl

theorem Redis.fault_rounding (r : Redis) : r.fault.2.rounding = r.rounding := by
  unfold Redis.fault
  cases h : r.faults <;> simp [h]

theorem Redis.incr_command_rounding (r : Redis) (key : String) :
    (r.Incr key).2.rounding = r.rounding := by
  have h := r.fault_rounding
  unfold Redis.Incr
  rcases hfa : r.fault with ⟨f, r1⟩
  rw [hfa] at h
  simp only [] at h
  cases f with
  | some e => exact h
  | none =>
    simp only []
    cases r1.lookup key with
    | none => simpa using h
    | some e =>
      by_cases hm : e.val < maxInt64
      · simp only [hm, if_true]; simpa using h
      · simp only [hm, if_false]; exact h

theorem Redis.expire_command_rounding (r : Redis) (key : String) (d : Duration) :
    (r.Expire key d).2.rounding = r.rounding := by
  have h := r.fault_rounding
  unfold Redis.Expire
  rcases hfa : r.fault with ⟨f, r1⟩
  rw [hfa] at h
  simp only [] at h
  cases f with
  | some e => exact h
  | none =>
    simp only []
    cases r1.lookup key with
    | none => exact h
    | some e =>
      by_cases hd : r1.nowMs + formatSec d * 1000 ≤ r1.nowMs
      · simp only [hd, if_true]; simpa using h
      · simp only [hd, if_false]; simpa using h

theorem Redis.set_command_rounding (r : Redis) (key : String) (value : Int) (d : Duration) :
    (r.Set key value d).2.rounding = r.rounding := by
  have h := r.fault_rounding
  unfold Redis.Set
  rcases hfa : r.fault with ⟨f, r1⟩
  rw [hfa] at h
  simp only [] at h
  cases f with
  | some e => exact h
  | none =>
    simp only []
    split_ifs
    all_goals simpa using h

theorem Store.Incr_rounding (key : String) (window : Duration) (s : Redis) :
    (Store.Incr key window s).2.rounding = s.rounding := by
  have h := s.incr_command_rounding key
  unfold Store.Incr
  rcases hi : s.Incr key with ⟨res, s1⟩
  rw [hi] at h
  simp only [] at h
  cases res with
  | error e => exact h
  | ok val =>
    simp only []
    by_cases h1 : val = 1
    · simp only [h1, if_true]
      rw [s1.expire_command_rounding key window, h]
    · simp only [h1, if_false]
      exact h

theorem Store.SetBlock_rounding (id : String) (blockFor : Duration) (s : Redis) :
    (Store.SetBlock id blockFor s).2.rounding = s.rounding := by
  have h := s.set_command_rounding (blockKey id) 1 blockFor
  rcases hi : s.Set (blockKey id) 1 blockFor with ⟨res, s1⟩
  rw [hi] at h
  cases res with
  | error e => simpa only [Store.SetBlock, hi] using h
  | ok val => simpa only [Store.SetBlock, hi] using h

theorem Store.IsBlocked_rounding (id : String) (s : Redis) :
    (Store.IsBlocked id s).2.rounding = s.rounding := by
  have h := s.fault_rounding
  unfold Store.IsBlocked Redis.TTL
  rcases hfa : s.fault with ⟨f, r1⟩
  rw [hfa] at h
  simp only [] at h
  cases f with
  | some e => exact h
  | none =>
    simp only []
    split <;> exact h

theorem Redis.fault_frame (r : Redis) :
    r.fault.2.keys = r.keys ∧ r.fault.2.clock = r.clock ∧
      (r.faults = [] → r.fault.2.faults = []) := by
  unfold Redis.fault
  cases h : r.faults <;> simp [h]

theorem Redis.incr_command_frame (r : Redis) (key : String) :
    (∀ k, k ≠ key → (r.Incr key).2.keys k = r.keys k) ∧ (r.Incr key).2.clock = r.clock ∧
      (r.faults = [] → (r.Incr key).2.faults = []) := by
  obtain ⟨hk, hc, hf⟩ := r.fault_frame
  unfold Redis.Incr
  rcases hfa : r.fault with ⟨f, r1⟩
  rw [hfa] at hk hc hf
  simp only [] at hk hc hf
  cases f with
  | some e => exact ⟨fun k _ => by simp [hk], hc, hf⟩
  | none =>
    simp only []
    cases r1.lookup key with
    | none => exact ⟨fun k hne => by simp [hne, hk], by simp [hc], by simpa using hf⟩
    | some e =>
      by_cases hm : e.val < maxInt64
      · simp only [hm, if_true]
        exact ⟨fun k hne => by simp [hne, hk], by simp [hc], by simpa using hf⟩
      · simp only [hm, if_false]
        exact ⟨fun k _ => by simp [hk], hc, hf⟩

theorem Redis.expire_command_frame (r : Redis) (key : String) (d : Duration) :
    (∀ k, k ≠ key → (r.Expire key d).2.keys k = r.keys k) ∧
      (r.Expire key d).2.clock = r.clock ∧
      (r.faults = [] → (r.Expire key d).2.faults = []) := by
  obtain ⟨hk, hc, hf⟩ := r.fault_frame
  unfold Redis.Expire
  rcases hfa : r.fault with ⟨f, r1⟩
  rw [hfa] at hk hc hf
  simp only [] at hk hc hf
  cases f with
  | some e => exact ⟨fun k _ => by simp [hk], hc, hf⟩
  | none =>
    simp only []
    cases r1.lookup key with
    | none => exact ⟨fun k _ => by simp [hk], hc, hf⟩
    | some e =>
      by_cases hd : r1.nowMs + formatSec d * 1000 ≤ r1.nowMs
      · simp only [hd, if_true]
        exact ⟨fun k hne => by simp [hne, hk], by simp [hc], by simpa using hf⟩
      · simp only [hd, if_false]
        exact ⟨fun k hne => by simp [hne, hk], by simp [hc], by simpa using hf⟩

theorem Redis.set_command_frame (r : Redis) (key : String) (value : Int) (d : Duration) :
    (∀ k, k ≠ key → (r.Set key value d).2.keys k = r.keys k) ∧
      (r.Set key value d).2.clock = r.clock ∧
      (r.faults = [] → (r.Set key value d).2.faults = []) := by
  obtain ⟨hk, hc, hf⟩ := r.fault_frame
  unfold Redis.Set
  rcases hfa : r.fault with ⟨f, r1⟩
  rw [hfa] at hk hc hf
  simp only [] at hk hc hf
  cases f with
  | some e => exact ⟨fun k _ => by simp [hk], hc, hf⟩
  | none =>
    simp only []
    split_ifs
    all_goals exact ⟨fun k hne => by simp [hne, hk], by simp [hc], by simpa using hf⟩

/-- The method `Store.Incr` touches no key but its own and never moves the clock. -/
theorem Store.Incr_frame (key : String) (window : Duration) (s : Redis) :
    (∀ k, k ≠ key → (Store.Incr key window s).2.keys k = s.keys k) ∧
      (Store.Incr key window s).2.clock = s.clock ∧
      (s.faults = [] → (Store.Incr key window s).2.faults = []) := by
  obtain ⟨hk, hc, hf⟩ := s.incr_command_frame key
  unfold Store.Incr
  rcases hi : s.Incr key with ⟨res, s1⟩
  rw [hi] at hk hc hf
  simp only [] at hk hc hf
  cases res with
  | error e => exact ⟨hk, hc, hf⟩
  | ok val =>
    simp only []
    by_cases h1 : val = 1
    · simp only [h1, if_true]
      obtain ⟨hk2, hc2, hf2⟩ := s1.expire_command_frame key window
      exact ⟨fun k hne => by rw [hk2 k hne, hk k hne], by rw [hc2, hc],
        fun h => hf2 (hf h)⟩
    · simp only [h1, if_false]
      exact ⟨hk, hc, hf⟩

/-- The method `Store.SetBlock` touches no key but the block key and never moves the clock. -/
theorem Store.SetBlock_frame (id : String) (blockFor : Duration) (s : Redis) :
    (∀ k, k ≠ blockKey id → (Store.SetBlock id blockFor s).2.keys k = s.keys k) ∧
      (Store.SetBlock id blockFor s).2.clock = s.clock ∧
      (s.faults = [] → (Store.SetBlock id blockFor s).2.faults = []) := by
  obtain ⟨hk, hc, hf⟩ := s.set_command_frame (blockKey id) 1 blockFor
  rcases hi : s.Set (blockKey id) 1 blockFor with ⟨res, s1⟩
  rw [hi] at hk hc hf
  cases res with
  | error e => simpa only [Store.SetBlock, hi] using And.intro hk (And.intro hc hf)
  | ok val => simpa only [Store.SetBlock, hi] using And.intro hk (And.intro hc hf)

theorem Store.IsBlocked_faults (id : String) (s : Redis) (hf : s.faults = []) :
    (Store.IsBlocked id s).2.faults = [] := by
  rw [Store.IsBlocked_ok id s hf]; split <;> exact hf

/-- Frame of `Check` on the Redis store: only the window counter of `(identifier, now.Unix)`
and the block record of `identifier` can change; the clock never does. -/
theorem check_frame (identifier : String) (N : Int) (B : Duration) (now : Time) (s : Redis) :
    (∀ k, k ≠ windowKey identifier now.Unix → k ≠ blockKey identifier →
      (redisLimiter.Check identifier N B now s).store.keys k = s.keys k) ∧
    (redisLimiter.Check identifier N B now s).store.clock = s.clock ∧
    (s.faults = [] → (redisLimiter.Check identifier N B now s).store.faults = []) := by
  obtain ⟨hk1, hc1⟩ := Store.IsBlocked_frame identifier s
  have hf1 := Store.IsBlocked_faults identifier s
  rcases hib : Store.IsBlocked identifier s with ⟨⟨blocked, ttl, err⟩, s1⟩
  rw [hib] at hk1 hc1 hf1
  simp only [] at hk1 hc1 hf1
  obtain ⟨hk2, hc2, hf2⟩ := Store.Incr_frame (windowKey identifier now.Unix) Second s1
  rcases hinc : Store.Incr (windowKey identifier now.Unix) Second s1 with ⟨⟨count, err2⟩, s2⟩
  rw [hinc] at hk2 hc2 hf2
  simp only [] at hk2 hc2 hf2
  obtain ⟨hk3, hc3, hf3⟩ := Store.SetBlock_frame identifier B s2
  rcases hsb : Store.SetBlock identifier B s2 with ⟨e3, s3⟩
  rw [hsb] at hk3 hc3 hf3
  simp only [] at hk3 hc3 hf3
  have a1 : (∀ k, k ≠ windowKey identifier now.Unix → k ≠ blockKey identifier →
      s1.keys k = s.keys k) ∧ s1.clock = s.clock ∧ (s.faults = [] → s1.faults = []) :=
    ⟨fun k _ _ => by rw [hk1], hc1, hf1⟩
  have a2 : (∀ k, k ≠ windowKey identifier now.Unix → k ≠ blockKey identifier →
      s2.keys k = s.keys k) ∧ s2.clock = s.clock ∧ (s.faults = [] → s2.faults = []) :=
    ⟨fun k h _ => by rw [hk2 k h, hk1], by rw [hc2, hc1], fun h => hf2 (hf1 h)⟩
  have a3 : (∀ k, k ≠ windowKey identifier now.Unix → k ≠ blockKey identifier →
      s3.keys k = s.keys k) ∧ s3.clock = s.clock ∧ (s.faults = [] → s3.faults = []) :=
    ⟨fun k h h' => by rw [hk3 k h', hk2 k h, hk1], by rw [hc3, hc2, hc1],
      fun h => hf3 (hf2 (hf1 h))⟩
  by_cases h0 : N ≤ 0
  · simp [Limiter.Check, h0]
  · cases err with
    | some e => simpa [Limiter.Check, redisLimiter, redisStore, h0, hib] using a1
    | none =>
      cases blocked with
      | true => simpa [Limiter.Check, redisLimiter, redisStore, h0, hib] using a1
      | false =>
        cases err2 with
        | some e => simpa [Limiter.Check, redisLimiter, redisStore, h0, hib, hinc] using a2
        | none =>
          by_cases hc : count > N
          · by_cases hB : B > 0
            · cases e3 with
              | some e =>
                simpa [Limiter.Check, redisLimiter, redisStore, h0, hib, hinc, hc, hB, hsb]
                  using a3
              | none =>
                simpa [Limiter.Check, redisLimiter, redisStore, h0, hib, hinc, hc, hB, hsb]
                  using a3
            · simpa [Limiter.Check, redisLimiter, redisStore, h0, hib, hinc, hc, hB] using a2
          · simpa [Limiter.Check, redisLimiter, redisStore, h0, hib, hinc, hc] using a2

/-- The store state and call log of a `Check` are those of one of its four exits. -/
theorem check_shape {σ : Type} (l : Limiter σ) (identifier : String) (N : Int)
    (B : Duration) (now : Time) (s : σ) :
    ((l.Check identifier N B now s).store = s ∧ (l.Check identifier N B now s).calls = []) ∨
    ((l.Check identifier N B now s).store = (l.store.IsBlocked identifier s).2 ∧
      (l.Check identifier N B now s).calls = [StoreCall.IsBlocked identifier]) ∨
    ((l.Check identifier N B now s).store
        = (l.store.Incr (windowKey identifier now.Unix) Second
            (l.store.IsBlocked identifier s).2).2 ∧
      (l.Check identifier N B now s).calls
        = [StoreCall.IsBlocked identifier,
            StoreCall.Incr (windowKey identifier now.Unix) Second]) ∨
    ((l.Check identifier N B now s).store
        = (l.store.SetBlock identifier B
            (l.store.Incr (windowKey identifier now.Unix) Second
              (l.store.IsBlocked identifier s).2).2).2 ∧
      (l.Check identifier N B now s).calls
        = [StoreCall.IsBlocked identifier,
            StoreCall.Incr (windowKey identifier now.Unix) Second,
            StoreCall.SetBlock identifier B]) := by
  rcases hib : l.store.IsBlocked identifier s with ⟨⟨blocked, ttl, err⟩, s1⟩
  rcases hinc : l.store.Incr (windowKey identifier now.Unix) Second s1 with
    ⟨⟨count, err2⟩, s2⟩
  rcases hsb : l.store.SetBlock identifier B s2 with ⟨e3, s3⟩
  by_cases h0 : N ≤ 0
  · left; simp [Limiter.Check, h0]
  · right
    cases err with
    | some e => left; simp [Limiter.Check, h0, hib]
    | none =>
      cases blocked with
      | true => left; simp [Limiter.Check, h0, hib]
      | false =>
        right
        cases err2 with
        | some e => left; simp [Limiter.Check, h0, hib, hinc]
        | none =>
          by_cases hc : count > N
          · by_cases hB : B > 0
            · right
              cases e3 with
              | some e => simp [Limiter.Check, h0, hib, hinc, hc, hB, hsb]
              | none => simp [Limiter.Check, h0, hib, hinc, hc, hB, hsb]
            · left; simp [Limiter.Check, h0, hib, hinc, hc, hB]
          · left; simp [Limiter.Check, h0, hib, hinc, hc]

/-- A `Check` on the Redis store does not change how the server rounds its `TTL` replies. -/
theorem check_rounding (identifier : String) (N : Int) (B : Duration) (now : Time)
    (s : Redis) : (redisLimiter.Check identifier N B now s).store.rounding = s.rounding := by
  have h1 := Store.IsBlocked_rounding identifier s
  have h2 := Store.Incr_rounding (windowKey identifier now.Unix) Second
    (Store.IsBlocked identifier s).2
  have h3 := Store.SetBlock_rounding identifier B
    (Store.Incr (windowKey identifier now.Unix) Second (Store.IsBlocked identifier s).2).2
  rcases check_shape redisLimiter identifier N B now s with
    ⟨hst, _⟩ | ⟨hst, _⟩ | ⟨hst, _⟩ | ⟨hst, _⟩
  · rw [hst]
  · rw [hst]; exact h1
  · rw [hst]; exact h2.trans h1
  · rw [hst]; exact h3.trans (h2.trans h1)

theorem Redis.lookup_put_ne (r : Redis) (key k : String) (e : RedisEntry) (hne : k ≠ key) :
    (r.put key e).lookup k = r.lookup k := by
  simp [Redis.lookup, hne]

theorem Redis.ttlReply_put_ne (r : Redis) (key k : String) (e : RedisEntry) (hne : k ≠ key) :
    (r.put key e).ttlReply k = r.ttlReply k := by
  simp [Redis.ttlReply, Redis.lookup_put_ne r key k e hne]

theorem Redis.remaining_put_ne (r : Redis) (key k : String) (e : RedisEntry) (hne : k ≠ key) :
    (r.put key e).remaining k = r.remaining k := by
  simp [Redis.remaining, Redis.ttlReply_put_ne r key k e hne]

theorem Redis.nowMs_advance (r : Redis) (d : Int) (hd : 0 ≤ d) :
    r.nowMs ≤ (r.advance d).nowMs := by
  simp only [Redis.nowMs, Redis.advance_clock]
  omega

theorem TTLRounding.seconds_mono (rd : TTLRounding) (a b : Int) (h : a ≤ b) :
    rd.seconds a ≤ rd.seconds b := by
  cases rd <;> simp only [TTLRounding.seconds] <;> omega

theorem TTLRounding.seconds_nonneg (rd : TTLRounding) (a : Int) (h : 0 ≤ a) :
    0 ≤ rd.seconds a := by
  cases rd <;> simp only [TTLRounding.seconds] <;> omega

/-- A remaining lifetime of at most one millisecond is reported as zero seconds. -/
theorem TTLRounding.seconds_of_le_one (rd : TTLRounding) (a : Int) (h0 : 0 ≤ a) (h : a ≤ 1) :
    rd.seconds a = 0 := by
  cases rd <;> simp only [TTLRounding.seconds] <;> omega

/-- A remaining lifetime of one second or more, and of at most `b` seconds, is reported as
between 1 and `b` seconds. -/
theorem TTLRounding.seconds_bounds (rd : TTLRounding) (a b : Int) (h1 : 1000 ≤ a)
    (h2 : a ≤ 1000 * b) : 1 ≤ rd.seconds a ∧ rd.seconds a ≤ b := by
  cases rd <;> simp only [TTLRounding.seconds] <;> omega

theorem Redis.ttlReply_ge (r : Redis) (key : String) : -2 ≤ r.ttlReply key := by
  unfold Redis.ttlReply Redis.lookup
  cases hk : r.keys key with
  | none => simp
  | some e =>
    cases hx : e.expireAt with
    | none => simp [hx]
    | some t =>
      by_cases hl : r.nowMs ≤ t
      · simp only [hx, hl, if_true]
        have := r.rounding.seconds_nonneg (t - r.nowMs) (by omega)
        omega
      · simp [hx, hl]

/-- The `TTL` reply for a key never grows while the key is left alone and time passes. -/
theorem Redis.ttlReply_advance (r : Redis) (key : String) (d : Int) (hd : 0 ≤ d) :
    (r.advance d).ttlReply key ≤ r.ttlReply key := by
  have hm := r.nowMs_advance d hd
  unfold Redis.ttlReply Redis.lookup
  simp only [Redis.advance_keys, Redis.advance_rounding]
  cases hk : r.keys key with
  | none => simp
  | some e =>
    cases hx : e.expireAt with
    | none => simp [hx]
    | some t =>
      by_cases hl : r.nowMs ≤ t
      · by_cases hl2 : (r.advance d).nowMs ≤ t
        · simp only [hx, hl, hl2, if_true]
          exact r.rounding.seconds_mono _ _ (by omega)
        · simp only [hx, hl, hl2, if_true, if_false]
          have := r.rounding.seconds_nonneg (t - r.nowMs) (by omega)
          omega
      · have hl2 : ¬ (r.advance d).nowMs ≤ t := by omega
        simp [hx, hl, hl2]

/-- A reply of zero or less is never reported as a block. -/
theorem Redis.not_blocked_of_ttlReply (r : Redis) (key : String) (h : r.ttlReply key ≤ 0) :
    ¬ 0 < r.remaining key := by
  have hge := r.ttlReply_ge key
  unfold Redis.remaining durationOfReply
  by_cases hc : r.ttlReply key = -2 ∨ r.ttlReply key = -1
  · rw [if_pos hc]
    show ¬ @LT.lt Int _ 0 (r.ttlReply key)
    omega
  · rw [if_neg hc]
    have h0 : r.ttlReply key = 0 := by omega
    rw [h0]
    decide

/-- A key that is not live stays so when it is left alone and time passes. -/
theorem Redis.lookup_none_mono (r r2 : Redis) (key : String) (hk : r2.keys key = r.keys key)
    (hc : r.clock ≤ r2.clock) (h : r.lookup key = none) : r2.lookup key = none := by
  have hm : r.nowMs ≤ r2.nowMs := by
    simp only [Redis.nowMs]
    omega
  unfold Redis.lookup at h ⊢
  rw [hk]
  cases hkey : r.keys key with
  | none => rfl
  | some e =>
    rw [hkey] at h
    cases hx : e.expireAt with
    | none => simp [hx] at h
    | some t =>
      simp only [hx] at h ⊢
      by_cases hlt : r.nowMs ≤ t
      · simp [hlt] at h
      · have : ¬ r2.nowMs ≤ t := by omega
        simp [this]

/-- A live entry is the entry stored under the key. -/
theorem Redis.keys_of_lookup (r : Redis) (key : String) (e : RedisEntry)
    (h : r.lookup key = some e) : r.keys key = some e := by
  unfold Redis.lookup at h
  cases hk : r.keys key with
  | none => simp [hk] at h
  | some e2 =>
    rw [hk] at h
    cases hx : e2.expireAt with
    | none => simpa [hx] using h
    | some t =>
      simp only [hx] at h
      by_cases hl : r.nowMs ≤ t
      · simpa [hl] using h
      · simp [hl] at h

/-- One `Check` on a window that has no live counter yet, for an unblocked identifier. -/
theorem check_fresh_window (identifier : String) (N : Int) (B : Duration) (now : Time)
    (s : Redis) (hN : 1 ≤ N) (hf : s.faults = [])
    (hunblocked : ¬ 0 < s.remaining (blockKey identifier))
    (hfresh : s.lookup (windowKey identifier now.Unix) = none) :
    redisLimiter.Check identifier N B now s =
      ⟨⟨true, 0⟩, none,
        (s.put (windowKey identifier now.Unix) ⟨1, none⟩).put (windowKey identifier now.Unix)
          ⟨1, some (s.nowMs + 1000)⟩,
        [StoreCall.IsBlocked identifier,
          StoreCall.Incr (windowKey identifier now.Unix) Second]⟩ := by
  have hS : (0 : Int) < Second := by decide
  have h1 : ¬ N ≤ 0 := by omega
  have h2 : ¬ (1 : Int) > N := by omega
  simp only [Limiter.Check, redisLimiter, redisStore, h1, if_false,
    Store.IsBlocked_ok identifier s hf, hunblocked,
    Store.Incr_fresh _ Second s hf hS hfresh, h2, formatSec_Second]
  simp

/-- One `Check` on a window whose live counter stands at `e.val`, for an unblocked
identifier. -/
theorem check_counting_window (identifier : String) (N : Int) (B : Duration) (now : Time)
    (s : Redis) (e : RedisEntry) (hN : 1 ≤ N) (hf : s.faults = [])
    (hunblocked : ¬ 0 < s.remaining (blockKey identifier))
    (hl : s.lookup (windowKey identifier now.Unix) = some e)
    (hk : 1 ≤ e.val) (hmax : e.val < maxInt64) :
    redisLimiter.Check identifier N B now s =
      (if e.val + 1 > N then
        (if B > 0 then
          ⟨⟨false, B⟩, none,
            (s.put (windowKey identifier now.Unix) ⟨e.val + 1, e.expireAt⟩).put
              (blockKey identifier) ⟨1, some (s.nowMs + expirationMs B)⟩,
            [StoreCall.IsBlocked identifier,
              StoreCall.Incr (windowKey identifier now.Unix) Second,
              StoreCall.SetBlock identifier B]⟩
        else
          ⟨⟨false, B⟩, none, s.put (windowKey identifier now.Unix) ⟨e.val + 1, e.expireAt⟩,
            [StoreCall.IsBlocked identifier,
              StoreCall.Incr (windowKey identifier now.Unix) Second]⟩)
      else
        ⟨⟨true, 0⟩, none, s.put (windowKey identifier now.Unix) ⟨e.val + 1, e.expireAt⟩,
          [StoreCall.IsBlocked identifier,
            StoreCall.Incr (windowKey identifier now.Unix) Second]⟩) := by
  have h1 : ¬ N ≤ 0 := by omega
  have hinc := Store.Incr_live (windowKey identifier now.Unix) Second s hf _ hl hk hmax
  simp only [Limiter.Check, redisLimiter, redisStore, h1, if_false,
    Store.IsBlocked_ok identifier s hf, hunblocked, hinc]
  by_cases hc : e.val + 1 > N
  · by_cases hB : B > 0
    · have hf2 : (s.put (windowKey identifier now.Unix) ⟨e.val + 1, e.expireAt⟩).faults = [] :=
        hf
      simp [hc, hB, Store.SetBlock_ok identifier B _ hf2 hB]
    · simp [hc, hB]
  · simp [hc]

/-! ## Theorems: counting and blocking on the Redis store -/

theorem sum_delays_nonneg (sched : List (Int × Time)) (h : ∀ p ∈ sched, 0 ≤ p.1) :
    0 ≤ (sched.map Prod.fst).sum :=
  List.sum_nonneg (by
    intro x hx
    obtain ⟨q, hq, rfl⟩ := List.mem_map.mp hx
    exact h q hq)

/-- A run of checks in one window whose counter is live to the end of the run: the counter
goes up by one per check until the check that exceeds the limit. -/
theorem checkSeq_counting (identifier : String) (N : Int) (B : Duration) (sec : Int)
    (hN : 1 ≤ N) (hmax : N < maxInt64) :
    ∀ (m : Nat) (sched : List (Int × Time)) (s : Redis) (k t : Int), sched.length = m + 1 →
      s.faults = [] → s.ttlReply (blockKey identifier) ≤ 0 →
      s.keys (windowKey identifier sec) = some ⟨k, some t⟩ →
      (∀ p ∈ sched, 0 ≤ p.1 ∧ p.2.Unix = sec) →
      (s.clock + (sched.map Prod.fst).sum) / 1000000 ≤ t → 1 ≤ k → k + m = N →
      (checkSeq identifier N B sched s).map Outcome.verdict
        = List.replicate m (⟨true, 0⟩, none) ++ [(⟨false, B⟩, none)] := by
  intro m
  induction m with
  | zero =>
    intro sched s k t hlen hf hub hkey hsched htime hk hsum
    match sched, hlen with
    | [(d, nw)], _ =>
      obtain ⟨hd, hnw⟩ := hsched (d, nw) (List.mem_cons_self _ _)
      simp only [] at hd hnw
      simp only [List.map_cons, List.map_nil, List.sum_cons, List.sum_nil] at htime
      have hf2 : (s.advance d).faults = [] := hf
      have hub2 := Redis.not_blocked_of_ttlReply _ _
        (le_trans (s.ttlReply_advance (blockKey identifier) d hd) hub)
      have hlive : (s.advance d).nowMs ≤ t := by
        simp only [Redis.nowMs, Redis.advance_clock]
        omega
      have hl := Redis.lookup_live (s.advance d) (windowKey identifier sec) k t hkey hlive
      rw [← hnw] at hl
      have hstep := check_counting_window identifier N B nw (s.advance d) ⟨k, some t⟩ hN hf2
        hub2 hl hk (by show k < maxInt64; omega)
      have hc : k + 1 > N := by omega
      simp only [checkSeq, List.map, hstep, hc, if_true]
      by_cases hB : B > 0 <;> simp [hB, Outcome.verdict]
  | succ m ih =>
    intro sched s k t hlen hf hub hkey hsched htime hk hsum
    match sched, hlen with
    | (d, nw) :: rest, hlen =>
      obtain ⟨hd, hnw⟩ := hsched (d, nw) (List.mem_cons_self _ _)
      simp only [] at hd hnw
      have hrest : ∀ q ∈ rest, 0 ≤ q.1 ∧ q.2.Unix = sec :=
        fun q hq => hsched q (List.mem_cons_of_mem _ hq)
      have hsum0 := sum_delays_nonneg rest (fun q hq => (hrest q hq).1)
      simp only [List.map_cons, List.sum_cons] at htime
      have hf2 : (s.advance d).faults = [] := hf
      have hub1 : (s.advance d).ttlReply (blockKey identifier) ≤ 0 :=
        le_trans (s.ttlReply_advance (blockKey identifier) d hd) hub
      have hub2 := Redis.not_blocked_of_ttlReply _ _ hub1
      have hlive : (s.advance d).nowMs ≤ t := by
        simp only [Redis.nowMs, Redis.advance_clock]
        omega
      have hl := Redis.lookup_live (s.advance d) (windowKey identifier sec) k t hkey hlive
      rw [← hnw] at hl
      have hstep := check_counting_window identifier N B nw (s.advance d) ⟨k, some t⟩ hN hf2
        hub2 hl hk (by show k < maxInt64; omega)
      have hc : ¬ k + 1 > N := by push_cast at hsum; omega
      rw [checkSeq, hstep]
      simp only [hc, if_false, List.map_cons]
      have hne : blockKey identifier ≠ windowKey identifier nw.Unix :=
        fun h => windowKey_ne_blockKey _ _ _ h.symm
      have hlen2 : rest.length = m + 1 := by simpa using hlen
      rw [ih rest ((s.advance d).put (windowKey identifier nw.Unix) ⟨k + 1, some t⟩) (k + 1) t
        hlen2 hf (by rw [Redis.ttlReply_put_ne _ _ _ _ hne]; exact hub1)
        (by rw [hnw]; simp) hrest
        (by simp only [Redis.put_clock, Redis.advance_clock]; omega) (by omega)
        (by push_cast at hsum; omega)]
      simp [Outcome.verdict, List.replicate_succ]

/-- C1 (as stated) fails: on an empty server, under the rule `(1, 5s)`, two consecutive
checks of `token:abc` with the same `now` are both admitted when two seconds pass on the
server between them, because the counter of the first has expired; the claim has the second
denied with `RetryAfter = 5s`. -/
theorem check_slow_calls_counterexample :
    (Redis.empty 0).faults = [] ∧
    (Redis.empty 0).ttlReply (blockKey "token:abc") = -2 ∧
    (Redis.empty 0).lookup (windowKey "token:abc" 100) = none ∧
    (checkSeq "token:abc" 1 (5 * Second) [(0, ⟨100, 0⟩), (2 * Second, ⟨100, 0⟩)]
        (Redis.empty 0)).map Outcome.verdict
      = [(⟨true, 0⟩, none), (⟨true, 0⟩, none)] := by
  decide

/-- C1 (amended): from a store where the identifier is not blocked and the window of `now`
has no counter, with no store command failing, `N + 1` consecutive checks under the rule
`(N, B)` in the epoch second of `now`, the last of them issued less than one second on the
server clock after the first, admit the first `N` and deny the last with `RetryAfter = B`,
all with a nil error.  The bound `N < maxInt64` is what lets the last increment succeed. -/
theorem check_first_N_allowed_next_denied_within_window (identifier : String) (N : Nat)
    (B : Duration) (now : Time) (s : Redis) (sched : List (Int × Time))
    (hN : 1 ≤ N) (hmax : (N : Int) < maxInt64)
    (hf : s.faults = []) (hunblocked : s.ttlReply (blockKey identifier) ≤ 0)
    (hfresh : s.lookup (windowKey identifier now.Unix) = none)
    (hlen : sched.length = N) (hsched : ∀ p ∈ sched, 0 ≤ p.1 ∧ p.2.Unix = now.Unix)
    (hwithin : (sched.map Prod.fst).sum < Second) :
    (checkSeq identifier N B ((0, now) :: sched) s).map Outcome.verdict
      = List.replicate N (⟨true, 0⟩, none) ++ [(⟨false, B⟩, none)] := by
  obtain ⟨m, rfl⟩ : ∃ m, N = m + 1 := ⟨N - 1, by omega⟩
  have hN1 : (1 : Int) ≤ ((m + 1 : Nat) : Int) := by push_cast; omega
  have hfirst := check_fresh_window identifier ((m + 1 : Nat) : Int) B now s hN1 hf
    (Redis.not_blocked_of_ttlReply _ _ hunblocked) hfresh
  have hne : blockKey identifier ≠ windowKey identifier now.Unix :=
    fun h => windowKey_ne_blockKey _ _ _ h.symm
  have hw : (sched.map Prod.fst).sum < 1000000000 := hwithin
  rw [checkSeq, Redis.advance_zero, hfirst, List.map_cons]
  simp only []
  rw [checkSeq_counting identifier ((m + 1 : Nat) : Int) B now.Unix hN1 hmax m sched
    ((s.put (windowKey identifier now.Unix) ⟨1, none⟩).put (windowKey identifier now.Unix)
      ⟨1, some (s.nowMs + 1000)⟩) 1 (s.nowMs + 1000) hlen hf
    (by rw [Redis.ttlReply_put_ne _ _ _ _ hne, Redis.ttlReply_put_ne _ _ _ _ hne]
        exact hunblocked)
    (by simp) hsched
    (by simp only [Redis.put_clock, Redis.nowMs]; omega) (le_refl _) (by push_cast; omega)]
  simp [Outcome.verdict, List.replicate_succ]

theorem Redis.lookup_congr (r r2 : Redis) (key : String) (hk : r2.keys = r.keys)
    (hc : r2.clock = r.clock) : r2.lookup key = r.lookup key := by
  unfold Redis.lookup Redis.nowMs
  rw [hk, hc]

theorem Redis.fault_lookup (r : Redis) (key : String) : r.fault.2.lookup key = r.lookup key :=
  Redis.lookup_congr r _ key r.fault_frame.1 r.fault_frame.2.1

theorem Redis.fault_nowMs (r : Redis) : r.fault.2.nowMs = r.nowMs := by
  unfold Redis.nowMs
  rw [r.fault_frame.2.1]

theorem Redis.fault_remaining (r : Redis) (key : String) :
    r.fault.2.remaining key = r.remaining key := by
  unfold Redis.remaining Redis.ttlReply
  rw [Redis.fault_lookup, r.fault_rounding, r.fault_nowMs]

/-- What `IsBlocked` returns in terms of the fate of its `TTL` command. -/
theorem Store.IsBlocked_eq (id : String) (s : Redis) :
    Store.IsBlocked id s =
      match s.fault.1 with
      | some e => ((false, 0, some e), s.fault.2)
      | none =>
        if 0 < s.remaining (blockKey id) then
          ((true, s.remaining (blockKey id), none), s.fault.2)
        else ((false, 0, none), s.fault.2) := by
  unfold Store.IsBlocked Redis.TTL
  rcases hf : s.fault with ⟨f, r1⟩
  have hr : r1.remaining (blockKey id) = s.remaining (blockKey id) := by
    have := Redis.fault_remaining s (blockKey id)
    rw [hf] at this
    exact this
  cases f with
  | some e => rfl
  | none => simp only [hr, gt_iff_lt]

/-- A `Check` of an identifier that `IsBlocked` reports blocked: it is denied after the single
`IsBlocked` call, whether or not that call fails, and keys and clock stay as they were. -/
theorem check_while_blocked (identifier : String) (N : Int) (B : Duration) (now : Time)
    (s : Redis) (hN : 0 < N) (hrem : 0 < s.remaining (blockKey identifier)) :
    (redisLimiter.Check identifier N B now s).res.Allowed = false ∧
    (redisLimiter.Check identifier N B now s).calls = [StoreCall.IsBlocked identifier] ∧
    (redisLimiter.Check identifier N B now s).store.keys = s.keys ∧
    (redisLimiter.Check identifier N B now s).store.clock = s.clock ∧
    ((redisLimiter.Check identifier N B now s).res.RetryAfter = 0 ∨
      (redisLimiter.Check identifier N B now s).res.RetryAfter
        = s.remaining (blockKey identifier)) ∧
    ((redisLimiter.Check identifier N B now s).err = none →
      (redisLimiter.Check identifier N B now s).res.RetryAfter
        = s.remaining (blockKey identifier)) := by
  have h1 : ¬ N ≤ 0 := by omega
  have heq := Store.IsBlocked_eq identifier s
  obtain ⟨hk, hc, _⟩ := s.fault_frame
  cases hf : s.fault.1 with
  | some e =>
    rw [hf] at heq
    simp [Limiter.Check, redisLimiter, redisStore, h1, heq, Result.zero, hk, hc]
  | none =>
    rw [hf] at heq
    simp [Limiter.Check, redisLimiter, redisStore, h1, heq, hrem, hk, hc]

/-- A denial that came out of the counting path with a positive block duration ended with a
successful `SetBlock`, whose resulting state is the state `Check` returns. -/
theorem check_exceeded_inv {σ : Type} (l : Limiter σ) (identifier : String) (N : Int)
    (B : Duration) (now : Time) (s : σ) (hB : 0 < B)
    (herr : (l.Check identifier N B now s).err = none)
    (hden : (l.Check identifier N B now s).res.Allowed = false)
    (hincr : StoreCall.Incr (windowKey identifier now.Unix) Second
      ∈ (l.Check identifier N B now s).calls) :
    ∃ s2, (l.store.SetBlock identifier B s2).1 = none ∧
      (l.Check identifier N B now s).store = (l.store.SetBlock identifier B s2).2 := by
  rcases hib : l.store.IsBlocked identifier s with ⟨⟨blocked, ttl, err⟩, s1⟩
  rcases hinc : l.store.Incr (windowKey identifier now.Unix) Second s1 with
    ⟨⟨count, err2⟩, s2⟩
  rcases hsb : l.store.SetBlock identifier B s2 with ⟨e3, s3⟩
  refine ⟨s2, ?_⟩
  rw [hsb]
  by_cases h0 : N ≤ 0
  · simp [Limiter.Check, h0] at hden
  · cases err with
    | some e => simp [Limiter.Check, h0, hib] at herr
    | none =>
      cases blocked with
      | true => simp [Limiter.Check, h0, hib] at hincr
      | false =>
        cases err2 with
        | some e => simp [Limiter.Check, h0, hib, hinc] at herr
        | none =>
          by_cases hc : count > N
          · cases e3 with
            | some e => simp [Limiter.Check, h0, hib, hinc, hc, hB, hsb] at herr
            | none => simp [Limiter.Check, h0, hib, hinc, hc, hB, hsb]
          · simp [Limiter.Check, h0, hib, hinc, hc] at hden

/-- After a denial for exceeding the limit with a positive block duration, the block record
is in place with a deadline the whole milliseconds of the duration after the time read. -/
theorem check_exceeded_block_record (identifier : String) (N : Int) (B : Duration) (now : Time)
    (s : Redis) (hB : 0 < B)
    (herr : (redisLimiter.Check identifier N B now s).err = none)
    (hden : (redisLimiter.Check identifier N B now s).res.Allowed = false)
    (hincr : StoreCall.Incr (windowKey identifier now.Unix) Second
      ∈ (redisLimiter.Check identifier N B now s).calls) :
    (redisLimiter.Check identifier N B now s).store.keys (blockKey identifier)
      = some ⟨1, some ((redisLimiter.Check identifier N B now s).store.nowMs
          + expirationMs B)⟩ := by
  obtain ⟨s2, hok, hst⟩ := check_exceeded_inv redisLimiter identifier N B now s hB herr hden hincr
  have hset := Store.SetBlock_success identifier B s2 hB hok
  rw [hst]
  show (Store.SetBlock identifier B s2).2.keys (blockKey identifier) = _
  rw [hset.1]
  show _ = some ⟨1, some ((Store.SetBlock identifier B s2).2.nowMs + expirationMs B)⟩
  unfold Redis.nowMs
  rw [hset.2.1]

/-- A block record within a millisecond of its deadline, or past it, gets a reply of zero
or less. -/
theorem Redis.ttlReply_expired (r : Redis) (key : String) (v t : Int)
    (hk : r.keys key = some ⟨v, some t⟩) (ht : t ≤ r.nowMs + 1) : r.ttlReply key ≤ 0 := by
  unfold Redis.ttlReply Redis.lookup
  rw [hk]
  by_cases hl : r.nowMs ≤ t
  · simp only [hl, if_true]
    rw [r.rounding.seconds_of_le_one (t - r.nowMs) (by omega) (by omega)]
  · simp [hl]

theorem wrap64_seconds (n : Int) (h0 : 0 ≤ n) (h1 : n ≤ 9223372036) :
    wrap64 (n * Second) = n * 1000000000 := by
  unfold wrap64 Second
  omega

/-- A block record with between one second and `b` seconds to its deadline yields a
duration of `n` whole seconds, with `n` between 1 and `b`. -/
theorem Redis.remaining_of_live (r : Redis) (key : String) (v t b : Int)
    (hk : r.keys key = some ⟨v, some t⟩) (h1 : r.nowMs + 1000 ≤ t)
    (h2 : t ≤ r.nowMs + 1000 * b) (hb : b ≤ 9223372036) :
    ∃ n : Int, r.remaining key = n * 1000000000 ∧ 1 ≤ n ∧ n ≤ b := by
  obtain ⟨hn1, hn2⟩ := r.rounding.seconds_bounds (t - r.nowMs) b (by omega) (by omega)
  have hl : r.nowMs ≤ t := by omega
  have hreply : r.ttlReply key = r.rounding.seconds (t - r.nowMs) := by
    simp [Redis.ttlReply, Redis.lookup, hk, hl]
  refine ⟨r.rounding.seconds (t - r.nowMs), ?_, hn1, hn2⟩
  unfold Redis.remaining durationOfReply
  rw [hreply]
  have hc : ¬ (r.rounding.seconds (t - r.nowMs) = -2 ∨
      r.rounding.seconds (t - r.nowMs) = -1) := by omega
  rw [if_neg hc]
  exact wrap64_seconds _ (by omega) (by omega)

/-- A run of checks in one window that stays within the limit: every check is admitted,
whatever time passes between them. -/
theorem checkSeq_allowed (identifier : String) (N : Int) (B : Duration) (sec : Int)
    (hN : 1 ≤ N) (hmax : N ≤ maxInt64) :
    ∀ (sched : List (Int × Time)) (s : Redis) (j : Int), s.faults = [] →
      s.ttlReply (blockKey identifier) ≤ 0 →
      (∀ p ∈ sched, 0 ≤ p.1 ∧ p.2.Unix = sec) → 0 ≤ j →
      (s.lookup (windowKey identifier sec) = none ∨
        ∃ k x, s.keys (windowKey identifier sec) = some ⟨k, x⟩ ∧ 1 ≤ k ∧ k ≤ j) →
      j + sched.length ≤ N →
      (checkSeq identifier N B sched s).map Outcome.verdict
        = List.replicate sched.length (⟨true, 0⟩, none) := by
  intro sched
  induction sched with
  | nil => intro s j _ _ _ _ _ _; simp [checkSeq]
  | cons p rest ih =>
    intro s j hf hub hsched hj hinv hsum
    obtain ⟨d, nw⟩ := p
    obtain ⟨hd, hnw⟩ := hsched (d, nw) (List.mem_cons_self _ _)
    simp only [] at hd hnw
    have hrest : ∀ q ∈ rest, 0 ≤ q.1 ∧ q.2.Unix = sec :=
      fun q hq => hsched q (List.mem_cons_of_mem _ hq)
    have hf2 : (s.advance d).faults = [] := hf
    have hub1 : (s.advance d).ttlReply (blockKey identifier) ≤ 0 :=
      le_trans (s.ttlReply_advance (blockKey identifier) d hd) hub
    have hub2 := Redis.not_blocked_of_ttlReply _ _ hub1
    have hne : blockKey identifier ≠ windowKey identifier nw.Unix :=
      fun h => windowKey_ne_blockKey _ _ _ h.symm
    have hlen : ((rest.length + 1 : Nat) : Int) = (rest.length : Int) + 1 := by push_cast; rfl
    simp only [List.length_cons] at hsum
    rw [hlen] at hsum
    rw [← hnw] at hinv
    cases hl : (s.advance d).lookup (windowKey identifier nw.Unix) with
    | none =>
      have hstep := check_fresh_window identifier N B nw (s.advance d) hN hf2 hub2 hl
      rw [checkSeq, hstep]
      simp only [List.map_cons, List.length_cons, List.replicate_succ]
      rw [ih (((s.advance d).put (windowKey identifier nw.Unix) ⟨1, none⟩).put
          (windowKey identifier nw.Unix) ⟨1, some ((s.advance d).nowMs + 1000)⟩) (j + 1) hf
        (by rw [Redis.ttlReply_put_ne _ _ _ _ hne, Redis.ttlReply_put_ne _ _ _ _ hne]
            exact hub1)
        hrest (by omega)
        (Or.inr ⟨1, some ((s.advance d).nowMs + 1000), by rw [← hnw]; simp, le_refl _,
          by omega⟩)
        (by omega)]
      simp [Outcome.verdict]
    | some e =>
      have hkeys := Redis.keys_of_lookup _ _ _ hl
      rw [Redis.advance_keys] at hkeys
      rcases hinv with hnone | ⟨k, x, hk, hk1, hkj⟩
      · have := Redis.lookup_none_mono s (s.advance d) _ rfl
          (by simp only [Redis.advance_clock]; omega) hnone
        rw [this] at hl
        exact absurd hl (by simp)
      · rw [hk] at hkeys
        simp only [Option.some.injEq] at hkeys
        subst hkeys
        have hstep := check_counting_window identifier N B nw (s.advance d) ⟨k, x⟩ hN hf2
          hub2 hl hk1 (by show k < maxInt64; omega)
        have hc : ¬ k + 1 > N := by omega
        rw [checkSeq, hstep]
        simp only [hc, if_false, List.map_cons, List.length_cons, List.replicate_succ]
        rw [ih ((s.advance d).put (windowKey identifier nw.Unix) ⟨k + 1, x⟩) (j + 1) hf
          (by rw [Redis.ttlReply_put_ne _ _ _ _ hne]; exact hub1) hrest
          (by omega) (Or.inr ⟨k + 1, x, by rw [← hnw]; simp, by omega, by omega⟩) (by omega)]
        simp [Outcome.verdict]

/-- C5: after a check at `now` was denied for exceeding the limit `N` (block duration
`B > 0`), once `B` or more has passed on the server clock, the next `N` checks in a later
epoch second whose window had no live counter are all allowed with a nil error, whatever
time passes between them, provided no store command fails. -/
theorem check_allowed_again_after_block_expiry (identifier : String) (N : Nat)
    (B d : Int) (now now2 : Time) (s : Redis) (sched : List (Int × Time))
    (hN : 1 ≤ N) (hmax : (N : Int) ≤ maxInt64) (hB : 0 < B) (hf : s.faults = [])
    (herr : (redisLimiter.Check identifier N B now s).err = none)
    (hden : (redisLimiter.Check identifier N B now s).res.Allowed = false)
    (hincr : StoreCall.Incr (windowKey identifier now.Unix) Second
      ∈ (redisLimiter.Check identifier N B now s).calls)
    (hexpired : B ≤ d) (hlater : now.Unix < now2.Unix)
    (hfresh : s.lookup (windowKey identifier now2.Unix) = none)
    (hlen : sched.length = N) (hsched : ∀ p ∈ sched, 0 ≤ p.1 ∧ p.2.Unix = now2.Unix) :
    (checkSeq identifier N B sched
        ((redisLimiter.Check identifier N B now s).store.advance d)).map Outcome.verdict
      = List.replicate N (⟨true, 0⟩, none) := by
  have hblock := check_exceeded_block_record identifier N B now s hB herr hden hincr
  obtain ⟨hkeys, hclock, hfaults⟩ := check_frame identifier N B now s
  subst hlen
  have hN1 : (1 : Int) ≤ (sched.length : Int) := by omega
  apply checkSeq_allowed identifier sched.length B now2.Unix hN1 hmax sched
    ((redisLimiter.Check identifier sched.length B now s).store.advance d) 0 (hfaults hf) _
    hsched (le_refl _) _ (by omega)
  · -- the block record has run out, or has at most a millisecond left
    apply Redis.ttlReply_expired _ _ 1 _ (by rw [Redis.advance_keys]; exact hblock)
    rw [expirationMs_eq B hB]
    simp only [Redis.nowMs, Redis.advance_clock]
    omega
  · -- the later window is still without a counter
    left
    have hne1 : windowKey identifier now2.Unix ≠ windowKey identifier now.Unix := by
      intro h
      have := windowKey_sec_injective identifier _ _ h
      omega
    apply Redis.lookup_none_mono s _ _ _ _ hfresh
    · rw [Redis.advance_keys]
      exact hkeys _ hne1 (windowKey_ne_blockKey _ _ _)
    · rw [Redis.advance_clock, hclock]; omega

/-- After a denial for exceeding the limit with a block of `B` whole seconds, every further
check issued while at most `B` less one second has passed on the server clock is denied
after the single `IsBlocked` call, leaves all keys alone and reports a whole number of
seconds between one second and `B`. -/
theorem checkSeq_denied_while_blocked (identifier : String) (N : Int) (B : Int)
    (now : Time) (s : Redis) (sched : List (Int × Time)) (hN : 1 ≤ N) (hB : 0 < B)
    (hwhole : B % 1000000000 = 0) (hmax : B ≤ maxInt64)
    (herr : (redisLimiter.Check identifier N B now s).err = none)
    (hden : (redisLimiter.Check identifier N B now s).res.Allowed = false)
    (hincr : StoreCall.Incr (windowKey identifier now.Unix) Second
      ∈ (redisLimiter.Check identifier N B now s).calls)
    (hdelay : ∀ p ∈ sched, 0 ≤ p.1) (helapsed : (sched.map Prod.fst).sum + Second ≤ B) :
    ∀ o ∈ checkSeq identifier N B sched (redisLimiter.Check identifier N B now s).store,
      o.res.Allowed = false ∧ 0 ≤ o.res.RetryAfter ∧ o.res.RetryAfter ≤ B ∧
      o.calls = [StoreCall.IsBlocked identifier] ∧
      o.store.keys = (redisLimiter.Check identifier N B now s).store.keys ∧
      (o.err = none → Second ≤ o.res.RetryAfter ∧ o.res.RetryAfter % Second = 0) := by
  have hkey0 := check_exceeded_block_record identifier N B now s hB herr hden hincr
  rw [expirationMs_eq B hB] at hkey0
  generalize (redisLimiter.Check identifier N B now s).store = s0 at hkey0 ⊢
  have hmax2 : B ≤ 9223372036854775807 := hmax
  have hS : (sched.map Prod.fst).sum + 1000000000 ≤ B := helapsed
  have key : ∀ (sched : List (Int × Time)) (st : Redis), st.keys = s0.keys →
      s0.clock ≤ st.clock → (∀ p ∈ sched, 0 ≤ p.1) →
      st.clock + (sched.map Prod.fst).sum + 1000000000 ≤ s0.clock + B →
      ∀ o ∈ checkSeq identifier N B sched st,
        o.res.Allowed = false ∧ 0 ≤ o.res.RetryAfter ∧ o.res.RetryAfter ≤ B ∧
        o.calls = [StoreCall.IsBlocked identifier] ∧ o.store.keys = s0.keys ∧
        (o.err = none → Second ≤ o.res.RetryAfter ∧ o.res.RetryAfter % Second = 0) := by
    intro sched
    induction sched with
    | nil => intro st _ _ _ _ o ho; simp [checkSeq] at ho
    | cons p rest ih =>
      intro st hk hc hd hs o ho
      obtain ⟨d, nw⟩ := p
      have hd0 : 0 ≤ d := hd (d, nw) (List.mem_cons_self _ _)
      have hrest : ∀ q ∈ rest, 0 ≤ q.1 := fun q hq => hd q (List.mem_cons_of_mem _ hq)
      have hsum0 := sum_delays_nonneg rest hrest
      simp only [List.map_cons, List.sum_cons] at hs
      have hkey : (st.advance d).keys (blockKey identifier)
          = some ⟨1, some (s0.nowMs + max 1 (B / 1000000))⟩ := by
        rw [Redis.advance_keys, hk]; exact hkey0
      obtain ⟨n, hrn, hn1, hn2⟩ := Redis.remaining_of_live (st.advance d)
        (blockKey identifier) 1 (s0.nowMs + max 1 (B / 1000000)) (B / 1000000000) hkey
        (by simp only [Redis.nowMs, Redis.advance_clock]; omega)
        (by simp only [Redis.nowMs, Redis.advance_clock]; omega) (by omega)
      obtain ⟨ha, hcalls, hkeys, hclock, hra, hre⟩ :=
        check_while_blocked identifier N B nw (st.advance d) (by omega)
          (by rw [hrn]; show (0 : Int) < n * 1000000000; omega)
      have hadv : (st.advance d).clock = st.clock + d := rfl
      have hclock2 : (redisLimiter.Check identifier N B nw (st.advance d)).store.clock
          = st.clock + d := by rw [hclock, hadv]
      simp only [checkSeq, List.mem_cons] at ho
      rcases ho with rfl | ho
      · refine ⟨ha, ?_, ?_, hcalls, ?_, ?_⟩
        · rcases hra with h | h
          · exact le_of_eq h.symm
          · rw [h, hrn]; show (0 : Int) ≤ n * 1000000000; omega
        · rcases hra with h | h
          · rw [h]; exact le_of_lt hB
          · rw [h, hrn]; show n * 1000000000 ≤ (B : Int); omega
        · rw [hkeys, Redis.advance_keys, hk]
        · intro he
          rw [hre he, hrn]
          refine ⟨?_, ?_⟩
          · show (1000000000 : Int) ≤ n * 1000000000; omega
          · show n * 1000000000 % (1000000000 : Int) = 0; omega
      · exact ih _ (by rw [hkeys, Redis.advance_keys, hk]) (by rw [hclock2]; omega) hrest
          (by rw [hclock2]; omega) o ho
  exact key sched s0 rfl (le_refl _) hdelay (by omega)

/-- C4: the block does not last for `B`.  On a Redis server and on miniredis alike, under
the rule `(1, 5s)`, a check made 4.6 seconds after the denial that set the block, while the
block record is still there, is admitted and increments the counter of its window, because
the whole seconds of the `TTL` reply are zero; on a Redis server a block of 1.5 seconds is
reported with `RetryAfter = 2s`.  What does hold: after a denial for exceeding the limit
with a block of `B` whole seconds, every further check made while at most `B` less one
second has passed on the server clock is denied after the single `IsBlocked` call, leaves
all keys alone and, when its error is nil, reports whole seconds between one second and
`B`. -/
theorem check_admitted_before_block_ends :
    (blockScenario (Redis.empty 0) (5 * Second) 4600000000 ⟨104, 600000000⟩).map
        Outcome.verdict
      = [(⟨true, 0⟩, none), (⟨false, 5 * Second⟩, none), (⟨true, 0⟩, none)] ∧
    (blockScenario (Redis.empty 0) (5 * Second) 4600000000 ⟨104, 600000000⟩).map
        Outcome.calls
      = [[StoreCall.IsBlocked "token:abc", StoreCall.Incr (windowKey "token:abc" 100) Second],
          [StoreCall.IsBlocked "token:abc", StoreCall.Incr (windowKey "token:abc" 100) Second,
            StoreCall.SetBlock "token:abc" (5 * Second)],
          [StoreCall.IsBlocked "token:abc",
            StoreCall.Incr (windowKey "token:abc" 104) Second]] ∧
    (blockScenario miniredisEmpty (5 * Second) 4600000000 ⟨104, 600000000⟩).map
        Outcome.verdict
      = [(⟨true, 0⟩, none), (⟨false, 5 * Second⟩, none), (⟨true, 0⟩, none)] ∧
    (blockScenario (Redis.empty 0) (5 * Second) 4600000000 ⟨104, 600000000⟩).map
        (fun o => o.store.valueOf (windowKey "token:abc" 104)) = [0, 0, 1] ∧
    (checkSeq "token:abc" 1 (5 * Second) [(0, ⟨100, 0⟩), (0, ⟨100, 0⟩)] (Redis.empty 0)).map
        (fun o => (o.store.advance 4600000000).lookup (blockKey "token:abc"))
      = [none, some ⟨1, some 5000⟩] ∧
    (blockScenario (Redis.empty 0) (5 * Second) (4 * Second) ⟨104, 0⟩).map Outcome.verdict
      = [(⟨true, 0⟩, none), (⟨false, 5 * Second⟩, none), (⟨false, Second⟩, none)] ∧
    (blockScenario (Redis.empty 0) 1500000000 0 ⟨100, 0⟩).map Outcome.verdict
      = [(⟨true, 0⟩, none), (⟨false, 1500000000⟩, none), (⟨false, 2 * Second⟩, none)] ∧
    (∀ (identifier : String) (N B : Int) (now : Time) (s : Redis) (sched : List (Int × Time)),
      1 ≤ N → 0 < B → B % Second = 0 → B ≤ maxInt64 →
      (redisLimiter.Check identifier N B now s).err = none →
      (redisLimiter.Check identifier N B now s).res.Allowed = false →
      StoreCall.Incr (windowKey identifier now.Unix) Second
        ∈ (redisLimiter.Check identifier N B now s).calls →
      (∀ p ∈ sched, 0 ≤ p.1) → (sched.map Prod.fst).sum + Second ≤ B →
      ∀ o ∈ checkSeq identifier N B sched (redisLimiter.Check identifier N B now s).store,
        o.res.Allowed = false ∧ 0 ≤ o.res.RetryAfter ∧ o.res.RetryAfter ≤ B ∧
        o.calls = [StoreCall.IsBlocked identifier] ∧
        o.store.keys = (redisLimiter.Check identifier N B now s).store.keys ∧
        (o.err = none → Second ≤ o.res.RetryAfter ∧ o.res.RetryAfter % Second = 0)) := by
  refine ⟨by decide, by decide, by decide, by decide, by decide, by decide, by decide, ?_⟩
  intro identifier N B now s sched hN hB hwhole hmax herr hden hincr hdelay helapsed
  exact checkSeq_denied_while_blocked identifier N B now s sched hN hB hwhole hmax herr hden
    hincr hdelay helapsed

/-! ## Theorems: the decision engine over an arbitrary store -/

/-- C3: with a limit of zero or less, `Check` admits with a nil error, issues no store call
and returns the store state it was given, whatever the store would answer. -/
theorem check_nonpositive_limit_bypasses_store {σ : Type} (l : Limiter σ) (identifier : String)
    (limitPerSecond : Int) (blockFor : Duration) (now : Time) (s : σ)
    (hlimit : limitPerSecond ≤ 0) :
    l.Check identifier limitPerSecond blockFor now s = ⟨⟨true, 0⟩, none, s, []⟩ := by
  simp [Limiter.Check, hlimit]

/-- C2: when the store reports the identifier as blocked with `remaining` left, `Check`
denies with `RetryAfter = remaining` and a nil error, and its only store call is that
`IsBlocked`: neither `Incr` nor `SetBlock` is called, whatever the counters hold. -/
theorem check_blocked_denies_without_counting {σ : Type} (l : Limiter σ) (identifier : String)
    (limitPerSecond : Int) (blockFor : Duration) (now : Time) (s s1 : σ) (remaining : Duration)
    (hlimit : 0 < limitPerSecond)
    (hblocked : l.store.IsBlocked identifier s = ((true, remaining, none), s1)) :
    l.Check identifier limitPerSecond blockFor now s
      = ⟨⟨false, remaining⟩, none, s1, [StoreCall.IsBlocked identifier]⟩ := by
  simp [Limiter.Check, not_le.mpr hlimit, hblocked]

/-- C6 (as stated) fails: the identifier is unblocked and `Incr` returns 2 > 1, yet `Check`
returns `RetryAfter = 0`, not the block duration of five seconds, because `SetBlock`
failed. -/
theorem check_exceed_retry_after_counterexample :
    (Store.IsBlocked "ip:1.2.3.4" failingSetState).1 = (false, 0, none) ∧
    (Store.Incr (windowKey "ip:1.2.3.4" 0) Second
      (Store.IsBlocked "ip:1.2.3.4" failingSetState).2).1 = (2, none) ∧
    (redisLimiter.Check "ip:1.2.3.4" 1 (5 * Second) ⟨0, 0⟩ failingSetState).res
      = ⟨false, 0⟩ ∧
    (redisLimiter.Check "ip:1.2.3.4" 1 (5 * Second) ⟨0, 0⟩ failingSetState).err
      = some "connection refused" ∧
    (redisLimiter.Check "ip:1.2.3.4" 1 (5 * Second) ⟨0, 0⟩ failingSetState).res.RetryAfter
      ≠ 5 * Second := by
  decide

/-- C6 (amended): for an unblocked identifier and a limit above zero, when `Incr` returns a
count above the limit `Check` denies; with `B > 0` it calls `SetBlock(identifier, B)` exactly
once, as its last store call, and returns `RetryAfter = B` with a nil error when that call
succeeds and the zero verdict with the error when it fails; with `B = 0` it makes no
`SetBlock` call, leaves the store as `Incr` left it and returns `RetryAfter = 0`; when the
count is at most the limit it admits without calling `SetBlock`. -/
theorem check_exceed_blocks_iff_positive_duration {σ : Type} (l : Limiter σ)
    (identifier : String) (limitPerSecond : Int) (blockFor ttl : Duration) (count : Int)
    (now : Time) (s s1 s2 : σ) (hlimit : 0 < limitPerSecond) (hB : 0 ≤ blockFor)
    (hunblocked : l.store.IsBlocked identifier s = ((false, ttl, none), s1))
    (hincr : l.store.Incr (windowKey identifier now.Unix) Second s1 = ((count, none), s2)) :
    (limitPerSecond < count → 0 < blockFor →
      (l.Check identifier limitPerSecond blockFor now s).calls
        = [StoreCall.IsBlocked identifier,
            StoreCall.Incr (windowKey identifier now.Unix) Second,
            StoreCall.SetBlock identifier blockFor] ∧
      (l.Check identifier limitPerSecond blockFor now s).res.Allowed = false ∧
      (l.Check identifier limitPerSecond blockFor now s).store
        = (l.store.SetBlock identifier blockFor s2).2 ∧
      ((l.store.SetBlock identifier blockFor s2).1 = none →
        (l.Check identifier limitPerSecond blockFor now s).res = ⟨false, blockFor⟩ ∧
        (l.Check identifier limitPerSecond blockFor now s).err = none) ∧
      (∀ e, (l.store.SetBlock identifier blockFor s2).1 = some e →
        (l.Check identifier limitPerSecond blockFor now s).res = Result.zero ∧
        (l.Check identifier limitPerSecond blockFor now s).err = some e)) ∧
    (limitPerSecond < count → blockFor = 0 →
      l.Check identifier limitPerSecond blockFor now s
        = ⟨⟨false, 0⟩, none, s2,
            [StoreCall.IsBlocked identifier,
              StoreCall.Incr (windowKey identifier now.Unix) Second]⟩) ∧
    (count ≤ limitPerSecond →
      l.Check identifier limitPerSecond blockFor now s
        = ⟨⟨true, 0⟩, none, s2,
            [StoreCall.IsBlocked identifier,
              StoreCall.Incr (windowKey identifier now.Unix) Second]⟩) := by
  have h0 : ¬ limitPerSecond ≤ 0 := not_le.mpr hlimit
  refine ⟨?_, ?_, ?_⟩
  · intro hc hpos
    rcases hsb : l.store.SetBlock identifier blockFor s2 with ⟨e3, s3⟩
    cases e3 with
    | some e => simp [Limiter.Check, h0, hunblocked, hincr, hc, hpos, hsb, Result.zero]
    | none => simp [Limiter.Check, h0, hunblocked, hincr, hc, hpos, hsb]
  · intro hc hz
    subst hz
    simp [Limiter.Check, h0, hunblocked, hincr, hc]
  · intro hc
    simp [Limiter.Check, h0, hunblocked, hincr, not_lt.mpr hc]

/-- C7: with a limit above zero, an error from `IsBlocked`, `Incr` or `SetBlock` is returned
by `Check` unchanged with a verdict that is not allowed, and the failing call is the last
store call; and whenever `Check` returns an error, it is the error of one of these three
calls (so in every other case the error is nil). -/
theorem check_passes_store_errors_through {σ : Type} (l : Limiter σ) (identifier : String)
    (limitPerSecond : Int) (blockFor : Duration) (now : Time) (s : σ)
    (hlimit : 0 < limitPerSecond) :
    (∀ b ttl e s1, l.store.IsBlocked identifier s = ((b, ttl, some e), s1) →
      l.Check identifier limitPerSecond blockFor now s
        = ⟨⟨false, 0⟩, some e, s1, [StoreCall.IsBlocked identifier]⟩) ∧
    (∀ ttl s1 count e s2, l.store.IsBlocked identifier s = ((false, ttl, none), s1) →
      l.store.Incr (windowKey identifier now.Unix) Second s1 = ((count, some e), s2) →
      l.Check identifier limitPerSecond blockFor now s
        = ⟨⟨false, 0⟩, some e, s2,
            [StoreCall.IsBlocked identifier,
              StoreCall.Incr (windowKey identifier now.Unix) Second]⟩) ∧
    (∀ ttl s1 count s2 e s3, l.store.IsBlocked identifier s = ((false, ttl, none), s1) →
      l.store.Incr (windowKey identifier now.Unix) Second s1 = ((count, none), s2) →
      limitPerSecond < count → 0 < blockFor →
      l.store.SetBlock identifier blockFor s2 = (some e, s3) →
      l.Check identifier limitPerSecond blockFor now s
        = ⟨⟨false, 0⟩, some e, s3,
            [StoreCall.IsBlocked identifier,
              StoreCall.Incr (windowKey identifier now.Unix) Second,
              StoreCall.SetBlock identifier blockFor]⟩) ∧
    (∀ e, (l.Check identifier limitPerSecond blockFor now s).err = some e →
      (l.store.IsBlocked identifier s).1.2.2 = some e ∨
      ((l.store.IsBlocked identifier s).1.2.2 = none ∧
        (l.store.IsBlocked identifier s).1.1 = false ∧
        (l.store.Incr (windowKey identifier now.Unix) Second
          (l.store.IsBlocked identifier s).2).1.2 = some e) ∨
      ((l.store.IsBlocked identifier s).1.2.2 = none ∧
        (l.store.IsBlocked identifier s).1.1 = false ∧
        (l.store.Incr (windowKey identifier now.Unix) Second
          (l.store.IsBlocked identifier s).2).1.2 = none ∧
        limitPerSecond < (l.store.Incr (windowKey identifier now.Unix) Second
          (l.store.IsBlocked identifier s).2).1.1 ∧ 0 < blockFor ∧
        (l.store.SetBlock identifier blockFor
          (l.store.Incr (windowKey identifier now.Unix) Second
            (l.store.IsBlocked identifier s).2).2).1 = some e)) := by
  have h0 : ¬ limitPerSecond ≤ 0 := not_le.mpr hlimit
  refine ⟨?_, ?_, ?_, ?_⟩
  · intro b ttl e s1 hib
    simp [Limiter.Check, h0, hib, Result.zero]
  · intro ttl s1 count e s2 hib hinc
    simp [Limiter.Check, h0, hib, hinc, Result.zero]
  · intro ttl s1 count s2 e s3 hib hinc hc hpos hsb
    simp [Limiter.Check, h0, hib, hinc, hc, hpos, hsb, Result.zero]
  · intro e he
    rcases hib : l.store.IsBlocked identifier s with ⟨⟨blocked, ttl, err⟩, s1⟩
    rcases hinc : l.store.Incr (windowKey identifier now.Unix) Second s1 with
      ⟨⟨count, err2⟩, s2⟩
    rcases hsb : l.store.SetBlock identifier blockFor s2 with ⟨e3, s3⟩
    simp only [hinc, hsb]
    cases err with
    | some e1 =>
      left
      simpa [Limiter.Check, h0, hib] using he
    | none =>
      right
      cases blocked with
      | true => simp [Limiter.Check, h0, hib] at he
      | false =>
        cases err2 with
        | some e2 =>
          left
          simpa [Limiter.Check, h0, hib, hinc] using he
        | none =>
          right
          by_cases hc : count > limitPerSecond
          · by_cases hpos : blockFor > 0
            · cases e3 with
              | some e4 =>
                have : e4 = e := by
                  simpa [Limiter.Check, h0, hib, hinc, hc, hpos, hsb] using he
                subst this
                exact ⟨rfl, rfl, rfl, hc, hpos, rfl⟩
              | none => simp [Limiter.Check, h0, hib, hinc, hc, hpos, hsb] at he
            · simp [Limiter.Check, h0, hib, hinc, hc, hpos] at he
          · simp [Limiter.Check, h0, hib, hinc, hc] at he

/-! ## Theorems: the admission middleware -/

theorem handler_of_error {σ : Type} (m : RateLimitMiddleware σ) (r : Request)
    (now : Time) (s s1 : σ) (res : Result) (e : Error)
    (hcheck : m.checkCall r now s = ((res, some e), s1)) :
    m.Handler r now s = (httpError "internal error" 500, s1) := by
  unfold RateLimitMiddleware.checkCall at hcheck
  simp only [RateLimitMiddleware.Handler, hcheck, StatusInternalServerError]

theorem handler_of_denied {σ : Type} (m : RateLimitMiddleware σ) (r : Request)
    (now : Time) (s s1 : σ) (res : Result) (hden : res.Allowed = false)
    (hcheck : m.checkCall r now s = ((res, none), s1)) :
    m.Handler r now s
      = ([Effect.setHeader "Content-Type" "application/json"]
        ++ (if res.RetryAfter > 0 then
              [Effect.setHeader "Retry-After" (formatRetryAfter res.RetryAfter)]
            else [])
        ++ [Effect.writeHeader 429, Effect.write denialBody], s1) := by
  unfold RateLimitMiddleware.checkCall at hcheck
  simp only [RateLimitMiddleware.Handler, hcheck, hden, StatusTooManyRequests]
  rfl

theorem handler_of_allowed {σ : Type} (m : RateLimitMiddleware σ) (r : Request)
    (now : Time) (s s1 : σ) (res : Result) (hallowed : res.Allowed = true)
    (hcheck : m.checkCall r now s = ((res, none), s1)) :
    m.Handler r now s = ([Effect.next r], s1) := by
  unfold RateLimitMiddleware.checkCall at hcheck
  simp [RateLimitMiddleware.Handler, hcheck, hallowed]

/-- C8: when the checker returns an error, the handler answers through
`http.Error(w, "internal error", 500)` and nothing else: the effects do not depend on the
error value or the verdict, the next handler is not called, and on a fresh writer the
response has status 500 and the body `internal error` (with the newline `http.Error`
appends). -/
theorem handler_error_fails_closed {σ : Type} (m : RateLimitMiddleware σ) (r : Request)
    (now : Time) (s s1 : σ) (res : Result) (e : Error)
    (hcheck : m.checkCall r now s = ((res, some e), s1)) :
    (m.Handler r now s).1 = httpError "internal error" 500 ∧
    (m.Handler r now s).2 = s1 ∧
    nextCalls (m.Handler r now s).1 = [] ∧
    (∀ next, (ResponseRecorder.replay next ResponseRecorder.fresh (m.Handler r now s).1).Code
        = some 500 ∧
      (ResponseRecorder.replay next ResponseRecorder.fresh (m.Handler r now s).1).Body
        = "internal error\n") := by
  rw [handler_of_error m r now s s1 res e hcheck]
  exact ⟨rfl, rfl, rfl, fun next => ⟨rfl, rfl⟩⟩

/-- C9: when the checker returns a denial with a nil error, the handler sets
`Content-Type: application/json`, sets `Retry-After` exactly when `RetryAfter > 0`, writes
status 429 and the fixed JSON body, and does not call the next handler. -/
theorem handler_denial_response {σ : Type} (m : RateLimitMiddleware σ) (r : Request)
    (now : Time) (s s1 : σ) (res : Result) (hden : res.Allowed = false)
    (hcheck : m.checkCall r now s = ((res, none), s1)) :
    (m.Handler r now s).1
      = [Effect.setHeader "Content-Type" "application/json"]
        ++ (if res.RetryAfter > 0 then
              [Effect.setHeader "Retry-After" (formatRetryAfter res.RetryAfter)]
            else [])
        ++ [Effect.writeHeader 429, Effect.write denialBody] ∧
    nextCalls (m.Handler r now s).1 = [] ∧
    ((∃ v, Effect.setHeader "Retry-After" v ∈ (m.Handler r now s).1) ↔ 0 < res.RetryAfter) ∧
    (∀ next,
      (ResponseRecorder.replay next ResponseRecorder.fresh (m.Handler r now s).1).Code
        = some 429 ∧
      (ResponseRecorder.replay next ResponseRecorder.fresh (m.Handler r now s).1).Body
        = denialBody ∧
      (ResponseRecorder.replay next ResponseRecorder.fresh
        (m.Handler r now s).1).Header.lookup "Content-Type" = some "application/json" ∧
      (ResponseRecorder.replay next ResponseRecorder.fresh
        (m.Handler r now s).1).Header.lookup "Retry-After"
        = if 0 < res.RetryAfter then some (formatRetryAfter res.RetryAfter) else none) := by
  rw [handler_of_denied m r now s s1 res hden hcheck]
  by_cases hpos : res.RetryAfter > 0
  · refine ⟨rfl, ?_, ?_, fun next => ⟨?_, ?_, ?_, ?_⟩⟩
    · simp [hpos, nextCalls]
    · simp [hpos, gt_iff_lt.mp hpos]
    · simp [hpos, ResponseRecorder.replay, ResponseRecorder.step, ResponseRecorder.fresh]
    · simp [hpos, ResponseRecorder.replay, ResponseRecorder.step, ResponseRecorder.fresh]
    · simp [hpos, ResponseRecorder.replay, ResponseRecorder.step, ResponseRecorder.fresh,
        List.lookup]
    · simp [hpos, ResponseRecorder.replay, ResponseRecorder.step, ResponseRecorder.fresh,
        List.lookup, gt_iff_lt.mp hpos]
  · have hpos2 : ¬ 0 < res.RetryAfter := hpos
    refine ⟨rfl, ?_, ?_, fun next => ⟨?_, ?_, ?_, ?_⟩⟩
    · simp [hpos, nextCalls]
    · simp [hpos, hpos2]
    · simp [hpos, ResponseRecorder.replay, ResponseRecorder.step, ResponseRecorder.fresh]
    · simp [hpos, ResponseRecorder.replay, ResponseRecorder.step, ResponseRecorder.fresh]
    · simp [hpos, ResponseRecorder.replay, ResponseRecorder.step, ResponseRecorder.fresh,
        List.lookup]
    · simp [hpos, hpos2, ResponseRecorder.replay, ResponseRecorder.step,
        ResponseRecorder.fresh, List.lookup]

/-- C10: the handler calls the next handler if and only if the checker returns a nil error
with `Allowed = true`; in that case its effects are exactly the one call
`next.ServeHTTP(w, r)` with the request it received, it makes no writer call of its own, and
the response is whatever the next handler produces on the untouched writer. -/
theorem handler_calls_next_iff_allowed {σ : Type} (m : RateLimitMiddleware σ) (r : Request)
    (now : Time) (s : σ) :
    (nextCalls (m.Handler r now s).1 ≠ [] ↔
      ((m.checkCall r now s).1.2 = none ∧ (m.checkCall r now s).1.1.Allowed = true)) ∧
    (((m.checkCall r now s).1.2 = none ∧ (m.checkCall r now s).1.1.Allowed = true) →
      (m.Handler r now s).1 = [Effect.next r] ∧
      nextCalls (m.Handler r now s).1 = [r] ∧
      ownWrites (m.Handler r now s).1 = [] ∧
      ∀ next w, ResponseRecorder.replay next w (m.Handler r now s).1 = next r w) := by
  rcases hc : m.checkCall r now s with ⟨⟨res, err⟩, s1⟩
  cases err with
  | some e =>
    rw [handler_of_error m r now s s1 res e hc]
    simp [httpError, nextCalls]
  | none =>
    cases ha : res.Allowed with
    | false =>
      rw [handler_of_denied m r now s s1 res ha hc]
      by_cases hpos : res.RetryAfter > 0 <;> simp [hpos, nextCalls]
    | true =>
      rw [handler_of_allowed m r now s s1 res ha hc]
      simp [nextCalls, ownWrites, ResponseRecorder.replay, ResponseRecorder.step]

/-! ## Theorems: formatting the retry hint -/

/-- C11 (the code departs from the claim): at `d = 1.2s` the specified hint is the ceiling
`2`, but `formatRetryAfter` rounds to the nearest second and yields `1`; likewise just
above one second and just below one and a half, while from the half second on it does
round up. -/
theorem formatRetryAfter_rounds_to_nearest :
    retryAfterCeilSpec 1200000000 = "2" ∧ formatRetryAfter 1200000000 = "1" ∧
    formatRetryAfter 1000000001 = "1" ∧ formatRetryAfter 1499999999 = "1" ∧
    formatRetryAfter 1500000000 = "2" ∧ formatRetryAfter 2000000000 = "2" := by
  have h : Int.ceil (((1200000000 : Int) : ℚ) / ((1000000000 : Int) : ℚ)) = 2 := by
    rw [Int.ceil_eq_iff]; norm_num
  refine ⟨?_, by decide, by decide, by decide, by decide, by decide⟩
  simp only [retryAfterCeilSpec, Second, h]
  decide

/-! ## Theorems: the rule resolver -/

theorem resolveRule_token {σ : Type} (m : RateLimitMiddleware σ) (r : Request)
    (hmode : m.cfg.Mode = ModeToken) :
    m.resolveRule r =
      (safeIdentifier ("token:" ++ TrimSpace (r.Header m.cfg.TokenHeader)),
        match m.cfg.TokenOverrides (TrimSpace (r.Header m.cfg.TokenHeader)) with
        | some ov => (ov.LimitPerSecond, ov.BlockForSeconds)
        | none => (m.cfg.DefaultLimitPerSec, m.cfg.DefaultBlockSeconds)) := by
  unfold RateLimitMiddleware.resolveRule
  simp only [hmode, if_true]
  cases m.cfg.TokenOverrides (TrimSpace (r.Header m.cfg.TokenHeader)) <;> rfl

theorem resolveRule_ip {σ : Type} (m : RateLimitMiddleware σ) (r : Request)
    (hmode : m.cfg.Mode = ModeIP) :
    m.resolveRule r =
      (safeIdentifier ("ip:" ++ clientIP r), m.cfg.DefaultLimitPerSec,
        m.cfg.DefaultBlockSeconds) := by
  have hne : ¬ ModeIP = ModeToken := by decide
  unfold RateLimitMiddleware.resolveRule
  simp only [hmode, hne, if_true, if_false]

theorem resolveRule_auto {σ : Type} (m : RateLimitMiddleware σ) (r : Request)
    (hmode : m.cfg.Mode = ModeAuto) :
    m.resolveRule r =
      if TrimSpace (r.Header m.cfg.TokenHeader) ≠ "" then
        (safeIdentifier ("token:" ++ TrimSpace (r.Header m.cfg.TokenHeader)),
          match m.cfg.TokenOverrides (TrimSpace (r.Header m.cfg.TokenHeader)) with
          | some ov => (ov.LimitPerSecond, ov.BlockForSeconds)
          | none => (m.cfg.DefaultLimitPerSec, m.cfg.DefaultBlockSeconds))
      else
        (safeIdentifier ("ip:" ++ clientIP r), m.cfg.DefaultLimitPerSec,
          m.cfg.DefaultBlockSeconds) := by
  have hne1 : ¬ ModeAuto = ModeToken := by decide
  have hne2 : ¬ ModeAuto = ModeIP := by decide
  unfold RateLimitMiddleware.resolveRule
  simp only [hmode, hne1, hne2, if_false]
  by_cases hc : TrimSpace (r.Header m.cfg.TokenHeader) = ""
  · simp [hc]
  · simp only [ne_eq, hc, not_false_eq_true, if_true]
    cases m.cfg.TokenOverrides (TrimSpace (r.Header m.cfg.TokenHeader)) <;> rfl

theorem ReplaceAll_data (s : String) (old new : Char) :
    (ReplaceAll s old new).data = s.data.map (fun c => if c = old then new else c) := rfl

theorem safeIdentifier_data (s : String) :
    (safeIdentifier s).data =
      s.data.map (fun c => if c = ' ' ∨ c = '\n' ∨ c = '\r' then '_' else c) := by
  simp only [safeIdentifier, ReplaceAll_data, List.map_map]
  apply List.map_congr_left
  intro c _
  simp only [Function.comp]
  by_cases h1 : c = ' '
  · subst h1; decide
  · by_cases h2 : c = '\n'
    · subst h2; decide
    · by_cases h3 : c = '\r'
      · subst h3; decide
      · simp [h1, h2, h3]

theorem safeIdentifier_token_prefix (c : String) :
    "token:".data <+: (safeIdentifier ("token:" ++ c)).data := by
  rw [safeIdentifier_data, String.data_append, List.map_append]
  exact ⟨_, rfl⟩

theorem safeIdentifier_ip_prefix (a : String) :
    "ip:".data <+: (safeIdentifier ("ip:" ++ a)).data := by
  rw [safeIdentifier_data, String.data_append, List.map_append]
  exact ⟨_, rfl⟩

theorem clientIP_congr (r r2 : Request)
    (hx : r2.Header "X-Forwarded-For" = r.Header "X-Forwarded-For")
    (ha : r2.RemoteAddr = r.RemoteAddr) : clientIP r2 = clientIP r := by
  unfold clientIP
  rw [hx, ha]

/-- C12: in automatic mode, a request whose trimmed credential header is non-empty resolves
exactly as in token mode, to the identifier `safeIdentifier("token:" + credential)`, which
starts with `token:` and is the same for every request presenting that credential; a
request whose trimmed credential header is empty resolves exactly as in address mode. -/
theorem resolveRule_auto_as_token_or_ip {σ : Type} (m : RateLimitMiddleware σ) (r : Request)
    (hmode : m.cfg.Mode = ModeAuto) :
    (TrimSpace (r.Header m.cfg.TokenHeader) ≠ "" →
      m.resolveRule r = (m.withMode ModeToken).resolveRule r ∧
      (m.resolveRule r).1
        = safeIdentifier ("token:" ++ TrimSpace (r.Header m.cfg.TokenHeader)) ∧
      "token:".data <+: (m.resolveRule r).1.data ∧
      ∀ r2 : Request, r2.Header m.cfg.TokenHeader = r.Header m.cfg.TokenHeader →
        m.resolveRule r2 = m.resolveRule r) ∧
    (TrimSpace (r.Header m.cfg.TokenHeader) = "" →
      m.resolveRule r = (m.withMode ModeIP).resolveRule r) := by
  constructor
  · intro hc
    have h1 := resolveRule_auto m r hmode
    rw [if_pos hc] at h1
    have h2 := resolveRule_token (m.withMode ModeToken) r rfl
    refine ⟨?_, ?_, ?_, ?_⟩
    · rw [h1, h2]; rfl
    · rw [h1]
    · rw [h1]; exact safeIdentifier_token_prefix _
    · intro r2 h
      have h3 := resolveRule_auto m r2 hmode
      rw [h] at h3
      rw [if_pos hc] at h3
      rw [h1, h3]
  · intro hc
    have h1 := resolveRule_auto m r hmode
    have hn : ¬ TrimSpace (r.Header m.cfg.TokenHeader) ≠ "" := fun h => h hc
    rw [if_neg hn] at h1
    have h2 := resolveRule_ip (m.withMode ModeIP) r rfl
    rw [h1, h2]; rfl

/-- C13: in address mode the resolved rule is
`(safeIdentifier("ip:" + clientIP(r)), DefaultLimitPerSec, DefaultBlockSeconds)`; any
address-mode configuration with the same defaults gives the same result on any request with
the same forwarded-for header and remote address, whatever its credential header name, its
override table and the other headers of the request are. -/
theorem resolveRule_ip_mode_default_rule {σ : Type} (m : RateLimitMiddleware σ) (r : Request)
    (hmode : m.cfg.Mode = ModeIP) :
    m.resolveRule r =
      (safeIdentifier ("ip:" ++ clientIP r), m.cfg.DefaultLimitPerSec,
        m.cfg.DefaultBlockSeconds) ∧
    "ip:".data <+: (m.resolveRule r).1.data ∧
    ∀ (m2 : RateLimitMiddleware σ) (r2 : Request), m2.cfg.Mode = ModeIP →
      m2.cfg.DefaultLimitPerSec = m.cfg.DefaultLimitPerSec →
      m2.cfg.DefaultBlockSeconds = m.cfg.DefaultBlockSeconds →
      r2.Header "X-Forwarded-For" = r.Header "X-Forwarded-For" →
      r2.RemoteAddr = r.RemoteAddr →
      m2.resolveRule r2 = m.resolveRule r := by
  have h1 := resolveRule_ip m r hmode
  refine ⟨h1, ?_, ?_⟩
  · rw [h1]; exact safeIdentifier_ip_prefix _
  · intro m2 r2 hm2 hl hb hx ha
    rw [h1, resolveRule_ip m2 r2 hm2, clientIP_congr r r2 hx ha, hl, hb]

/-- C14: in token mode the identifier is `safeIdentifier("token:" + c)` for the trimmed
credential `c` (also when `c` is empty), the rule is the override of `c` when the table has
one and the default rule otherwise, and every request presenting the same credential header
value resolves identically, whatever its address. -/
theorem resolveRule_token_mode_override_or_default {σ : Type} (m : RateLimitMiddleware σ)
    (r : Request) (hmode : m.cfg.Mode = ModeToken) :
    (m.resolveRule r).1
      = safeIdentifier ("token:" ++ TrimSpace (r.Header m.cfg.TokenHeader)) ∧
    (∀ ov, m.cfg.TokenOverrides (TrimSpace (r.Header m.cfg.TokenHeader)) = some ov →
      (m.resolveRule r).2 = (ov.LimitPerSecond, ov.BlockForSeconds)) ∧
    (m.cfg.TokenOverrides (TrimSpace (r.Header m.cfg.TokenHeader)) = none →
      (m.resolveRule r).2 = (m.cfg.DefaultLimitPerSec, m.cfg.DefaultBlockSeconds)) ∧
    (∀ r2 : Request, r2.Header m.cfg.TokenHeader = r.Header m.cfg.TokenHeader →
      m.resolveRule r2 = m.resolveRule r) := by
  have h1 := resolveRule_token m r hmode
  refine ⟨by rw [h1], ?_, ?_, ?_⟩
  · intro ov hov
    rw [h1, hov]
  · intro hnone
    rw [h1, hnone]
  · intro r2 h
    rw [h1, resolveRule_token m r2 hmode, h]

/-! ## Theorems: identifiers and storage keys -/

/-- C15: for all strings `t` and `a`, the credential-derived identifier
`safeIdentifier("token:" + t)` differs from the address-derived `safeIdentifier("ip:" + a)`. -/
theorem token_identifier_ne_ip_identifier (t a : String) :
    safeIdentifier ("token:" ++ t) ≠ safeIdentifier ("ip:" ++ a) := by
  intro h
  have h2 := congrArg String.data h
  rw [safeIdentifier_data, safeIdentifier_data, String.data_append, String.data_append] at h2
  have h3 := congrArg List.head? h2
  have ht : "token:".data = 't' :: "oken:".data := rfl
  have hi : "ip:".data = 'i' :: "p:".data := rfl
  rw [ht, hi] at h3
  simp only [List.cons_append, List.map_cons, List.head?_cons, Option.some.injEq] at h3
  revert h3
  decide

theorem digitsRev_mem (fuel n : Nat) (c : Char) (h : c ∈ digitsRev fuel n) :
    ∃ k, c = digitChar k := by
  induction fuel generalizing n with
  | zero => simp [digitsRev] at h
  | succ f ih =>
    unfold digitsRev at h
    by_cases h10 : n < 10
    · simp only [h10, if_true, List.mem_singleton] at h
      exact ⟨n, h⟩
    · simp only [h10, if_false, List.mem_cons] at h
      rcases h with h | h
      · exact ⟨n, h⟩
      · exact ih _ h

theorem formatInt_mem (t : Int) (c : Char) (h : c ∈ (formatInt t).data) :
    (∃ k, c = digitChar k) ∨ c = '-' := by
  cases t with
  | ofNat n =>
    left
    have h2 : c ∈ (digitsRev (n + 1) n).reverse := h
    exact digitsRev_mem _ _ c (List.mem_reverse.mp h2)
  | negSucc n =>
    have h2 : c ∈ '-' :: (digitsRev (n + 1 + 1) (n + 1)).reverse := h
    rcases List.mem_cons.mp h2 with h3 | h3
    · right; exact h3
    · left; exact digitsRev_mem _ _ c (List.mem_reverse.mp h3)

/-- A character of a decimal rendering is none of space, newline, carriage return, colon. -/
theorem formatInt_mem_plain (t : Int) (c : Char) (h : c ∈ (formatInt t).data) :
    c ≠ ' ' ∧ c ≠ '\n' ∧ c ≠ '\r' ∧ c ≠ ':' := by
  rcases formatInt_mem t c h with ⟨k, rfl⟩ | rfl
  · have hk := digitChar_toNat k
    have hlt : k % 10 < 10 := Nat.mod_lt _ (by decide)
    refine ⟨?_, ?_, ?_, ?_⟩ <;>
    · intro hc
      have h2 := congrArg Char.toNat hc
      rw [hk] at h2
      revert h2
      generalize k % 10 = j at hlt
      interval_cases j <;> decide
  · decide

theorem safeIdentifier_mem (s : String) (c : Char) (h : c ∈ (safeIdentifier s).data) :
    c ≠ ' ' ∧ c ≠ '\n' ∧ c ≠ '\r' := by
  rw [safeIdentifier_data] at h
  obtain ⟨x, _, rfl⟩ := List.mem_map.mp h
  by_cases hx : x = ' ' ∨ x = '\n' ∨ x = '\r'
  · simp only [hx, if_true]; decide
  · simp only [hx, if_false]
    push_neg at hx
    exact hx

/-- C16: for every tag, source string and epoch second, no character of the counter key
`windowKey(safeIdentifier(tag + s), t)` or of the block key `blockKey(safeIdentifier(tag + s))`
is a space, a newline or a carriage return. -/
theorem storage_keys_have_no_whitespace (tag s : String) (t : Int) :
    (∀ c ∈ (windowKey (safeIdentifier (tag ++ s)) t).data, c ≠ ' ' ∧ c ≠ '\n' ∧ c ≠ '\r') ∧
    (∀ c ∈ (blockKey (safeIdentifier (tag ++ s))).data, c ≠ ' ' ∧ c ≠ '\n' ∧ c ≠ '\r') := by
  constructor
  · intro c hc
    simp only [windowKey, String.data_append, List.mem_append] at hc
    rcases hc with ((hc | hc) | hc) | hc
    · have : c ∈ ['r', 'l', ':', 'c', 'n', 't', ':'] := hc
      simp only [List.mem_cons, List.mem_singleton, List.not_mem_nil, or_false] at this
      rcases this with rfl | rfl | rfl | rfl | rfl | rfl | rfl <;> decide
    · exact safeIdentifier_mem _ c hc
    · have : c ∈ [':'] := hc
      simp only [List.mem_singleton] at this
      subst this; decide
    · have h4 := formatInt_mem_plain t c hc
      exact ⟨h4.1, h4.2.1, h4.2.2.1⟩
  · intro c hc
    simp only [blockKey, String.data_append, List.mem_append] at hc
    rcases hc with hc | hc
    · have : c ∈ ['r', 'l', ':', 'b', 'l', 'o', 'c', 'k', ':'] := hc
      simp only [List.mem_cons, List.mem_singleton, List.not_mem_nil, or_false] at this
      rcases this with rfl | rfl | rfl | rfl | rfl | rfl | rfl | rfl | rfl <;> decide
    · exact safeIdentifier_mem _ c hc

/-- Two lists cut at a colon agree piecewise when the pieces before the colon have none. -/
theorem colon_split_unique : ∀ (p q a b : List Char), ':' ∉ p → ':' ∉ q →
    p ++ ':' :: a = q ++ ':' :: b → p = q ∧ a = b := by
  intro p
  induction p with
  | nil =>
    intro q a b _ hq h
    cases q with
    | nil => simpa using h
    | cons d q2 =>
      simp only [List.nil_append, List.cons_append, List.cons.injEq] at h
      exact absurd (h.1 ▸ List.mem_cons_self _ _) hq
  | cons c p2 ih =>
    intro q a b hp hq h
    cases q with
    | nil =>
      simp only [List.nil_append, List.cons_append, List.cons.injEq] at h
      exact absurd (h.1.symm ▸ List.mem_cons_self _ _) hp
    | cons d q2 =>
      simp only [List.cons_append, List.cons.injEq] at h
      have hp2 : ':' ∉ p2 := fun hm => hp (List.mem_cons_of_mem _ hm)
      have hq2 : ':' ∉ q2 := fun hm => hq (List.mem_cons_of_mem _ hm)
      obtain ⟨h1, h2⟩ := ih q2 a b hp2 hq2 h.2
      exact ⟨by rw [h.1, h1], h2⟩

theorem windowKey_injective (a b : String) (s t : Int)
    (h : windowKey a s = windowKey b t) : a = b ∧ s = t := by
  have h2 := congrArg String.data h
  simp only [windowKey, String.data_append, List.append_assoc, List.append_cancel_left_eq]
    at h2
  have h3 : (formatInt s).data.reverse ++ ':' :: a.data.reverse
      = (formatInt t).data.reverse ++ ':' :: b.data.reverse := by
    have := congrArg List.reverse h2
    simpa [List.reverse_append] using this
  have hs : ':' ∉ (formatInt s).data.reverse := fun hm =>
    (formatInt_mem_plain s ':' (List.mem_reverse.mp hm)).2.2.2 rfl
  have ht : ':' ∉ (formatInt t).data.reverse := fun hm =>
    (formatInt_mem_plain t ':' (List.mem_reverse.mp hm)).2.2.2 rfl
  obtain ⟨h4, h5⟩ := colon_split_unique _ _ _ _ hs ht h3
  have h6 : formatInt s = formatInt t := String.ext (List.reverse_injective h4)
  exact ⟨String.ext (List.reverse_injective h5), formatInt_injective s t h6⟩

theorem blockKey_injective (a b : String) (h : blockKey a = blockKey b) : a = b := by
  have h2 := congrArg String.data h
  simp only [blockKey, String.data_append, List.append_cancel_left_eq] at h2
  exact String.ext h2

/-- C17: window keys are `rl:cnt:<identifier>:<decimal second>`, block keys are
`rl:block:<identifier>`; equal window keys have equal identifiers and equal seconds (also
for identifiers with colons and digits), equal block keys have equal identifiers, and a
window key is never a block key; the second is rendered in decimal. -/
theorem storage_keys_never_collide :
    (∀ (a : String) (s : Int), windowKey a s = "rl:cnt:" ++ a ++ ":" ++ formatInt s) ∧
    (∀ a : String, blockKey a = "rl:block:" ++ a) ∧
    (∀ (a b : String) (s t : Int), windowKey a s = windowKey b t → a = b ∧ s = t) ∧
    (∀ a b : String, blockKey a = blockKey b → a = b) ∧
    (∀ (a b : String) (s : Int), windowKey a s ≠ blockKey b) ∧
    windowKey "token:a:1" 2 ≠ windowKey "token:a" 12 ∧
    formatInt 1700000000 = "1700000000" ∧ formatInt (-17) = "-17" ∧
    (∀ n : Nat, digitsValue (formatInt (Int.ofNat n)).data.reverse = n) :=
  ⟨fun _ _ => rfl, fun _ => rfl, windowKey_injective, blockKey_injective,
    windowKey_ne_blockKey, by decide, by decide, by decide,
    fun n => by
      show digitsValue (digitsRev (n + 1) n).reverse.reverse = n
      rw [List.reverse_reverse]
      exact digitsValue_digitsRev (n + 1) n (lt_ten_pow_succ n)⟩

/-! ## Theorems: the client address -/

theorem indexByte_none (s : List Char) (c : Char) (h : c ∉ s) : indexByte s c = none := by
  induction s with
  | nil => rfl
  | cons x xs ih =>
    have hx : ¬ x = c := fun e => h (e ▸ List.mem_cons_self _ _)
    have hxs : c ∉ xs := fun hm => h (List.mem_cons_of_mem _ hm)
    simp [indexByte, hx, ih hxs]

theorem lastIndexByte_none (s : List Char) (c : Char) (h : c ∉ s) :
    lastIndexByte s c = none := by
  induction s with
  | nil => rfl
  | cons x xs ih =>
    have hx : ¬ x = c := fun e => h (e ▸ List.mem_cons_self _ _)
    have hxs : c ∉ xs := fun hm => h (List.mem_cons_of_mem _ hm)
    simp [lastIndexByte, hx, ih hxs]

theorem lastIndexByte_append (p q : List Char) (c : Char) (h : c ∉ q) :
    lastIndexByte (p ++ c :: q) c = some p.length := by
  induction p with
  | nil => simp [lastIndexByte, lastIndexByte_none q c h]
  | cons x xs ih => simp [lastIndexByte, ih]

/-- The model of `net.SplitHostPort` splits `host:port` into its two parts when neither part
contains a colon or a square bracket. -/
theorem SplitHostPort_plain (host port : String)
    (hh : ':' ∉ host.data ∧ '[' ∉ host.data ∧ ']' ∉ host.data)
    (hp : ':' ∉ port.data ∧ '[' ∉ port.data ∧ ']' ∉ port.data) :
    SplitHostPort (host ++ ":" ++ port) = Except.ok (host, port) := by
  have hdata : (host ++ ":" ++ port).data = host.data ++ ':' :: port.data := by
    simp [String.data_append]
  have hlast := lastIndexByte_append host.data port.data ':' hp.1
  have hhead : ¬ (host.data ++ ':' :: port.data).head? = some '[' := by
    cases hd : host.data with
    | nil => simp
    | cons x xs =>
      simp only [List.cons_append, List.head?_cons, Option.some.injEq]
      intro e
      exact hh.2.1 (by rw [hd, e]; exact List.mem_cons_self _ _)
  have hopen : '[' ∉ host.data ++ ':' :: port.data := by
    simp only [List.mem_append, List.mem_cons, not_or]
    exact ⟨hh.2.1, by decide, hp.2.1⟩
  have hclose : ']' ∉ host.data ++ ':' :: port.data := by
    simp only [List.mem_append, List.mem_cons, not_or]
    exact ⟨hh.2.2, by decide, hp.2.2⟩
  unfold SplitHostPort
  simp only [hdata, hlast, hhead, if_false, List.take_left', List.drop_zero,
    indexByte_none _ _ hh.1, indexByte_none _ _ hopen, indexByte_none _ _ hclose,
    Option.isSome_none, Bool.false_eq_true]
  have hdrop : List.drop (host.data.length + 1) (host.data ++ ':' :: port.data)
      = port.data := by
    have h1 : host.data ++ ':' :: port.data = (host.data ++ [':']) ++ port.data := by simp
    rw [h1]
    exact List.drop_left' (by simp)
  rw [hdrop]

/-- The first piece of a split is the text before the first separator. -/
theorem splitChars_head (sep : Char) (e rest : List Char) (h : sep ∉ e) :
    (splitChars sep (e ++ sep :: rest)).head? = some e := by
  induction e with
  | nil => simp [splitChars]
  | cons x xs ih =>
    have hx : ¬ x = sep := fun e2 => h (e2 ▸ List.mem_cons_self _ _)
    have hxs : sep ∉ xs := fun hm => h (List.mem_cons_of_mem _ hm)
    have ih2 := ih hxs
    simp only [List.cons_append, splitChars, hx, if_false]
    cases hs : splitChars sep (xs ++ sep :: rest) with
    | nil => rw [hs] at ih2; simp at ih2
    | cons p ps =>
      rw [hs] at ih2
      simp only [List.head?_cons, Option.some.injEq] at ih2
      simp [ih2]

theorem clientIP_forwarded (r : Request) (p : String) (ps : List String)
    (hsplit : Split (r.Header "X-Forwarded-For") ',' = p :: ps) (hp : TrimSpace p ≠ "") :
    clientIP r = TrimSpace p := by
  have hx : r.Header "X-Forwarded-For" ≠ "" := by
    intro hx
    rw [hx] at hsplit
    have h1 : Split "" ',' = [""] := by decide
    rw [h1] at hsplit
    simp only [List.cons.injEq] at hsplit
    rw [← hsplit.1] at hp
    exact hp (by decide)
  unfold clientIP
  simp only [hx, ne_eq, not_false_eq_true, if_true, hsplit, hp]

theorem clientIP_remote (r : Request) (p : String) (ps : List String)
    (hsplit : Split (r.Header "X-Forwarded-For") ',' = p :: ps) (hp : TrimSpace p = "") :
    clientIP r =
      match SplitHostPort r.RemoteAddr with
      | Except.ok (host, _) => if host ≠ "" then host else r.RemoteAddr
      | Except.error _ => r.RemoteAddr := by
  unfold clientIP
  by_cases hx : r.Header "X-Forwarded-For" = ""
  · simp only [hx, ne_eq, not_true_eq_false, if_false]
  · simp only [hx, ne_eq, not_false_eq_true, if_true, hsplit, hp, not_true_eq_false, if_false]

theorem Split_ne_nil (s : String) (sep : Char) : Split s sep ≠ [] := by
  unfold Split
  have h : ∀ l : List Char, splitChars sep l ≠ [] := by
    intro l
    induction l with
    | nil => simp [splitChars]
    | cons x xs ih =>
      unfold splitChars
      by_cases hx : x = sep
      · simp [hx]
      · simp only [hx, if_false]
        cases hs : splitChars sep xs with
        | nil => simp
        | cons p ps => simp
  intro hnil
  exact h s.data (List.map_eq_nil_iff.mp hnil)

theorem Split_headD_comma (e rest : String) (h : ',' ∉ e.data) :
    (Split (e ++ "," ++ rest) ',').headD "" = e := by
  have hdata : (e ++ "," ++ rest).data = e.data ++ ',' :: rest.data := by
    simp [String.data_append]
  have hh := splitChars_head ',' e.data rest.data h
  unfold Split
  rw [hdata]
  cases hs : splitChars ',' (e.data ++ ',' :: rest.data) with
  | nil => rw [hs] at hh; simp at hh
  | cons p ps =>
    rw [hs] at hh
    simp only [List.head?_cons, Option.some.injEq] at hh
    simp [hh]

/-- C18: with `first` the first comma-separated entry of `X-Forwarded-For` (empty when the
header is absent), `clientIP` returns `first` trimmed when that is non-empty, whatever
`RemoteAddr` and the later entries are; otherwise it returns the host of `RemoteAddr` when
`net.SplitHostPort` succeeds with a non-empty host, and `RemoteAddr` itself when it does
not. -/
theorem clientIP_prefers_forwarded_for (r : Request) :
    (TrimSpace ((Split (r.Header "X-Forwarded-For") ',').headD "") ≠ "" →
      clientIP r = TrimSpace ((Split (r.Header "X-Forwarded-For") ',').headD "")) ∧
    (∀ e rest : String, ',' ∉ e.data → r.Header "X-Forwarded-For" = e ++ "," ++ rest →
      TrimSpace e ≠ "" → clientIP r = TrimSpace e) ∧
    (r.Header "X-Forwarded-For" = "" →
      TrimSpace ((Split (r.Header "X-Forwarded-For") ',').headD "") = "") ∧
    (TrimSpace ((Split (r.Header "X-Forwarded-For") ',').headD "") = "" →
      (∀ host port, SplitHostPort r.RemoteAddr = Except.ok (host, port) → host ≠ "" →
        clientIP r = host) ∧
      ((∀ host port, SplitHostPort r.RemoteAddr = Except.ok (host, port) → host = "") →
        clientIP r = r.RemoteAddr) ∧
      (∀ host port : String, ':' ∉ host.data ∧ '[' ∉ host.data ∧ ']' ∉ host.data →
        ':' ∉ port.data ∧ '[' ∉ port.data ∧ ']' ∉ port.data → host ≠ "" →
        r.RemoteAddr = host ++ ":" ++ port → clientIP r = host)) := by
  obtain ⟨p, ps, hsplit⟩ : ∃ p ps, Split (r.Header "X-Forwarded-For") ',' = p :: ps := by
    cases hs : Split (r.Header "X-Forwarded-For") ',' with
    | nil => exact absurd hs (Split_ne_nil _ _)
    | cons p ps => exact ⟨p, ps, rfl⟩
  have hfirst : (Split (r.Header "X-Forwarded-For") ',').headD "" = p := by
    rw [hsplit]; rfl
  rw [hfirst]
  have hfallback : TrimSpace p = "" →
      (∀ host port, SplitHostPort r.RemoteAddr = Except.ok (host, port) → host ≠ "" →
        clientIP r = host) ∧
      ((∀ host port, SplitHostPort r.RemoteAddr = Except.ok (host, port) → host = "") →
        clientIP r = r.RemoteAddr) := by
    intro hp
    have h := clientIP_remote r p ps hsplit hp
    constructor
    · intro host port hok hne
      rw [h, hok]
      simp [hne]
    · intro hall
      rw [h]
      cases hres : SplitHostPort r.RemoteAddr with
      | error e => rfl
      | ok hp2 =>
        obtain ⟨host, port⟩ := hp2
        have := hall host port hres
        simp [this]
  refine ⟨fun hp => clientIP_forwarded r p ps hsplit hp, ?_, ?_, ?_⟩
  · intro e rest he hx hte
    have h1 := Split_headD_comma e rest he
    rw [← hx, hfirst] at h1
    rw [← h1] at hte ⊢
    exact clientIP_forwarded r p ps hsplit hte
  · intro hx
    rw [hx] at hsplit
    have h1 : Split "" ',' = [""] := by decide
    rw [h1] at hsplit
    simp only [List.cons.injEq] at hsplit
    rw [← hsplit.1]
    decide
  · intro hp
    refine ⟨(hfallback hp).1, (hfallback hp).2, ?_⟩
    intro host port hh hpp hne haddr
    exact (hfallback hp).1 host port (by rw [haddr]; exact SplitHostPort_plain host port hh hpp)
      hne

/-! ## Theorems: the Redis-backed store methods -/

theorem Redis.ttlReply_of_live (r : Redis) (key : String) (v t : Int)
    (hk : r.keys key = some ⟨v, some t⟩) (hl : r.nowMs ≤ t) :
    r.ttlReply key = r.rounding.seconds (t - r.nowMs) := by
  simp [Redis.ttlReply, Redis.lookup, hk, hl]

/-- C19: `IsBlocked` does not report every live block.  A block record with 400
milliseconds to live is there, yet `IsBlocked` returns `(false, 0, nil)`, on a Redis server
and on miniredis; on miniredis the same holds with 999 milliseconds left; and with 4.7
seconds left it reports 5 seconds on a Redis server and 4 on miniredis.  What does hold, for
every identifier and state: `IsBlocked` returns `(true, ttl, nil)` exactly when its `TTL`
command is answered and the duration the client makes of the whole seconds of the reply is
positive, and `ttl` is that duration; when the command is answered and the key is missing,
expired or without expiry it returns `(false, 0, nil)`; `blocked = true` comes with a
positive duration and `blocked = false` with zero; the store is not changed. -/
theorem IsBlocked_reports_whole_seconds :
    (blockState TTLRounding.nearest 400).lookup (blockKey "token:abc")
      = some ⟨1, some 400⟩ ∧
    (Store.IsBlocked "token:abc" (blockState TTLRounding.nearest 400)).1 = (false, 0, none) ∧
    (Store.IsBlocked "token:abc" (blockState TTLRounding.down 400)).1 = (false, 0, none) ∧
    (Store.IsBlocked "token:abc" (blockState TTLRounding.down 999)).1 = (false, 0, none) ∧
    (Store.IsBlocked "token:abc" (blockState TTLRounding.nearest 4700)).1
      = (true, 5 * Second, none) ∧
    (Store.IsBlocked "token:abc" (blockState TTLRounding.down 4700)).1
      = (true, 4 * Second, none) ∧
    (Store.IsBlocked "token:abc" (blockState TTLRounding.nearest 4000)).1
      = (true, 4 * Second, none) ∧
    (∀ (id : String) (s : Redis),
      (∀ ttl : Duration, (Store.IsBlocked id s).1 = (true, ttl, none) ↔
        (s.fault.1 = none ∧ 0 < ttl ∧ ttl = s.remaining (blockKey id))) ∧
      s.remaining (blockKey id) = durationOfReply (s.ttlReply (blockKey id)) ∧
      (∀ v t, s.keys (blockKey id) = some ⟨v, some t⟩ → s.nowMs ≤ t →
        s.ttlReply (blockKey id) = s.rounding.seconds (t - s.nowMs)) ∧
      (s.fault.1 = none → s.ttlReply (blockKey id) ≤ 0 →
        (Store.IsBlocked id s).1 = (false, 0, none)) ∧
      (s.fault.1 = none → s.keys (blockKey id) = none →
        (Store.IsBlocked id s).1 = (false, 0, none)) ∧
      (s.fault.1 = none → ∀ v t, s.keys (blockKey id) = some ⟨v, some t⟩ → t < s.nowMs →
        (Store.IsBlocked id s).1 = (false, 0, none)) ∧
      (s.fault.1 = none → ∀ v, s.keys (blockKey id) = some ⟨v, none⟩ →
        (Store.IsBlocked id s).1 = (false, 0, none)) ∧
      ((Store.IsBlocked id s).1.1 = true → 0 < (Store.IsBlocked id s).1.2.1) ∧
      ((Store.IsBlocked id s).1.1 = false → (Store.IsBlocked id s).1.2.1 = 0) ∧
      (Store.IsBlocked id s).2.keys = s.keys ∧ (Store.IsBlocked id s).2.clock = s.clock) := by
  refine ⟨by decide, by decide, by decide, by decide, by decide, by decide, by decide, ?_⟩
  intro id s
  have heq := Store.IsBlocked_eq id s
  have hframe := Store.IsBlocked_frame id s
  have hnot : s.fault.1 = none → ¬ 0 < s.remaining (blockKey id) →
      (Store.IsBlocked id s).1 = (false, 0, none) := by
    intro hf hn
    rw [heq, hf]
    simp [hn]
  have hreply : s.fault.1 = none → s.ttlReply (blockKey id) ≤ 0 →
      (Store.IsBlocked id s).1 = (false, 0, none) :=
    fun hf h => hnot hf (Redis.not_blocked_of_ttlReply _ _ h)
  refine ⟨?_, rfl, fun v t hk hl => Redis.ttlReply_of_live s _ v t hk hl, hreply, ?_, ?_, ?_,
    ?_, ?_, hframe.1, hframe.2⟩
  · intro ttl
    rw [heq]
    cases hf : s.fault.1 with
    | some e => simp
    | none =>
      by_cases hpos : 0 < s.remaining (blockKey id)
      · simp only [hpos, if_true, true_and]
        constructor
        · intro h
          simp only [Prod.mk.injEq, true_and, and_true] at h
          rw [← h]
          exact ⟨hpos, rfl⟩
        · rintro ⟨_, h⟩
          rw [h]
      · simp only [hpos, if_false, true_and]
        constructor
        · intro h
          simp at h
        · rintro ⟨h1, h2⟩
          rw [h2] at h1
          exact absurd h1 hpos
  · intro hf hk
    apply hreply hf
    simp [Redis.ttlReply, Redis.lookup, hk]
  · intro hf v t hk ht
    apply hreply hf
    have hnl : ¬ s.nowMs ≤ t := by omega
    simp [Redis.ttlReply, Redis.lookup, hk, hnl]
  · intro hf v hk
    apply hreply hf
    simp [Redis.ttlReply, Redis.lookup, hk]
  · rw [heq]
    cases hf : s.fault.1 with
    | some e => simp
    | none =>
      by_cases hpos : 0 < s.remaining (blockKey id)
      · simp [hpos]
      · simp [hpos]
  · rw [heq]
    cases hf : s.fault.1 with
    | some e => simp
    | none =>
      by_cases hpos : 0 < s.remaining (blockKey id)
      · simp [hpos]
      · simp [hpos]

/-- What a successful `INCR` does, in terms of the value and expiry the key had. -/
theorem Redis.incr_command_ok (r : Redis) (key : String) (v : Int)
    (h : (r.Incr key).1 = Except.ok v) :
    r.fault.1 = none ∧ v = r.valueOf key + 1 ∧
      (r.Incr key).2 = r.fault.2.put key ⟨v, r.expiryOf key⟩ := by
  have hl := Redis.fault_lookup r key
  unfold Redis.Incr at h ⊢
  unfold Redis.valueOf Redis.expiryOf
  rcases hf : r.fault with ⟨f, r1⟩
  rw [hf] at h hl
  simp only [] at hl
  cases f with
  | some e => simp at h
  | none =>
    simp only [] at h ⊢
    rw [hl] at h ⊢
    cases hk : r.lookup key with
    | none =>
      rw [hk] at h
      simp only [Except.ok.injEq] at h
      subst h
      simp
    | some e =>
      rw [hk] at h
      by_cases hm : e.val < maxInt64
      · simp only [hm, if_true, Except.ok.injEq] at h
        subst h
        simp [hm]
      · simp [hm] at h

theorem Redis.incr_command_error (r : Redis) (key : String) (e : Error)
    (h : (r.Incr key).1 = Except.error e) (window : Duration) :
    (Store.Incr key window r).1 = (0, some e) := by
  unfold Store.Incr
  rcases hi : r.Incr key with ⟨res, s1⟩
  rw [hi] at h
  simp only [] at h
  subst h
  rfl

/-- What `Expire` does to a live key, by the fate of the command. -/
theorem Redis.expire_command_live (r : Redis) (key : String) (d : Int) (e : RedisEntry)
    (hl : r.lookup key = some e) :
    (r.fault.1 = none → 0 < d →
      (r.Expire key d).2 = r.fault.2.put key ⟨e.val, some (r.nowMs + formatSec d * 1000)⟩) ∧
    (r.fault.1 = none → d ≤ 0 → (r.Expire key d).2 = r.fault.2.del key) ∧
    (∀ err, r.fault.1 = some err → (r.Expire key d).2 = r.fault.2) := by
  have hl2 := Redis.fault_lookup r key
  have hc := r.fault_nowMs
  unfold Redis.Expire
  rcases hf : r.fault with ⟨f, r1⟩
  rw [hf] at hl2 hc
  simp only [] at hl2 hc
  rw [hl] at hl2
  refine ⟨?_, ?_, ?_⟩
  · intro hnone hd
    simp only [] at hnone
    subst hnone
    have hpos := formatSec_pos d hd
    have hnot : ¬ formatSec d * 1000 ≤ 0 := by omega
    simp [hl2, hnot, hc]
  · intro hnone hd
    simp only [] at hnone
    subst hnone
    have hnp := formatSec_nonpos d hd
    have hyes : formatSec d * 1000 ≤ 0 := by omega
    simp [hl2, hyes]
  · intro err hsome
    simp only [] at hsome
    subst hsome
    rfl

theorem Redis.expiryOf_live (r : Redis) (key : String) (t : Int)
    (h : r.expiryOf key = some t) : r.nowMs ≤ t := by
  unfold Redis.expiryOf Redis.lookup at h
  cases hk : r.keys key with
  | none => simp [hk] at h
  | some e =>
    obtain ⟨v, x⟩ := e
    cases x with
    | none => simp [hk] at h
    | some t2 =>
      by_cases hlt : r.nowMs ≤ t2
      · simp [hk, hlt] at h
        omega
      · simp [hk, hlt] at h

theorem Redis.lookup_put_self (r : Redis) (key : String) (v : Int) (x : Option Int)
    (hlive : ∀ t, x = some t → r.nowMs ≤ t) : (r.put key ⟨v, x⟩).lookup key = some ⟨v, x⟩ := by
  cases x with
  | none => simp [Redis.lookup]
  | some t => simp [Redis.lookup, hlive t rfl]

theorem Redis.lookup_del_self (r : Redis) (key : String) : (r.del key).lookup key = none := by
  simp [Redis.lookup]

theorem Redis.put_fault (r : Redis) (key : String) (e : RedisEntry) :
    (r.put key e).fault = (r.fault.1, r.fault.2.put key e) := by
  obtain ⟨c, k, fl, rd⟩ := r
  cases fl <;> rfl

/-- C20 (as stated) fails: on `expireFailsState` the call `Incr("k", 1s)` succeeds and returns
1, yet the key is left without expiry because the failure of `Expire` is discarded; on
`zeroCounterState` an increment of an existing key returns 1 and replaces the ten seconds
the key had by one second; and on an empty server a window of 1.5 seconds, of half a second
or of one nanosecond gives the new counter one second to live, since the client sends whole
seconds. -/
theorem incr_expiry_counterexample :
    (Store.Incr "k" Second expireFailsState).1 = (1, none) ∧
    (Store.Incr "k" Second expireFailsState).2.lookup "k" = some ⟨1, none⟩ ∧
    zeroCounterState.lookup "k" = some ⟨0, some 10000⟩ ∧
    (Store.Incr "k" Second zeroCounterState).1 = (1, none) ∧
    (Store.Incr "k" Second zeroCounterState).2.lookup "k" = some ⟨1, some 1000⟩ ∧
    (Store.Incr "k" 1500000000 (Redis.empty 0)).2.lookup "k" = some ⟨1, some 1000⟩ ∧
    (Store.Incr "k" 500000000 (Redis.empty 0)).2.lookup "k" = some ⟨1, some 1000⟩ ∧
    (Store.Incr "k" 1 (Redis.empty 0)).2.lookup "k" = some ⟨1, some 1000⟩ := by
  decide

/-- C20 (amended): a `Store.Incr` that returns a nil error returns the stored value plus one
(a missing or expired key counting as 0).  When that value is not 1 the key keeps the
expiry it had and one command was issued.  When it is 1 a second command, `Expire`, was
issued: if it succeeds the key expires `formatSec window` whole seconds after the time the
server reads, that is the seconds of `window` without their fraction and one second for a
positive window of less than a second, and is deleted at once for a non-positive window; if
it fails the key keeps the expiry it had, which is none for a new key. -/
theorem incr_adds_one_and_expires_in_whole_seconds (key : String) (window : Int) (s : Redis)
    (hok : (Store.Incr key window s).1.2 = none) :
    (Store.Incr key window s).1.1 = s.valueOf key + 1 ∧
    ((Store.Incr key window s).1.1 ≠ 1 →
      (Store.Incr key window s).2.lookup key
        = some ⟨s.valueOf key + 1, s.expiryOf key⟩ ∧
      (Store.Incr key window s).2.faults = s.fault.2.faults) ∧
    ((Store.Incr key window s).1.1 = 1 →
      (Store.Incr key window s).2.faults = s.fault.2.fault.2.faults ∧
      (s.fault.2.fault.1 = none → 0 < window →
        (Store.Incr key window s).2.lookup key
          = some ⟨1, some (s.nowMs + formatSec window * 1000)⟩) ∧
      (s.fault.2.fault.1 = none → window ≤ 0 →
        (Store.Incr key window s).2.lookup key = none) ∧
      (∀ e, s.fault.2.fault.1 = some e →
        (Store.Incr key window s).2.lookup key = some ⟨1, s.expiryOf key⟩)) ∧
    (0 < window → window < 1000000000 → formatSec window = 1) ∧
    (1000000000 ≤ window → formatSec window = window / 1000000000) := by
  have hfs1 : 0 < window → window < 1000000000 → formatSec window = 1 := by
    intro h1 h2
    rw [formatSec_of_nonneg window (le_of_lt h1)]
    simp [h1, h2]
  have hfs2 : 1000000000 ≤ window → formatSec window = window / 1000000000 := by
    intro h1
    rw [formatSec_of_nonneg window (by omega)]
    have : ¬ (0 < window ∧ window < 1000000000) := by omega
    rw [if_neg this]
  cases hres : (s.Incr key).1 with
  | error e =>
    have := Redis.incr_command_error s key e hres window
    rw [this] at hok
    simp at hok
  | ok v =>
    obtain ⟨_, hv, hpost⟩ := Redis.incr_command_ok s key v hres
    have hnow : s.fault.2.nowMs = s.nowMs := s.fault_nowMs
    have hlive : ∀ t, s.expiryOf key = some t → s.fault.2.nowMs ≤ t := by
      intro t ht
      rw [hnow]
      exact Redis.expiryOf_live s key t ht
    have hpair : s.Incr key = (Except.ok v, s.fault.2.put key ⟨v, s.expiryOf key⟩) := by
      rw [← hpost, ← hres]
    by_cases h1 : v = 1
    · -- the expiry command is issued
      have hstore : Store.Incr key window s
          = ((v, none), ((s.fault.2.put key ⟨v, s.expiryOf key⟩).Expire key window).2) := by
        simp only [Store.Incr, hpair, h1, if_true]
      have hl1 := Redis.lookup_put_self s.fault.2 key v (s.expiryOf key) hlive
      have hfa := Redis.put_fault s.fault.2 key ⟨v, s.expiryOf key⟩
      obtain ⟨hE1, hE2, hE3⟩ :=
        Redis.expire_command_live (s.fault.2.put key ⟨v, s.expiryOf key⟩) key window _ hl1
      rw [hfa] at hE1 hE2 hE3
      simp only [Redis.put_nowMs] at hE1 hE2 hE3
      have hnow2 : s.fault.2.fault.2.nowMs = s.nowMs := by
        rw [s.fault.2.fault_nowMs, hnow]
      rw [hstore]
      simp only []
      refine ⟨hv, fun hne => absurd h1 hne, fun _ => ⟨?_, ?_, ?_, ?_⟩, hfs1, hfs2⟩
      · cases hf2 : s.fault.2.fault.1 with
        | some e => rw [hE3 e hf2]; rfl
        | none =>
          by_cases hw : 0 < window
          · rw [hE1 hf2 hw]; rfl
          · rw [hE2 hf2 (not_lt.mp hw)]; rfl
      · intro hf2 hw
        rw [hE1 hf2 hw, hnow, h1]
        apply Redis.lookup_put_self
        intro t ht
        simp only [Option.some.injEq] at ht
        simp only [Redis.put_nowMs]
        rw [hnow2]
        have := formatSec_pos window hw
        omega
      · intro hf2 hw
        rw [hE2 hf2 hw]
        exact Redis.lookup_del_self _ _
      · intro e hf2
        rw [hE3 e hf2, ← h1]
        apply Redis.lookup_put_self
        intro t ht
        rw [hnow2]
        exact Redis.expiryOf_live s key t ht
    · have hstore : Store.Incr key window s
          = ((v, none), s.fault.2.put key ⟨v, s.expiryOf key⟩) := by
        simp only [Store.Incr, hpair, h1, if_false]
      rw [hstore]
      simp only []
      refine ⟨hv, fun _ => ⟨?_, rfl⟩, fun h => absurd h h1, hfs1, hfs2⟩
      rw [← hv]
      exact Redis.lookup_put_self s.fault.2 key v (s.expiryOf key) hlive

/-! ## Theorems: parsing the override table -/

theorem overrideOfItem_cases (p : String) :
    (∃ f0 f1 f2 lim blk, Split p ':' = [f0, f1, f2] ∧ ParseInt (TrimSpace f1) = Except.ok lim ∧
        ParseInt (TrimSpace f2) = Except.ok blk ∧
        overrideOfItem p = some (TrimSpace f0, ⟨lim, blk⟩)) ∨
    (overrideOfItem p = none ∧
      ¬ ∃ f0 f1 f2 lim blk, Split p ':' = [f0, f1, f2] ∧
        ParseInt (TrimSpace f1) = Except.ok lim ∧ ParseInt (TrimSpace f2) = Except.ok blk) := by
  unfold overrideOfItem
  rcases hs : Split p ':' with _ | ⟨f0, _ | ⟨f1, _ | ⟨f2, _ | ⟨f3, r⟩⟩⟩⟩
  · right; simp
  · right; simp
  · right; simp
  · cases h1 : ParseInt (TrimSpace f1) with
    | error e => right; simp [h1]
    | ok lim =>
      cases h2 : ParseInt (TrimSpace f2) with
      | error e => right; simp [h1, h2]
      | ok blk => left; exact ⟨f0, f1, f2, lim, blk, rfl, h1, h2, by simp [h1, h2]⟩
  · right; simp

/-- One round of the loop on a part whose trimmed text is a well-formed item. -/
theorem parseOverrideParts_cons_some (part : String) (rest : List String)
    (table : String → Option TokenOverride) (token : String) (ov : TokenOverride)
    (hne : TrimSpace part ≠ "") (hitem : overrideOfItem (TrimSpace part) = some (token, ov)) :
    parseOverrideParts (part :: rest) table
      = parseOverrideParts rest (fun k => if k = token then some ov else table k) := by
  rcases overrideOfItem_cases (TrimSpace part) with
    ⟨f0, f1, f2, lim, blk, hs, h1, h2, hov⟩ | ⟨hnone, _⟩
  · rw [hov] at hitem
    simp only [Option.some.injEq, Prod.mk.injEq] at hitem
    obtain ⟨rfl, rfl⟩ := hitem
    simp only [parseOverrideParts, hne, if_false, hs, h1, h2]
  · rw [hnone] at hitem
    exact absurd hitem (by simp)

/-- One round of the loop on a part whose trimmed text is a malformed item. -/
theorem parseOverrideParts_cons_none (part : String) (rest : List String)
    (table : String → Option TokenOverride)
    (hne : TrimSpace part ≠ "") (hitem : overrideOfItem (TrimSpace part) = none) :
    (parseOverrideParts (part :: rest) table).1 ≠ none ∧
      (parseOverrideParts (part :: rest) table).2 = table := by
  unfold overrideOfItem at hitem
  unfold parseOverrideParts
  simp only [hne, if_false]
  rcases hs : Split (TrimSpace part) ':' with _ | ⟨f0, _ | ⟨f1, _ | ⟨f2, _ | ⟨f3, r⟩⟩⟩⟩
  · simp
  · simp
  · simp
  · rw [hs] at hitem
    cases h1 : ParseInt (TrimSpace f1) with
    | error e => simp [h1]
    | ok lim =>
      cases h2 : ParseInt (TrimSpace f2) with
      | error e => simp [h1, h2]
      | ok blk => simp [h1, h2] at hitem
  · simp

theorem parseOverrideParts_cons_empty (part : String) (rest : List String)
    (table : String → Option TokenOverride) (hempty : TrimSpace part = "") :
    parseOverrideParts (part :: rest) table = parseOverrideParts rest table := by
  simp only [parseOverrideParts, hempty, if_true]

/-- The loop fails exactly when some non-empty trimmed part is malformed. -/
theorem parseOverrideParts_error_iff (parts : List String) :
    ∀ table : String → Option TokenOverride,
      (parseOverrideParts parts table).1 ≠ none ↔
        ∃ p ∈ (parts.map TrimSpace).filter (fun p => p ≠ ""), overrideOfItem p = none := by
  induction parts with
  | nil => intro table; simp [parseOverrideParts]
  | cons part rest ih =>
    intro table
    by_cases hempty : TrimSpace part = ""
    · rw [parseOverrideParts_cons_empty part rest table hempty, ih]
      simp [hempty]
    · cases hitem : overrideOfItem (TrimSpace part) with
      | none =>
        constructor
        · intro _
          exact ⟨TrimSpace part, by simp [hempty], hitem⟩
        · intro _
          exact (parseOverrideParts_cons_none part rest table hempty hitem).1
      | some tv =>
        obtain ⟨token, ov⟩ := tv
        rw [parseOverrideParts_cons_some part rest table token ov hempty hitem, ih]
        simp [hempty, hitem]

/-- When every item is well formed the loop leaves the table with, for each token, the rule
of the last item naming it, and the previous entry for a token no item names. -/
theorem parseOverrideParts_table (parts : List String) :
    ∀ table : String → Option TokenOverride,
      (∀ p ∈ (parts.map TrimSpace).filter (fun p => p ≠ ""), overrideOfItem p ≠ none) →
      ∀ token, (parseOverrideParts parts table).2 token =
        match lastOverride
          (((parts.map TrimSpace).filter (fun p => p ≠ "")).filterMap overrideOfItem) token with
        | some ov => some ov
        | none => table token := by
  induction parts with
  | nil => intro table _ token; simp [parseOverrideParts, lastOverride]
  | cons part rest ih =>
    intro table hall token
    by_cases hempty : TrimSpace part = ""
    · rw [parseOverrideParts_cons_empty part rest table hempty]
      have hall2 : ∀ p ∈ (rest.map TrimSpace).filter (fun p => p ≠ ""),
          overrideOfItem p ≠ none := by
        intro p hp
        exact hall p (by simpa [hempty] using hp)
      rw [ih table hall2 token]
      simp [hempty]
    · have hmem : TrimSpace part ∈ ((part :: rest).map TrimSpace).filter (fun p => p ≠ "") := by
        simp [hempty]
      cases hitem : overrideOfItem (TrimSpace part) with
      | none => exact absurd hitem (hall _ hmem)
      | some tv =>
        obtain ⟨tok, ov⟩ := tv
        have hall2 : ∀ p ∈ (rest.map TrimSpace).filter (fun p => p ≠ ""),
            overrideOfItem p ≠ none := by
          intro p hp
          exact hall p (by
            simp only [List.map_cons, List.filter_cons, ne_eq, hempty, not_false_eq_true,
              decide_True, if_true, List.mem_cons]
            exact Or.inr (by simpa using hp))
        rw [parseOverrideParts_cons_some part rest table tok ov hempty hitem,
          ih _ hall2 token]
        simp only [List.map_cons, List.filter_cons, ne_eq, hempty, not_false_eq_true,
          decide_True, if_true, List.filterMap_cons, hitem, lastOverride]
        cases lastOverride
          (((rest.map TrimSpace).filter (fun p => p ≠ "")).filterMap overrideOfItem) token with
        | some x => rfl
        | none =>
          by_cases hk : token = tok
          · subst hk; simp
          · have hk2 : ¬ tok = token := fun h => hk h.symm
            simp [hk, hk2]

theorem splitChars_ne_nil (sep : Char) (l : List Char) : splitChars sep l ≠ [] := by
  induction l with
  | nil => simp [splitChars]
  | cons x xs ih =>
    unfold splitChars
    by_cases hx : x = sep
    · simp [hx]
    · simp only [hx, if_false]
      cases hs : splitChars sep xs with
      | nil => simp
      | cons p ps => simp

theorem splitChars_cons_ne (sep c : Char) (cs : List Char) (hc : c ≠ sep) :
    ∃ p ps, splitChars sep cs = p :: ps ∧ splitChars sep (c :: cs) = (c :: p) :: ps := by
  cases hs : splitChars sep cs with
  | nil => exact absurd hs (splitChars_ne_nil sep cs)
  | cons p ps => exact ⟨p, ps, rfl, by simp [splitChars, hc, hs]⟩

theorem splitChars_no_sep (sep : Char) (b : List Char) (h : sep ∉ b) :
    splitChars sep b = [b] := by
  induction b with
  | nil => rfl
  | cons x xs ih =>
    have hx : x ≠ sep := fun e => h (e ▸ List.mem_cons_self _ _)
    have hxs : sep ∉ xs := fun hm => h (List.mem_cons_of_mem _ hm)
    simp [splitChars, hx, ih hxs]

/-- Text without separator appended to a list only lengthens the last piece. -/
theorem splitChars_append (sep : Char) (a b : List Char) (h : sep ∉ b) :
    splitChars sep (a ++ b)
      = (splitChars sep a).dropLast ++ [(splitChars sep a).getLastD [] ++ b] := by
  induction a with
  | nil => simp [splitChars_no_sep sep b h, splitChars]
  | cons c cs ih =>
    by_cases hc : c = sep
    · subst hc
      have h1 : splitChars c (c :: (cs ++ b)) = [] :: splitChars c (cs ++ b) := by
        simp [splitChars]
      have h2 : splitChars c (c :: cs) = [] :: splitChars c cs := by simp [splitChars]
      rw [List.cons_append, h1, h2, ih]
      cases hs : splitChars c cs with
      | nil => exact absurd hs (splitChars_ne_nil c cs)
      | cons p ps => simp [List.dropLast]
    · obtain ⟨p, ps, hs, hs2⟩ := splitChars_cons_ne sep c cs hc
      obtain ⟨q, qs, ht, ht2⟩ := splitChars_cons_ne sep c (cs ++ b) hc
      rw [List.cons_append, ht2, hs2]
      rw [ih, hs] at ht
      cases ps with
      | nil =>
        simp only [List.dropLast_single, List.nil_append, List.getLastD_cons,
          List.getLastD_nil, List.cons.injEq] at ht
        simp [← ht.1, ← ht.2]
      | cons p2 ps2 =>
        simp only [List.dropLast_cons₂, List.cons_append, List.cons.injEq] at ht
        simp [← ht.1, ← ht.2]

/-- The trimmed text of a character list, as `TrimSpace` computes it. -/
theorem TrimSpace_data (s : String) :
    (TrimSpace s).data = ((s.data.dropWhile isSpace).reverse.dropWhile isSpace).reverse := rfl

theorem dropWhile_append_all (p : Char → Bool) (a b : List Char) (h : ∀ c ∈ a, p c = true) :
    (a ++ b).dropWhile p = b.dropWhile p := by
  induction a with
  | nil => rfl
  | cons x xs ih =>
    have hx : p x = true := h x (List.mem_cons_self _ _)
    simp only [List.cons_append, List.dropWhile_cons, hx, if_true]
    exact ih (fun c hc => h c (List.mem_cons_of_mem _ hc))

theorem dropWhile_all (p : Char → Bool) (a : List Char) (h : ∀ c ∈ a, p c = true) :
    a.dropWhile p = [] := by
  have := dropWhile_append_all p a [] h
  simpa using this

theorem dropWhile_append_not_all (p : Char → Bool) (a b : List Char)
    (h : ¬ ∀ c ∈ a, p c = true) : (a ++ b).dropWhile p = a.dropWhile p ++ b := by
  induction a with
  | nil => exact absurd (fun c hc => absurd hc (List.not_mem_nil c)) h
  | cons x xs ih =>
    by_cases hx : p x = true
    · have h2 : ¬ ∀ c ∈ xs, p c = true := by
        intro hall
        apply h
        intro c hc
        rcases List.mem_cons.mp hc with rfl | hc2
        · exact hx
        · exact hall c hc2
      simp only [List.cons_append, List.dropWhile_cons, hx, if_true]
      exact ih h2
    · simp [List.dropWhile_cons, hx]

theorem TrimSpace_eq_trimChars (s : String) : TrimSpace s = ⟨trimChars s.data⟩ := rfl

theorem trimChars_append_spaces (x ws : List Char) (h : ∀ c ∈ ws, isSpace c = true) :
    trimChars (x ++ ws) = trimChars x := by
  unfold trimChars
  by_cases hx : ∀ c ∈ x, isSpace c = true
  · have hall : ∀ c ∈ x ++ ws, isSpace c = true := by
      intro c hc
      rcases List.mem_append.mp hc with h1 | h1
      · exact hx c h1
      · exact h c h1
    rw [dropWhile_all isSpace _ hall, dropWhile_all isSpace _ hx]
  · rw [dropWhile_append_not_all isSpace x ws hx, List.reverse_append,
      dropWhile_append_all isSpace ws.reverse _
        (fun c hc => h c (List.mem_reverse.mp hc))]

theorem trimChars_cons_space (c : Char) (p : List Char) (hc : isSpace c = true) :
    trimChars (c :: p) = trimChars p := by
  unfold trimChars
  simp [List.dropWhile_cons, hc]

/-- Leading white space of the whole text does not change the trimmed pieces. -/
theorem split_dropWhile_space (l : List Char) :
    (splitChars ',' (l.dropWhile isSpace)).map trimChars
      = (splitChars ',' l).map trimChars := by
  induction l with
  | nil => rfl
  | cons c cs ih =>
    by_cases hc : isSpace c = true
    · have hne : c ≠ ',' := by
        intro e
        rw [e] at hc
        revert hc
        decide
      obtain ⟨p, ps, hs, hs2⟩ := splitChars_cons_ne ',' c cs hne
      simp only [List.dropWhile_cons, hc, if_true]
      rw [ih, hs2, hs]
      simp [trimChars_cons_space c p hc]
    · simp [List.dropWhile_cons, hc]

/-- Trailing white space of the whole text does not change the trimmed pieces. -/
theorem split_append_spaces (r ws : List Char) (h : ∀ c ∈ ws, isSpace c = true) :
    (splitChars ',' (r ++ ws)).map trimChars = (splitChars ',' r).map trimChars := by
  have hsep : ',' ∉ ws := by
    intro hm
    have := h ',' hm
    revert this
    decide
  rw [splitChars_append ',' r ws hsep]
  have hne := splitChars_ne_nil ',' r
  generalize splitChars ',' r = X at hne
  have hX : X = X.dropLast ++ [X.getLastD []] := by
    cases hx : X.reverse with
    | nil => exact absurd (List.reverse_eq_nil_iff.mp hx) hne
    | cons y ys =>
      have : X = ys.reverse ++ [y] := by
        have := congrArg List.reverse hx
        simpa using this
      rw [this]
      simp
  conv_rhs => rw [hX]
  simp [trimChars_append_spaces _ ws h]

theorem split_trimChars (l : List Char) :
    (splitChars ',' (trimChars l)).map trimChars = (splitChars ',' l).map trimChars := by
  have hdecomp : l.dropWhile isSpace
      = trimChars l ++ ((l.dropWhile isSpace).reverse.takeWhile isSpace).reverse := by
    unfold trimChars
    rw [← List.reverse_append, List.takeWhile_append_dropWhile, List.reverse_reverse]
  have hws : ∀ c ∈ ((l.dropWhile isSpace).reverse.takeWhile isSpace).reverse,
      isSpace c = true := by
    intro c hc
    exact List.mem_takeWhile_imp (List.mem_reverse.mp hc)
  rw [← split_dropWhile_space l, hdecomp, split_append_spaces _ _ hws]

/-- Trimming the whole setting first does not change its items. -/
theorem overrideItems_TrimSpace (env : String) :
    overrideItems (TrimSpace env) = overrideItems env := by
  unfold overrideItems
  congr 1
  unfold Split
  rw [TrimSpace_eq_trimChars]
  simp only [List.map_map]
  have h := split_trimChars env.data
  have hf : (TrimSpace ∘ String.mk) = (String.mk ∘ trimChars) := by
    funext l
    rfl
  rw [hf, ← List.map_map, ← List.map_map, h]

theorem overrideItems_of_empty (env : String) (h : TrimSpace env = "") :
    overrideItems env = [] := by
  rw [← overrideItems_TrimSpace, h]
  decide

/-- C22: `parseTokenOverrides` returns an error exactly when some item of the setting (a
comma-separated piece, trimmed, non-empty) is malformed, that is, does not split at colons
into exactly three fields whose second and third, trimmed, `strconv.ParseInt` accepts as
base-10 `int64`; when it returns nil, the table maps each token to the rule of the last item
naming it (trimmed first field) and is unchanged for tokens no item names, empty items
being skipped. -/
theorem parseTokenOverrides_error_iff_malformed_item (env : String) (cfg : Config) :
    ((parseTokenOverrides env cfg).1 ≠ none ↔
      ∃ p ∈ overrideItems env, overrideOfItem p = none) ∧
    ((parseTokenOverrides env cfg).1 = none →
      ∀ token, (parseTokenOverrides env cfg).2.TokenOverrides token =
        match lastOverride ((overrideItems env).filterMap overrideOfItem) token with
        | some ov => some ov
        | none => cfg.TokenOverrides token) ∧
    (∀ p, overrideOfItem p = none ↔
      ¬ ∃ f0 f1 f2 lim blk, Split p ':' = [f0, f1, f2] ∧
        ParseInt (TrimSpace f1) = Except.ok lim ∧ ParseInt (TrimSpace f2) = Except.ok blk) ∧
    (∀ p f0 f1 f2 lim blk, Split p ':' = [f0, f1, f2] →
      ParseInt (TrimSpace f1) = Except.ok lim → ParseInt (TrimSpace f2) = Except.ok blk →
      overrideOfItem p = some (TrimSpace f0, ⟨lim, blk⟩)) ∧
    (ParseInt "100" = Except.ok 100 ∧ ParseInt "-5" = Except.ok (-5) ∧
      ParseInt "9223372036854775807" = Except.ok maxInt64 ∧
      ParseInt "-9223372036854775808" = Except.ok minInt64 ∧
      ParseInt "9223372036854775808" = Except.error NumError.ErrRange ∧
      ParseInt "" = Except.error NumError.ErrSyntax ∧
      ParseInt "1e3" = Except.error NumError.ErrSyntax ∧
      ParseInt "0x10" = Except.error NumError.ErrSyntax) := by
  have hitems : ∀ p, overrideOfItem p = none ↔
      ¬ ∃ f0 f1 f2 lim blk, Split p ':' = [f0, f1, f2] ∧
        ParseInt (TrimSpace f1) = Except.ok lim ∧ ParseInt (TrimSpace f2) = Except.ok blk := by
    intro p
    rcases overrideOfItem_cases p with ⟨f0, f1, f2, lim, blk, hs, h1, h2, hov⟩ | ⟨hnone, hno⟩
    · constructor
      · intro h; rw [hov] at h; exact absurd h (by simp)
      · intro h; exact absurd ⟨f0, f1, f2, lim, blk, hs, h1, h2⟩ h
    · exact ⟨fun _ => hno, fun _ => hnone⟩
  have hsome : ∀ p f0 f1 f2 lim blk, Split p ':' = [f0, f1, f2] →
      ParseInt (TrimSpace f1) = Except.ok lim → ParseInt (TrimSpace f2) = Except.ok blk →
      overrideOfItem p = some (TrimSpace f0, ⟨lim, blk⟩) := by
    intro p f0 f1 f2 lim blk hs h1 h2
    simp [overrideOfItem, hs, h1, h2]
  refine ⟨?_, ?_, hitems, hsome, by rfl, by rfl, by rfl, by rfl, by rfl, by rfl, by rfl, by rfl⟩
  · by_cases hraw : TrimSpace env = ""
    · simp [parseTokenOverrides, hraw, overrideItems_of_empty env hraw]
    · have h := parseOverrideParts_error_iff (Split (TrimSpace env) ',') cfg.TokenOverrides
      have hi : ((Split (TrimSpace env) ',').map TrimSpace).filter (fun p => p ≠ "")
          = overrideItems env := overrideItems_TrimSpace env
      rw [hi] at h
      simpa [parseTokenOverrides, hraw] using h
  · intro hok token
    by_cases hraw : TrimSpace env = ""
    · simp [parseTokenOverrides, hraw, overrideItems_of_empty env hraw, lastOverride]
    · have hi : ((Split (TrimSpace env) ',').map TrimSpace).filter (fun p => p ≠ "")
          = overrideItems env := overrideItems_TrimSpace env
      have herr := parseOverrideParts_error_iff (Split (TrimSpace env) ',') cfg.TokenOverrides
      have hok2 : (parseOverrideParts (Split (TrimSpace env) ',') cfg.TokenOverrides).1
          = none := by
        simpa [parseTokenOverrides, hraw] using hok
      have hall : ∀ p ∈ ((Split (TrimSpace env) ',').map TrimSpace).filter
          (fun p => p ≠ ""), overrideOfItem p ≠ none := by
        intro p hp hbad
        exact (herr.mpr ⟨p, hp, hbad⟩) hok2
      have h := parseOverrideParts_table (Split (TrimSpace env) ',') cfg.TokenOverrides hall
        token
      rw [hi] at h
      simpa [parseTokenOverrides, hraw] using h

/-- Example: on the setting ` abc:100:60 , , xyz: 5 :1,abc:1:2 ` there is no error, the later rule for
`abc` wins, the empty item is skipped; and `abc:100:60,bad` is rejected. -/
theorem parseTokenOverrides_example :
    (parseTokenOverrides " abc:100:60 , , xyz: 5 :1,abc:1:2 " baseConfig).1 = none ∧
    (parseTokenOverrides " abc:100:60 , , xyz: 5 :1,abc:1:2 " baseConfig).2.TokenOverrides
      "abc" = some ⟨1, 2⟩ ∧
    (parseTokenOverrides " abc:100:60 , , xyz: 5 :1,abc:1:2 " baseConfig).2.TokenOverrides
      "xyz" = some ⟨5, 1⟩ ∧
    (parseTokenOverrides " abc:100:60 , , xyz: 5 :1,abc:1:2 " baseConfig).2.TokenOverrides
      "other" = none ∧
    (parseTokenOverrides "abc:100:60,bad" baseConfig).1
      = some (OverrideError.invalidItem "bad") := by
  decide

/-! ## Theorems: failures of store commands -/

/-- C21 (as stated) fails: on `expireFailsState` the `INCR` issued by `Incr("k", 1s)` creates
the counter, the `EXPIRE` it issues next fails with `connection reset`, and `Incr` still
returns the count 1 with a nil error, leaving the counter without expiry. -/
theorem incr_discards_expire_failure_counterexample :
    (expireFailsState.Incr "k").1 = Except.ok 1 ∧
    ((expireFailsState.Incr "k").2.Expire "k" Second).1 = Except.error "connection reset" ∧
    (Store.Incr "k" Second expireFailsState).1 = (1, none) ∧
    (Store.Incr "k" Second expireFailsState).2.lookup "k" = some ⟨1, none⟩ := by
  refine ⟨by rfl, by rfl, by decide, by decide⟩

theorem Store.Incr_of_ok (key : String) (window : Duration) (s : Redis) (v : Int)
    (h : (s.Incr key).1 = Except.ok v) :
    Store.Incr key window s =
      ((v, none), if v = 1 then ((s.Incr key).2.Expire key window).2 else (s.Incr key).2) := by
  rcases hi : s.Incr key with ⟨res, s1⟩
  rw [hi] at h
  simp only [] at h
  subst h
  by_cases h1 : v = 1
  · simp [Store.Incr, hi, h1]
  · simp [Store.Incr, hi, h1]

theorem Store.SetBlock_eq (id : String) (blockFor : Duration) (s : Redis) :
    (Store.SetBlock id blockFor s).1 =
      match (s.Set (blockKey id) 1 blockFor).1 with
      | Except.error e => some e
      | Except.ok _ => none := by
  rcases hi : s.Set (blockKey id) 1 blockFor with ⟨res, s1⟩
  cases res <;> simp only [Store.SetBlock, hi]

theorem Store.IsBlocked_of_error (id : String) (s : Redis) (e : Error)
    (h : (s.TTL (blockKey id)).1 = Except.error e) :
    (Store.IsBlocked id s).1 = (false, 0, some e) := by
  rcases hi : s.TTL (blockKey id) with ⟨res, s1⟩
  rw [hi] at h
  simp only [] at h
  subst h
  simp only [Store.IsBlocked, hi]

theorem Store.IsBlocked_of_ok (id : String) (s : Redis) (ttl : Duration)
    (h : (s.TTL (blockKey id)).1 = Except.ok ttl) :
    (Store.IsBlocked id s).1.2.2 = none := by
  rcases hi : s.TTL (blockKey id) with ⟨res, s1⟩
  rw [hi] at h
  simp only [] at h
  subst h
  by_cases hpos : ttl > 0
  · simp [Store.IsBlocked, hi, hpos]
  · simp [Store.IsBlocked, hi, hpos]

/-- C21 (amended): a failure of the `INCR` issued by `Store.Incr`, of the `SET` issued by
`Store.SetBlock` and of the `TTL` issued by `Store.IsBlocked` is returned to the caller as
that error, and these methods return a nil error when that command succeeds; the failure of
the `EXPIRE` that `Store.Incr` issues after an `INCR` returning 1 is discarded: `Incr` then
returns the count 1 with a nil error and the state the failed command left. -/
theorem store_surfaces_command_failures_except_expire (key id : String)
    (window blockFor : Duration) (s : Redis) :
    (∀ e, (s.Incr key).1 = Except.error e → (Store.Incr key window s).1 = (0, some e)) ∧
    (∀ v, (s.Incr key).1 = Except.ok v → (Store.Incr key window s).1 = (v, none)) ∧
    (∀ e, (s.Set (blockKey id) 1 blockFor).1 = Except.error e →
      (Store.SetBlock id blockFor s).1 = some e) ∧
    (∀ u, (s.Set (blockKey id) 1 blockFor).1 = Except.ok u →
      (Store.SetBlock id blockFor s).1 = none) ∧
    (∀ e, (s.TTL (blockKey id)).1 = Except.error e →
      (Store.IsBlocked id s).1 = (false, 0, some e)) ∧
    (∀ ttl, (s.TTL (blockKey id)).1 = Except.ok ttl → (Store.IsBlocked id s).1.2.2 = none) ∧
    (∀ e, (s.Incr key).1 = Except.ok 1 →
      ((s.Incr key).2.Expire key window).1 = Except.error e →
      Store.Incr key window s = ((1, none), ((s.Incr key).2.Expire key window).2)) := by
  refine ⟨?_, ?_, ?_, ?_, ?_, ?_, ?_⟩
  · intro e h
    exact Redis.incr_command_error s key e h window
  · intro v h
    rw [Store.Incr_of_ok key window s v h]
  · intro e h
    rw [Store.SetBlock_eq, h]
  · intro u h
    rw [Store.SetBlock_eq, h]
  · intro e h
    exact Store.IsBlocked_of_error id s e h
  · intro ttl h
    exact Store.IsBlocked_of_ok id s ttl h
  · intro e h _
    rw [Store.Incr_of_ok key window s 1 h]
    simp

/-! ## Theorems: identifiers of distinct credentials -/

/-- C23 (as stated) fails: the trimmed credentials `a b` and `a_b` are distinct, yet both get
the identifier `token:a_b`, hence the same window counter and the same block record. -/
theorem distinct_credentials_share_identifier_counterexample :
    TrimSpace "a b" = "a b" ∧ TrimSpace "a_b" = "a_b" ∧ "a b" ≠ "a_b" ∧
    safeIdentifier ("token:" ++ "a b") = safeIdentifier ("token:" ++ "a_b") ∧
    windowKey (safeIdentifier ("token:" ++ "a b")) 1700000000
      = windowKey (safeIdentifier ("token:" ++ "a_b")) 1700000000 ∧
    blockKey (safeIdentifier ("token:" ++ "a b"))
      = blockKey (safeIdentifier ("token:" ++ "a_b")) := by
  decide

theorem safeIdentifier_append (a b : String) :
    safeIdentifier (a ++ b) = safeIdentifier a ++ safeIdentifier b := by
  apply String.ext
  rw [String.data_append, safeIdentifier_data, safeIdentifier_data, safeIdentifier_data,
    String.data_append, List.map_append]

theorem safeIdentifier_clean (c : String)
    (h : ∀ x ∈ c.data, x ≠ ' ' ∧ x ≠ '\n' ∧ x ≠ '\r') : safeIdentifier c = c := by
  apply String.ext
  rw [safeIdentifier_data]
  conv_rhs => rw [← List.map_id c.data]
  apply List.map_congr_left
  intro x hx
  obtain ⟨h1, h2, h3⟩ := h x hx
  simp [h1, h2, h3]

theorem token_identifier_eq_iff (c1 c2 : String) :
    safeIdentifier ("token:" ++ c1) = safeIdentifier ("token:" ++ c2) ↔
      safeIdentifier c1 = safeIdentifier c2 := by
  rw [safeIdentifier_append, safeIdentifier_append]
  constructor
  · intro h
    have h2 := congrArg String.data h
    rw [String.data_append, String.data_append] at h2
    exact String.ext (List.append_cancel_left h2)
  · intro h
    rw [h]

/-- C23 (amended): two credentials get the same token-derived identifier exactly when they
become equal once every space, newline and carriage return is replaced by an underscore; so
distinct credentials that contain none of these three characters get distinct identifiers,
distinct window counters and distinct block records. -/
theorem token_identifiers_distinct_up_to_sanitising (c1 c2 : String) :
    (safeIdentifier ("token:" ++ c1) = safeIdentifier ("token:" ++ c2) ↔
      safeIdentifier c1 = safeIdentifier c2) ∧
    ((∀ x ∈ c1.data, x ≠ ' ' ∧ x ≠ '\n' ∧ x ≠ '\r') →
      (∀ x ∈ c2.data, x ≠ ' ' ∧ x ≠ '\n' ∧ x ≠ '\r') → c1 ≠ c2 →
      safeIdentifier ("token:" ++ c1) ≠ safeIdentifier ("token:" ++ c2) ∧
      (∀ s t : Int, windowKey (safeIdentifier ("token:" ++ c1)) s
        ≠ windowKey (safeIdentifier ("token:" ++ c2)) t) ∧
      blockKey (safeIdentifier ("token:" ++ c1))
        ≠ blockKey (safeIdentifier ("token:" ++ c2))) := by
  refine ⟨token_identifier_eq_iff c1 c2, ?_⟩
  intro h1 h2 hne
  have hid : safeIdentifier ("token:" ++ c1) ≠ safeIdentifier ("token:" ++ c2) := by
    intro h
    have h3 := (token_identifier_eq_iff c1 c2).mp h
    rw [safeIdentifier_clean c1 h1, safeIdentifier_clean c2 h2] at h3
    exact hne h3
  exact ⟨hid, fun s t h => hid (windowKey_injective _ _ s t h).1,
    fun h => hid (blockKey_injective _ _ h)⟩

/-! ## Theorems: what one check can change -/

theorem Redis.valueOf_congr (r r2 : Redis) (key : String) (hk : r2.keys key = r.keys key)
    (hc : r2.clock = r.clock) : r2.valueOf key = r.valueOf key := by
  unfold Redis.valueOf Redis.lookup Redis.nowMs
  rw [hk, hc]

theorem Redis.incr_command_failed (r : Redis) (key : String) (e : Error)
    (h : (r.Incr key).1 = Except.error e) : (r.Incr key).2 = r.fault.2 := by
  unfold Redis.Incr at h ⊢
  rcases hf : r.fault with ⟨f, r1⟩
  rw [hf] at h
  cases f with
  | some e2 => rfl
  | none =>
    simp only [] at h ⊢
    cases hk : r1.lookup key with
    | none => rw [hk] at h; simp at h
    | some en =>
      rw [hk] at h
      by_cases hm : en.val < maxInt64
      · simp [hm] at h
      · simp [hm]

/-- One `Store.Incr` with a positive window leaves the live value of its key as it was or one
higher. -/
theorem Store.Incr_valueOf (key : String) (window : Int) (s : Redis) (hw : 0 < window) :
    (Store.Incr key window s).2.valueOf key = s.valueOf key ∨
      (Store.Incr key window s).2.valueOf key = s.valueOf key + 1 := by
  have hclock : s.fault.2.clock = s.clock := s.fault_frame.2.1
  have hnow : s.fault.2.nowMs = s.nowMs := s.fault_nowMs
  cases hres : (s.Incr key).1 with
  | error e =>
    left
    have hst : (Store.Incr key window s).2 = (s.Incr key).2 := by
      rcases hi : s.Incr key with ⟨res, s1⟩
      rw [hi] at hres
      simp only [] at hres
      subst hres
      simp only [Store.Incr, hi]
    rw [hst, Redis.incr_command_failed s key e hres]
    exact Redis.valueOf_congr s _ key (by rw [s.fault_frame.1]) hclock
  | ok v =>
    right
    obtain ⟨_, hv, hpost⟩ := Redis.incr_command_ok s key v hres
    have hlive : ∀ t, s.expiryOf key = some t → s.fault.2.nowMs ≤ t := by
      intro t ht
      rw [hnow]
      exact Redis.expiryOf_live s key t ht
    have hl1 := Redis.lookup_put_self s.fault.2 key v (s.expiryOf key) hlive
    rw [Store.Incr_of_ok key window s v hres, hpost]
    simp only []
    by_cases h1 : v = 1
    · simp only [h1, if_true]
      rw [h1] at hl1
      obtain ⟨hE1, _, hE3⟩ :=
        Redis.expire_command_live (s.fault.2.put key ⟨1, s.expiryOf key⟩) key window _ hl1
      have hfa := Redis.put_fault s.fault.2 key ⟨1, s.expiryOf key⟩
      rw [hfa] at hE1 hE3
      simp only [Redis.put_nowMs] at hE1 hE3
      have hnow2 : s.fault.2.fault.2.nowMs = s.nowMs := by
        rw [s.fault.2.fault_nowMs, hnow]
      have hval : ∀ r : Redis, r.lookup key = some ⟨1, s.expiryOf key⟩ ∨
          (∃ x, r.lookup key = some ⟨1, x⟩) → r.valueOf key = s.valueOf key + 1 := by
        intro r hr
        rw [← hv, h1]
        rcases hr with hr | ⟨x, hr⟩ <;> simp [Redis.valueOf, hr]
      cases hf2 : s.fault.2.fault.1 with
      | some err =>
        rw [hE3 err hf2]
        apply hval
        left
        apply Redis.lookup_put_self
        intro t ht
        rw [hnow2]
        exact Redis.expiryOf_live s key t ht
      | none =>
        rw [hE1 hf2 hw]
        apply hval
        right
        refine ⟨_, Redis.lookup_put_self _ key 1 _ ?_⟩
        intro t ht
        simp only [Option.some.injEq] at ht
        simp only [Redis.put_nowMs]
        rw [hnow2]
        have := formatSec_pos window hw
        rw [hnow] at ht
        omega
    · simp only [h1, if_false]
      rw [← hv]
      simp [Redis.valueOf, hl1]

/-- C24: one `Check` on the Redis store, whatever the state and whichever commands fail,
leaves every window counter of another identifier or another second, every other
identifier's block record and in fact every key but its own window counter and block record
unchanged, and does not move the clock; the live value of its own window counter stays or
goes up by exactly one, and stays when `Incr` was not called; `Incr` is called at most once;
and the outcome is the same for every sub-second part of `now`. -/
theorem check_changes_only_own_records (identifier : String) (N : Int) (B : Duration)
    (now : Time) (s : Redis) :
    (∀ (id2 : String) (sec2 : Int), id2 ≠ identifier ∨ sec2 ≠ now.Unix →
      (redisLimiter.Check identifier N B now s).store.keys (windowKey id2 sec2)
        = s.keys (windowKey id2 sec2)) ∧
    (∀ id2 : String, id2 ≠ identifier →
      (redisLimiter.Check identifier N B now s).store.keys (blockKey id2)
        = s.keys (blockKey id2)) ∧
    (∀ k, k ≠ windowKey identifier now.Unix → k ≠ blockKey identifier →
      (redisLimiter.Check identifier N B now s).store.keys k = s.keys k) ∧
    (redisLimiter.Check identifier N B now s).store.clock = s.clock ∧
    ((redisLimiter.Check identifier N B now s).store.valueOf (windowKey identifier now.Unix)
        = s.valueOf (windowKey identifier now.Unix) ∨
      (redisLimiter.Check identifier N B now s).store.valueOf (windowKey identifier now.Unix)
        = s.valueOf (windowKey identifier now.Unix) + 1) ∧
    (StoreCall.Incr (windowKey identifier now.Unix) Second
        ∉ (redisLimiter.Check identifier N B now s).calls →
      (redisLimiter.Check identifier N B now s).store.valueOf (windowKey identifier now.Unix)
        = s.valueOf (windowKey identifier now.Unix)) ∧
    ((redisLimiter.Check identifier N B now s).calls = [] ∨
      (redisLimiter.Check identifier N B now s).calls = [StoreCall.IsBlocked identifier] ∨
      (redisLimiter.Check identifier N B now s).calls
        = [StoreCall.IsBlocked identifier,
            StoreCall.Incr (windowKey identifier now.Unix) Second] ∨
      (redisLimiter.Check identifier N B now s).calls
        = [StoreCall.IsBlocked identifier,
            StoreCall.Incr (windowKey identifier now.Unix) Second,
            StoreCall.SetBlock identifier B]) ∧
    (∀ nsec2 : Nat, redisLimiter.Check identifier N B ⟨now.sec, nsec2⟩ s
      = redisLimiter.Check identifier N B now s) := by
  obtain ⟨hkeys, hclock, _⟩ := check_frame identifier N B now s
  have hS : (0 : Int) < Second := by decide
  obtain ⟨hk1, hc1⟩ := Store.IsBlocked_frame identifier s
  have hv1 : (Store.IsBlocked identifier s).2.valueOf (windowKey identifier now.Unix)
      = s.valueOf (windowKey identifier now.Unix) :=
    Redis.valueOf_congr s _ _ (by rw [hk1]) hc1
  have hv2 := Store.Incr_valueOf (windowKey identifier now.Unix) Second
    (Store.IsBlocked identifier s).2 hS
  rw [hv1] at hv2
  obtain ⟨hk3, hc3, _⟩ := Store.SetBlock_frame identifier B
    (Store.Incr (windowKey identifier now.Unix) Second (Store.IsBlocked identifier s).2).2
  have hv3 : (Store.SetBlock identifier B
      (Store.Incr (windowKey identifier now.Unix) Second
        (Store.IsBlocked identifier s).2).2).2.valueOf (windowKey identifier now.Unix)
      = (Store.Incr (windowKey identifier now.Unix) Second
        (Store.IsBlocked identifier s).2).2.valueOf (windowKey identifier now.Unix) :=
    Redis.valueOf_congr _ _ _ (hk3 _ (windowKey_ne_blockKey _ _ _)) hc3
  have hshape := check_shape redisLimiter identifier N B now s
  refine ⟨?_, ?_, hkeys, hclock, ?_, ?_, ?_, fun _ => rfl⟩
  · intro id2 sec2 hdiff
    apply hkeys _ _ (windowKey_ne_blockKey _ _ _)
    intro h
    obtain ⟨h1, h2⟩ := windowKey_injective _ _ _ _ h
    rcases hdiff with hd | hd
    · exact hd h1
    · exact hd h2
  · intro id2 hdiff
    apply hkeys _ (fun h => windowKey_ne_blockKey _ _ _ h.symm)
    intro h
    exact hdiff (blockKey_injective _ _ h)
  · rcases hshape with ⟨hst, _⟩ | ⟨hst, _⟩ | ⟨hst, _⟩ | ⟨hst, _⟩
    · left; rw [hst]
    · left; rw [hst]; exact hv1
    · rw [hst]; exact hv2
    · rw [hst]
      rcases hv2 with h | h
      · left; exact hv3.trans h
      · right; exact hv3.trans h
  · intro hnot
    rcases hshape with ⟨hst, _⟩ | ⟨hst, _⟩ | ⟨_, hcalls⟩ | ⟨_, hcalls⟩
    · rw [hst]
    · rw [hst]; exact hv1
    · exact absurd (by rw [hcalls]; simp) hnot
    · exact absurd (by rw [hcalls]; simp) hnot
  · rcases hshape with ⟨_, hcalls⟩ | ⟨_, hcalls⟩ | ⟨_, hcalls⟩ | ⟨_, hcalls⟩
    · exact Or.inl hcalls
    · exact Or.inr (Or.inl hcalls)
    · exact Or.inr (Or.inr (Or.inl hcalls))
    · exact Or.inr (Or.inr (Or.inr hcalls))

/-! ## Witnesses -/

/-- Witness for C1 (amended): limit 2, block 5s, empty store; the second check comes 0.3
seconds after the first and the third 0.4 seconds after the second. -/
theorem check_first_N_allowed_next_denied_within_window_witness :
    (Redis.empty 0).faults = [] ∧
    (Redis.empty 0).ttlReply (blockKey "token:abc") ≤ 0 ∧
    (Redis.empty 0).lookup (windowKey "token:abc" 1700000000) = none ∧
    (checkSeq "token:abc" 2 (5 * Second)
        [(0, ⟨1700000000, 0⟩), (300000000, ⟨1700000000, 300000000⟩),
          (400000000, ⟨1700000000, 700000000⟩)]
        (Redis.empty 0)).map Outcome.verdict
      = [(⟨true, 0⟩, none), (⟨true, 0⟩, none), (⟨false, 5 * Second⟩, none)] :=
  ⟨rfl, by decide, by decide,
    check_first_N_allowed_next_denied_within_window "token:abc" 2 (5 * Second)
      ⟨1700000000, 0⟩ (Redis.empty 0)
      [(300000000, ⟨1700000000, 300000000⟩), (400000000, ⟨1700000000, 700000000⟩)]
      (by decide) (by decide) rfl (by decide) (by decide) rfl (by decide) (by decide)⟩

/-- Witness for C2: a blocked identifier with an empty window is denied with the remaining
four seconds. -/
theorem check_blocked_denies_without_counting_witness :
    redisLimiter.Check "token:abc" 2 (5 * Second) ⟨100, 0⟩ blockedState
      = ⟨⟨false, 4 * Second⟩, none, blockedState, [StoreCall.IsBlocked "token:abc"]⟩ :=
  check_blocked_denies_without_counting redisLimiter "token:abc" 2 (5 * Second) ⟨100, 0⟩
    blockedState blockedState (4 * Second) (by decide) rfl

/-- Witness for C3: limit 0 on a store that is down and reports the identifier blocked. -/
theorem check_nonpositive_limit_bypasses_store_witness :
    redisLimiter.Check "token:abc" 0 (5 * Second) ⟨100, 0⟩ blockedDownState
      = ⟨⟨true, 0⟩, none, blockedDownState, []⟩ :=
  check_nonpositive_limit_bypasses_store redisLimiter "token:abc" 0 (5 * Second) ⟨100, 0⟩
    blockedDownState (by decide)

/-- Witness for C4: limit 2, block 5s; four seconds after the exceeding call the check is
still denied, with at most five seconds reported. -/
theorem check_admitted_before_block_ends_witness :
    (redisLimiter.Check "token:abc" 2 (5 * Second) ⟨100, 0⟩ atLimitState).verdict
      = (⟨false, 5 * Second⟩, none) ∧
    (redisLimiter.Check "token:abc" 2 (5 * Second) ⟨104, 0⟩
      ((redisLimiter.Check "token:abc" 2 (5 * Second) ⟨100, 0⟩ atLimitState).store.advance
        (4 * Second))).res.Allowed = false ∧
    (redisLimiter.Check "token:abc" 2 (5 * Second) ⟨104, 0⟩
      ((redisLimiter.Check "token:abc" 2 (5 * Second) ⟨100, 0⟩ atLimitState).store.advance
        (4 * Second))).res.RetryAfter ≤ 5 * Second :=
  ⟨by decide,
    (check_admitted_before_block_ends.2.2.2.2.2.2.2 "token:abc" 2 (5 * Second) ⟨100, 0⟩
      atLimitState [(4 * Second, ⟨104, 0⟩)] (by decide) (by decide) (by decide) (by decide)
      (by decide) (by decide) (by decide) (by decide) (by decide) _
      (List.mem_cons_self _ _)).1,
    (check_admitted_before_block_ends.2.2.2.2.2.2.2 "token:abc" 2 (5 * Second) ⟨100, 0⟩
      atLimitState [(4 * Second, ⟨104, 0⟩)] (by decide) (by decide) (by decide) (by decide)
      (by decide) (by decide) (by decide) (by decide) (by decide) _
      (List.mem_cons_self _ _)).2.2.1⟩

/-- Witness for C5: limit 2, block 5s; six seconds after the exceeding call at second 100
the two checks at second 106, made 0.7 seconds apart, are allowed. -/
theorem check_allowed_again_after_block_expiry_witness :
    (redisLimiter.Check "token:abc" 2 (5 * Second) ⟨100, 0⟩ atLimitState).verdict
      = (⟨false, 5 * Second⟩, none) ∧
    (checkSeq "token:abc" 2 (5 * Second) [(0, ⟨106, 0⟩), (700000000, ⟨106, 700000000⟩)]
        ((redisLimiter.Check "token:abc" 2 (5 * Second) ⟨100, 0⟩ atLimitState).store.advance
          (6 * Second))).map Outcome.verdict
      = [(⟨true, 0⟩, none), (⟨true, 0⟩, none)] :=
  ⟨by decide,
    check_allowed_again_after_block_expiry "token:abc" 2 (5 * Second) (6 * Second) ⟨100, 0⟩
      ⟨106, 0⟩ atLimitState [(0, ⟨106, 0⟩), (700000000, ⟨106, 700000000⟩)] (by decide)
      (by decide) (by decide) rfl (by decide) (by decide) (by decide) (by decide) (by decide)
      (by decide) rfl (by decide)⟩

/-- Witness for C6 (amended): limit 2, block 5s, counter at 2: `SetBlock` is the third and
last call and the verdict carries the block duration. -/
theorem check_exceed_blocks_iff_positive_duration_witness :
    (redisLimiter.Check "token:abc" 2 (5 * Second) ⟨100, 0⟩ atLimitState).calls
      = [StoreCall.IsBlocked "token:abc", StoreCall.Incr (windowKey "token:abc" 100) Second,
          StoreCall.SetBlock "token:abc" (5 * Second)] ∧
    (redisLimiter.Check "token:abc" 2 (5 * Second) ⟨100, 0⟩ atLimitState).res
      = ⟨false, 5 * Second⟩ :=
  ⟨((check_exceed_blocks_iff_positive_duration redisLimiter "token:abc" 2 (5 * Second) 0 3
      ⟨100, 0⟩ atLimitState atLimitState
      (atLimitState.put (windowKey "token:abc" 100) ⟨3, some 1000⟩) (by decide) (by decide)
      rfl rfl).1 (by decide) (by decide)).1,
    (((check_exceed_blocks_iff_positive_duration redisLimiter "token:abc" 2 (5 * Second) 0 3
      ⟨100, 0⟩ atLimitState atLimitState
      (atLimitState.put (windowKey "token:abc" 100) ⟨3, some 1000⟩) (by decide) (by decide)
      rfl rfl).1 (by decide) (by decide)).2.2.2.1 (by decide)).1⟩

/-- Witness for C7: the store is down, so `IsBlocked` fails and `Check` returns that error
after this one call. -/
theorem check_passes_store_errors_through_witness :
    redisLimiter.Check "token:abc" 2 (5 * Second) ⟨100, 0⟩ downState
      = ⟨⟨false, 0⟩, some "connection refused", downStateAfter,
          [StoreCall.IsBlocked "token:abc"]⟩ :=
  (check_passes_store_errors_through redisLimiter "token:abc" 2 (5 * Second) ⟨100, 0⟩
    downState (by decide)).1 false 0 "connection refused" downStateAfter rfl

/-- Witness for C8: the store is down; the handler answers `internal error`. -/
theorem handler_error_fails_closed_witness :
    (tokenMiddleware.Handler abcRequest ⟨100, 0⟩ downState).1
      = httpError "internal error" 500 ∧
    nextCalls (tokenMiddleware.Handler abcRequest ⟨100, 0⟩ downState).1 = [] :=
  ⟨(handler_error_fails_closed tokenMiddleware abcRequest ⟨100, 0⟩ downState downStateAfter
      Result.zero "connection refused" rfl).1,
    (handler_error_fails_closed tokenMiddleware abcRequest ⟨100, 0⟩ downState downStateAfter
      Result.zero "connection refused" rfl).2.2.1⟩

/-- Witness for C9: the credential is blocked for four more seconds; the handler answers 429
with `Retry-After: 4`. -/
theorem handler_denial_response_witness :
    (tokenMiddleware.Handler abcRequest ⟨100, 0⟩ blockedState).1
      = [Effect.setHeader "Content-Type" "application/json",
          Effect.setHeader "Retry-After" "4",
          Effect.writeHeader 429, Effect.write denialBody] :=
  (handler_denial_response tokenMiddleware abcRequest ⟨100, 0⟩ blockedState blockedState
    ⟨false, 4 * Second⟩ rfl (by rfl)).1.trans (by rfl)

/-- Witness for C10: on an empty store the first request is passed to the next handler. -/
theorem handler_calls_next_iff_allowed_witness :
    (tokenMiddleware.Handler abcRequest ⟨100, 0⟩ (Redis.empty 0)).1 = [Effect.next abcRequest] :=
  ((handler_calls_next_iff_allowed tokenMiddleware abcRequest ⟨100, 0⟩ (Redis.empty 0)).2
    ⟨rfl, rfl⟩).1

/-- Witness for C12: in automatic mode the request with credential `abc` resolves as in token
mode and the request without credential as in address mode. -/
theorem resolveRule_auto_as_token_or_ip_witness :
    autoMiddleware.cfg.Mode = ModeAuto ∧
    autoMiddleware.resolveRule abcRequest
      = (autoMiddleware.withMode ModeToken).resolveRule abcRequest ∧
    autoMiddleware.resolveRule abcRequest = ("token:abc", 100, 60) ∧
    autoMiddleware.resolveRule forwardedRequest
      = (autoMiddleware.withMode ModeIP).resolveRule forwardedRequest ∧
    autoMiddleware.resolveRule forwardedRequest = ("ip:9.9.9.9", 10, 300) :=
  ⟨rfl,
    ((resolveRule_auto_as_token_or_ip autoMiddleware abcRequest rfl).1 (by decide)).1,
    by decide,
    (resolveRule_auto_as_token_or_ip autoMiddleware forwardedRequest rfl).2 (by decide),
    by decide⟩

/-- Witness for C13: in address mode the override configured for `abc` is ignored. -/
theorem resolveRule_ip_mode_default_rule_witness :
    (autoMiddleware.withMode ModeIP).cfg.TokenOverrides "abc" = some ⟨100, 60⟩ ∧
    (autoMiddleware.withMode ModeIP).resolveRule abcRequest = ("ip:1.2.3.4", 10, 300) :=
  ⟨by decide,
    (resolveRule_ip_mode_default_rule (autoMiddleware.withMode ModeIP) abcRequest rfl).1.trans
      (by decide)⟩

/-- Witness for C14: in token mode the credential `abc` gets its override. -/
theorem resolveRule_token_mode_override_or_default_witness :
    ((autoMiddleware.withMode ModeToken).resolveRule abcRequest).1 = "token:abc" ∧
    ((autoMiddleware.withMode ModeToken).resolveRule abcRequest).2 = (100, 60) :=
  ⟨(resolveRule_token_mode_override_or_default (autoMiddleware.withMode ModeToken) abcRequest
      rfl).1.trans (by decide),
    (resolveRule_token_mode_override_or_default (autoMiddleware.withMode ModeToken) abcRequest
      rfl).2.1 ⟨100, 60⟩ (by decide)⟩

/-- Witness for C20 (amended): a live counter at 3 goes to 4 and keeps its deadline. -/
theorem incr_adds_one_and_expires_in_whole_seconds_witness :
    (Store.Incr "k" Second liveCounterState).1.2 = none ∧
    (Store.Incr "k" Second liveCounterState).1.1 = liveCounterState.valueOf "k" + 1 ∧
    (Store.Incr "k" Second liveCounterState).2.lookup "k"
      = some ⟨liveCounterState.valueOf "k" + 1, liveCounterState.expiryOf "k"⟩ :=
  ⟨by decide,
    (incr_adds_one_and_expires_in_whole_seconds "k" Second liveCounterState (by decide)).1,
    ((incr_adds_one_and_expires_in_whole_seconds "k" Second liveCounterState
      (by decide)).2.1 (by decide)).1⟩

end RateLimiter

